import Mathlib

/-!
# memorylog: the chunk ring and the record-append protocol

A shallow embedding of `mt_ring_queue.hh` and `memorylog.cc`.

* `size_t` / `uintptr_t` values are natural numbers reduced modulo `WORD = 2 ^ 64`
  wherever the source does arithmetic on them.
* Pointers are addresses (natural numbers); `0` is `nullptr`.
* The `for (;;)` slot searches of the ring take a fuel argument and return `none`
  when the fuel runs out before the loop exits; every function that calls them passes
  the fuel on.
* Memory is a map from addresses to bytes. A `GlobalContext` carries the memory its
  buffer lies in; the buffer is a window of it, so a store past the end of the buffer
  is visible as a store outside the window. The `fill_point` of a chunk is stored in
  the first 8 bytes of the chunk, as in the source.
* What the environment decides is an argument: the outcome of `new` in `initialize`
  and whether `compare_exchange_weak` fails spuriously.
* Execution is sequential: atomic operations are plain reads and writes.
-/

namespace memorylog

/-- Number of values of a `size_t` / `uintptr_t` (64-bit target). -/
def WORD : Nat := 2 ^ 64

/-- Value stored by `std::atomic<size_t>::fetch_add(d)`. -/
def fetch_add (x d : Nat) : Nat := (x + d) % WORD

/-- Value stored by `std::atomic<size_t>::fetch_sub(d)`. -/
def fetch_sub (x d : Nat) : Nat := (x + WORD - d % WORD) % WORD

/-! ## `RingPtrQueue` (mt_ring_queue.hh) -/

/-- Data members of `RingPtrQueue<PTR_TYPE, DELETE_ELEMS>`; `Buffer` is the slot array. -/
structure RingPtrQueue where
  Size : Nat
  SpaceSemaphore : Nat
  ElemSemaphore : Nat
  Head : Nat
  Tail : Nat
  Buffer : List Nat

/-- Constructor `RingPtrQueue(size)`: `ElemSemaphore(size)`, the other counters `0`,
the slot array zeroed by `memset`. -/
def RingPtrQueue.construct (size : Nat) : RingPtrQueue :=
  { Size := size, SpaceSemaphore := 0, ElemSemaphore := size, Head := 0, Tail := 0,
    Buffer := List.replicate size 0 }

/-- Member `book_space`. -/
def RingPtrQueue.book_space (q : RingPtrQueue) : Bool × RingPtrQueue :=
  let let_me_pass := (q.SpaceSemaphore + 1) % WORD
  let q1 := { q with SpaceSemaphore := fetch_add q.SpaceSemaphore 1 }
  if let_me_pass ≤ q.Size then (true, q1)
  else (false, { q1 with SpaceSemaphore := fetch_sub q1.SpaceSemaphore 1 })

/-- Member `book_elem`. -/
def RingPtrQueue.book_elem (q : RingPtrQueue) : Bool × RingPtrQueue :=
  let let_me_pass := (q.ElemSemaphore + 1) % WORD
  let q1 := { q with ElemSemaphore := fetch_add q.ElemSemaphore 1 }
  if let_me_pass ≤ q.Size then (true, q1)
  else (false, { q1 with ElemSemaphore := fetch_sub q1.ElemSemaphore 1 })

/-- The `for (;;)` loop of `enqueue`: draw `slot = Tail++ % Size`, try the
compare-exchange of the slot from `nullptr` to `elem`, on success decrement
`ElemSemaphore` and leave, otherwise draw again. (The loop is entered only after
`book_space` passed; in sequential use that needs `Size ≥ 1`, so `% Size` is defined.) -/
def RingPtrQueue.enqueue_loop : Nat → RingPtrQueue → Nat → Option RingPtrQueue
  | 0, _, _ => none
  | fuel + 1, q, elem =>
    let slot := q.Tail % q.Size
    let q1 := { q with Tail := fetch_add q.Tail 1 }
    if q1.Buffer.getD slot 0 = 0 then
      some { q1 with Buffer := q1.Buffer.set slot elem,
                     ElemSemaphore := fetch_sub q1.ElemSemaphore 1 }
    else RingPtrQueue.enqueue_loop fuel q1 elem

/-- Member `enqueue(elem)`. -/
def RingPtrQueue.enqueue (fuel : Nat) (q : RingPtrQueue) (elem : Nat) :
    Option (Bool × RingPtrQueue) :=
  let r := q.book_space
  if r.1 = false then some (false, r.2)
  else (RingPtrQueue.enqueue_loop fuel r.2 elem).map (fun q2 => (true, q2))

/-- The `for (;;)` loop of `dequeue`: draw `slot = Head++ % Size`, exchange the slot
with `nullptr`; a non-null element decrements `SpaceSemaphore` and is returned. -/
def RingPtrQueue.dequeue_loop : Nat → RingPtrQueue → Option (Nat × RingPtrQueue)
  | 0, _ => none
  | fuel + 1, q =>
    let slot := q.Head % q.Size
    let q1 := { q with Head := fetch_add q.Head 1 }
    let elem := q1.Buffer.getD slot 0
    let q2 := { q1 with Buffer := q1.Buffer.set slot 0 }
    if elem ≠ 0 then
      some (elem, { q2 with SpaceSemaphore := fetch_sub q2.SpaceSemaphore 1 })
    else RingPtrQueue.dequeue_loop fuel q2

/-- Member `dequeue()`; the result `0` is `nullptr`. -/
def RingPtrQueue.dequeue (fuel : Nat) (q : RingPtrQueue) : Option (Nat × RingPtrQueue) :=
  let r := q.book_elem
  if r.1 = false then some (0, r.2)
  else RingPtrQueue.dequeue_loop fuel r.2

/-- Non-null pointers stored in the slots, in slot order. -/
def RingPtrQueue.stored (q : RingPtrQueue) : List Nat := q.Buffer.filter (fun p => p ≠ 0)

/-- Shape of a ring in sequential use: the slot array has `Size` entries of 8 bytes
(so its byte size is a `size_t`), the two semaphores agree with the number of stored
pointers, the cursors are `size_t` values. -/
structure RingPtrQueue.Inv (q : RingPtrQueue) : Prop where
  len : q.Buffer.length = q.Size
  size_lt : 8 * q.Size < WORD
  space : q.SpaceSemaphore = q.stored.length
  elems : q.ElemSemaphore + q.SpaceSemaphore = q.Size
  head_lt : q.Head < WORD
  tail_lt : q.Tail < WORD

/-- Rings that sequential use produces: a constructed ring (whose array of `size`
8-byte slots could be allocated), followed by completed calls of `enqueue` on non-null
pointers and of `dequeue`. -/
inductive RingPtrQueue.Reachable : RingPtrQueue → Prop
  | construct (size : Nat) (h : 8 * size < WORD) : Reachable (RingPtrQueue.construct size)
  | enqueue (fuel : Nat) (q : RingPtrQueue) (elem : Nat) (b : Bool) (q' : RingPtrQueue) :
      Reachable q → elem ≠ 0 → q.enqueue fuel elem = some (b, q') → Reachable q'
  | dequeue (fuel : Nat) (q : RingPtrQueue) (e : Nat) (q' : RingPtrQueue) :
      Reachable q → q.dequeue fuel = some (e, q') → Reachable q'

/-- A call made on the ring by its single user. -/
inductive RingCall where
  | enqueue (elem : Nat)
  | dequeue
  deriving DecidableEq

/-- What a call on the ring returned. -/
inductive RingReturn where
  | enqueued (put : Bool)
  | dequeued (elem : Nat)
  deriving DecidableEq

/-- One call on the ring in sequential execution. -/
def RingPtrQueue.call (fuel : Nat) (q : RingPtrQueue) :
    RingCall → Option (RingReturn × RingPtrQueue)
  | RingCall.enqueue elem => (q.enqueue fuel elem).map (fun r => (RingReturn.enqueued r.1, r.2))
  | RingCall.dequeue => (q.dequeue fuel).map (fun r => (RingReturn.dequeued r.1, r.2))

/-- A sequence of calls on the ring in sequential execution, with what each returned. -/
def RingPtrQueue.calls (fuel : Nat) :
    RingPtrQueue → List RingCall → Option (List RingReturn × RingPtrQueue)
  | q, [] => some ([], q)
  | q, c :: cs =>
    match q.call fuel c with
    | none => none
    | some (r, q1) =>
      match RingPtrQueue.calls fuel q1 cs with
      | none => none
      | some (rs, q2) => some (r :: rs, q2)

/-- Pointers whose `enqueue` returned true. -/
def accepted : List RingCall → List RingReturn → List Nat
  | RingCall.enqueue elem :: cs, RingReturn.enqueued true :: rs => elem :: accepted cs rs
  | _ :: cs, _ :: rs => accepted cs rs
  | _, _ => []

/-- Pointers returned non-null by `dequeue`. -/
def delivered : List RingReturn → List Nat
  | [] => []
  | RingReturn.dequeued elem :: rs => if elem ≠ 0 then elem :: delivered rs else delivered rs
  | RingReturn.enqueued _ :: rs => delivered rs

/-- The list model of the bounded FIFO queue of capacity `N`, as the specification words
it: `enqueue` appends at the back when the length is below `N` and fails otherwise,
`dequeue` pops the front and returns null on the empty list. -/
def BoundedFifo.call (N : Nat) (l : List Nat) : RingCall → RingReturn × List Nat
  | RingCall.enqueue elem =>
    if l.length < N then (RingReturn.enqueued true, l ++ [elem])
    else (RingReturn.enqueued false, l)
  | RingCall.dequeue =>
    match l with
    | [] => (RingReturn.dequeued 0, [])
    | x :: t => (RingReturn.dequeued x, t)

/-- A sequence of calls on the list model. -/
def BoundedFifo.calls (N : Nat) : List Nat → List RingCall → List RingReturn × List Nat
  | l, [] => ([], l)
  | l, c :: cs =>
    let r := BoundedFifo.call N l c
    let rest := BoundedFifo.calls N r.2 cs
    (r.1 :: rest.1, rest.2)

/-- The ring `q` represents the list `l`: slot `(Head + i) % Size` holds the `i`-th
element of `l` for `i` below the length and null above it, and `Tail` is `Head` plus
the length (the cursors have not wrapped). -/
def RingPtrQueue.Fifo (q : RingPtrQueue) (l : List Nat) : Prop :=
  q.Buffer.length = q.Size ∧ 8 * q.Size < WORD ∧ l.length ≤ q.Size ∧
  q.SpaceSemaphore = l.length ∧ q.ElemSemaphore + l.length = q.Size ∧
  q.Tail = q.Head + l.length ∧
  (∀ i, i < q.Size → q.Buffer.getD ((q.Head + i) % q.Size) 0 = l.getD i 0) ∧
  (∀ x ∈ l, x ≠ 0)

/-! ## memorylog.cc -/

def PAGE_SIZE : Nat := 4096

def RECORD_PREFIX_SIZE : Nat := 16

def RECORD_ALIGNMENT : Nat := 16

/-- The magic string at the beginning of each record, `"\niPao2ijSahbe0F "`. -/
def RECORD_PREFIX : List Nat :=
  [10, 105, 80, 97, 111, 50, 105, 106, 83, 97, 104, 98, 101, 48, 70, 32]

/-- Function `ptr_align_up<ALIGNMENT>(value)`: `(cvalue + MASK) & ~MASK` in `uintptr_t`. -/
def ptr_align_up (ALIGNMENT value : Nat) : Nat :=
  let MASK := ALIGNMENT - 1
  ((value + MASK) % WORD) &&& (WORD - 1 - MASK)

/-- Bytes of memory, indexed by address. -/
abbrev Memory := Nat → Nat

/-- Library `memset(dst, val, n)`. -/
def memset (m : Memory) (dst val n : Nat) : Memory :=
  fun a => if dst ≤ a ∧ a < dst + n then val else m a

/-- Library `memcpy(dst, src, n)`, the source given by its bytes `src 0, src 1, ...`. -/
def memcpy (m : Memory) (dst : Nat) (src : Nat → Nat) (n : Nat) : Memory :=
  fun a => if dst ≤ a ∧ a < dst + n then src (a - dst) else m a

/-- Store of an 8-byte pointer (little endian) at `addr`. -/
def store_ptr (m : Memory) (addr v : Nat) : Memory :=
  fun a => if addr ≤ a ∧ a < addr + 8 then v / 256 ^ (a - addr) % 256 else m a

/-- Load of an 8-byte pointer (little endian) from `addr`. -/
def load_ptr (m : Memory) (addr : Nat) : Nat :=
  m addr + 256 * (m (addr + 1) + 256 * (m (addr + 2) + 256 * (m (addr + 3) +
    256 * (m (addr + 4) + 256 * (m (addr + 5) + 256 * (m (addr + 6) + 256 * m (addr + 7)))))))

/-- Value of `sizeof(MemoryBufferChunk)`: the class has the one member `char* fill_point`,
which lies at the address of the chunk. -/
def sizeof_MemoryBufferChunk : Nat := 8

/-- Member `MemoryBufferChunk::get_fill_point` of the chunk at address `this`. -/
def MemoryBufferChunk.get_fill_point (m : Memory) (this : Nat) : Nat := load_ptr m this

/-- Member `MemoryBufferChunk::reset`. -/
def MemoryBufferChunk.reset (m : Memory) (this : Nat) : Memory :=
  store_ptr m this (ptr_align_up RECORD_ALIGNMENT (this + sizeof_MemoryBufferChunk))

/-- Member `MemoryBufferChunk::available_space`: `chunk_size + this - fill_point` as a
`size_t`. -/
def MemoryBufferChunk.available_space (m : Memory) (this chunk_size : Nat) : Nat :=
  (chunk_size + this + WORD - MemoryBufferChunk.get_fill_point m this % WORD) % WORD

/-- Member `MemoryBufferChunk::out_of_space`. -/
def MemoryBufferChunk.out_of_space (m : Memory) (this chunk_size record_len : Nat) : Bool :=
  let space_left :=
    (chunk_size + this + WORD - MemoryBufferChunk.get_fill_point m this % WORD) % WORD
  decide ((record_len + RECORD_PREFIX_SIZE) % WORD > space_left)

/-- Member `MemoryBufferChunk::empty`. -/
def MemoryBufferChunk.empty (m : Memory) (this : Nat) : Bool :=
  let start_point := ptr_align_up RECORD_ALIGNMENT (this + sizeof_MemoryBufferChunk)
  decide (MemoryBufferChunk.get_fill_point m this = start_point)

/-- Member `MemoryBufferChunk::fill_up_to`. -/
def MemoryBufferChunk.fill_up_to (m : Memory) (this new_fill_point : Nat) : Memory :=
  store_ptr m this (ptr_align_up RECORD_ALIGNMENT new_fill_point)

/-- The `GlobalContext` object. `BigBuffer` is the address of the `char[TotalSize]` block
it owns and `bytes` the memory that block lies in: the buffer is the window
`[BigBuffer, BigBuffer + TotalSize)` of `bytes`, and the chunk headers (`fill_point`) are
stored in it. -/
structure GlobalContext where
  BigBuffer : Nat
  ChunkSize : Nat
  TotalSize : Nat
  Queue : RingPtrQueue
  bytes : Memory

/-- What `new char[total_buffer_size]` returned: the address of the block and the
(indeterminate) contents of memory at that moment. -/
structure Allocation where
  base : Nat
  bytes : Memory

/-- First loop of the `GlobalContext` constructor, `BigBuffer[i] = 0` for
`i = 0, PAGE_SIZE, 2 * PAGE_SIZE, ... < total_buffer_size`; `pages` counts the
iterations left and `i` is the loop variable. -/
def GlobalContext.touch_pages (base : Nat) : Nat → Nat → Memory → Memory
  | 0, _, m => m
  | pages + 1, i, m =>
    GlobalContext.touch_pages base pages (i + PAGE_SIZE) (fun a => if a = base + i then 0 else m a)

/-- Second loop of the `GlobalContext` constructor, `Queue.enqueue(BigBuffer + chunk_size * i)`
for `i` up to `total_buffer_size / chunk_size`; `count` counts the iterations left. -/
def GlobalContext.put_chunks (fuel base chunk_size : Nat) :
    Nat → Nat → RingPtrQueue → Option RingPtrQueue
  | 0, _, q => some q
  | count + 1, i, q =>
    match q.enqueue fuel (base + chunk_size * i) with
    | none => none
    | some (_, q1) => GlobalContext.put_chunks fuel base chunk_size count (i + 1) q1

/-- The ring of capacity `N` after the chunks `0 .. i-1` of the buffer at `base` were
enqueued into it. -/
def chunk_ring (base chunk_size N i : Nat) : RingPtrQueue :=
  { Size := N, SpaceSemaphore := i, ElemSemaphore := N - i, Head := 0, Tail := i,
    Buffer := (List.range i).map (fun k => base + chunk_size * k) ++ List.replicate (N - i) 0 }

/-- Constructor `GlobalContext(total_buffer_size, chunk_size)` on the block `a`. -/
def GlobalContext.construct (fuel : Nat) (a : Allocation) (total_buffer_size chunk_size : Nat) :
    Option GlobalContext :=
  let m := GlobalContext.touch_pages a.base
    ((total_buffer_size + PAGE_SIZE - 1) / PAGE_SIZE) 0 a.bytes
  match GlobalContext.put_chunks fuel a.base chunk_size (total_buffer_size / chunk_size) 0
      (RingPtrQueue.construct (total_buffer_size / chunk_size)) with
  | none => none
  | some q =>
    some { BigBuffer := a.base, ChunkSize := chunk_size, TotalSize := total_buffer_size,
           Queue := q, bytes := m }

/-- The context the constructor builds on the block `a`: pages touched, every chunk
pointer in the ring. -/
def fresh_context (a : Allocation) (total_buffer_size chunk_size : Nat) : GlobalContext :=
  { BigBuffer := a.base, ChunkSize := chunk_size, TotalSize := total_buffer_size,
    Queue := chunk_ring a.base chunk_size (total_buffer_size / chunk_size)
      (total_buffer_size / chunk_size),
    bytes := GlobalContext.touch_pages a.base
      ((total_buffer_size + PAGE_SIZE - 1) / PAGE_SIZE) 0 a.bytes }

/-- The `TLSChunkHolder` object of a thread; `Chunk = 0` is `nullptr`. -/
structure TLSChunkHolder where
  Chunk : Nat

/-- Member `TLSChunkHolder::reset(ctx)`: the chunk returned, the holder and the context
afterwards. -/
def TLSChunkHolder.reset (fuel : Nat) (h : TLSChunkHolder) (ctx : GlobalContext) :
    Option (Nat × TLSChunkHolder × GlobalContext) :=
  let put :=
    if h.Chunk ≠ 0 then (ctx.Queue.enqueue fuel h.Chunk).map (fun r => r.2) else some ctx.Queue
  match put with
  | none => none
  | some q1 =>
    match q1.dequeue fuel with
    | none => none
    | some (chunk, q2) =>
      if chunk = 0 then some (0, { Chunk := 0 }, { ctx with Queue := q2 })
      else some (chunk, { Chunk := chunk },
        { ctx with Queue := q2, bytes := MemoryBufferChunk.reset ctx.bytes chunk })

/-- Member `TLSChunkHolder::get(ctx)`. -/
def TLSChunkHolder.get (fuel : Nat) (h : TLSChunkHolder) (ctx : GlobalContext) :
    Option (Nat × TLSChunkHolder × GlobalContext) :=
  if h.Chunk = 0 then
    match ctx.Queue.dequeue fuel with
    | none => none
    | some (chunk, q1) =>
      if chunk = 0 then some (0, { Chunk := 0 }, { ctx with Queue := q1 })
      else some (chunk, { Chunk := chunk },
        { ctx with Queue := q1, bytes := MemoryBufferChunk.reset ctx.bytes chunk })
  else some (h.Chunk, h, ctx)

/-- Destructor `TLSChunkHolder::~TLSChunkHolder` (thread exit), given the value loaded
from `GlobalCtx`: the context afterwards. -/
def TLSChunkHolder.destroy (fuel : Nat) (h : TLSChunkHolder) (ctx : Option GlobalContext) :
    Option (Option GlobalContext) :=
  match ctx with
  | none => some none
  | some g =>
    if h.Chunk ≠ 0 then
      (g.Queue.enqueue fuel h.Chunk).map (fun r => some { g with Queue := r.2 })
    else some (some g)

/-- The process state seen by one thread: the global `GlobalCtx` (`none` is `nullptr`)
and the thread's `thread_local CurrentChunk`. -/
structure State where
  GlobalCtx : Option GlobalContext
  CurrentChunk : TLSChunkHolder

/-- The state at program start. -/
def State.start : State := { GlobalCtx := none, CurrentChunk := { Chunk := 0 } }

/-- Function `initialize(total_buffer_size, chunk_size)`. `allocation` is what
`new GlobalContext(...)` obtains (`none`: it throws) and `cas_fails_spuriously` says
whether `compare_exchange_weak` fails although `GlobalCtx` holds the expected `nullptr`. -/
def initialize_log (fuel : Nat) (allocation : Option Allocation) (cas_fails_spuriously : Bool)
    (s : State) (total_buffer_size chunk_size : Nat) : Option (Bool × State) :=
  if chunk_size ≤ RECORD_PREFIX_SIZE + 2 then some (false, s)
  else if total_buffer_size < chunk_size then some (false, s)
  else if total_buffer_size % chunk_size ≠ 0 then some (false, s)
  else
    match allocation with
    | none => some (false, s)
    | some a =>
      match GlobalContext.construct fuel a total_buffer_size chunk_size with
      | none => none
      | some new_ctx =>
        match s.GlobalCtx with
        | some _ => some (false, s)
        | none =>
          if cas_fails_spuriously then some (false, s)
          else some (true, { s with GlobalCtx := some new_ctx })

/-- Function `finalize()`: `GlobalCtx.exchange(nullptr)`, `delete old_ctx` (the ring does
not own its elements, so nothing is dequeued), `CurrentChunk = TLSChunkHolder()`. -/
def finalize (_s : State) : State := { GlobalCtx := none, CurrentChunk := { Chunk := 0 } }

/-- The `CallContext` object after a successful `init`; `GCtx` is the context the
pointer member refers to. -/
structure CallContext where
  GCtx : GlobalContext
  Chunk : Nat
  PrefixPlace : Nat
  RecordPlace : Nat

/-- Tail of `CallContext::init` and of `reset_chunk`: take the fill point of `chunk` as
the prefix place and zero the prefix. -/
def CallContext.place (g : GlobalContext) (chunk : Nat) : CallContext :=
  let PrefixPlace := MemoryBufferChunk.get_fill_point g.bytes chunk
  { GCtx := { g with bytes := memset g.bytes PrefixPlace 0 RECORD_PREFIX_SIZE },
    Chunk := chunk, PrefixPlace := PrefixPlace,
    RecordPlace := PrefixPlace + RECORD_PREFIX_SIZE }

/-- Member `CallContext::init(record_size)`: `none` inside is the result false. -/
def CallContext.init (fuel : Nat) (s : State) (record_size : Nat) :
    Option (Option CallContext × State) :=
  match s.GlobalCtx with
  | none => some (none, s)
  | some g =>
    if record_size > (g.ChunkSize + WORD - RECORD_PREFIX_SIZE) % WORD then some (none, s)
    else
      match s.CurrentChunk.get fuel g with
      | none => none
      | some (chunk, h1, g1) =>
        if chunk = 0 then some (none, { GlobalCtx := some g1, CurrentChunk := h1 })
        else if MemoryBufferChunk.out_of_space g1.bytes chunk g1.ChunkSize record_size then
          match h1.reset fuel g1 with
          | none => none
          | some (chunk2, h2, g2) =>
            if chunk2 = 0 then some (none, { GlobalCtx := some g2, CurrentChunk := h2 })
            else if MemoryBufferChunk.out_of_space g2.bytes chunk2 g2.ChunkSize record_size then
              some (none, { GlobalCtx := some g2, CurrentChunk := h2 })
            else
              let c := CallContext.place g2 chunk2
              some (some c, { GlobalCtx := some c.GCtx, CurrentChunk := h2 })
        else
          let c := CallContext.place g1 chunk
          some (some c, { GlobalCtx := some c.GCtx, CurrentChunk := h1 })

/-- Member `CallContext::write_prefix`: the context memory after the magic is copied. -/
def CallContext.write_prefix (c : CallContext) (m : Memory) : Memory :=
  memcpy m c.PrefixPlace (fun i => RECORD_PREFIX.getD i 0) RECORD_PREFIX_SIZE

/-- Function `write(buf, len)`, `buf i` being the byte `buf[i]`. -/
def write (fuel : Nat) (s : State) (buf : Nat → Nat) (len : Nat) : Option (Bool × State) :=
  match CallContext.init fuel s len with
  | none => none
  | some (none, s1) => some (false, s1)
  | some (some ctx, s1) =>
    let m1 := memcpy ctx.GCtx.bytes ctx.RecordPlace buf len
    let m2 := CallContext.write_prefix ctx m1
    let m3 := MemoryBufferChunk.fill_up_to m2 ctx.Chunk (ctx.RecordPlace + len)
    some (true, { s1 with GlobalCtx := some { ctx.GCtx with bytes := m3 } })

/-- The bytes `dump` passes to `fwrite`: the whole of `BigBuffer`. -/
def GlobalContext.dumped (g : GlobalContext) : List Nat :=
  (List.range g.TotalSize).map (fun i => g.bytes (g.BigBuffer + i))

/-- The record `RECORD_PREFIX ∥ buf[0..len)` stands in `BigBuffer` at offset `off`, a
multiple of `RECORD_ALIGNMENT`. -/
def GlobalContext.record_at (g : GlobalContext) (off : Nat) (buf : Nat → Nat) (len : Nat) :
    Prop :=
  off % RECORD_ALIGNMENT = 0 ∧ off + RECORD_PREFIX_SIZE + len ≤ g.TotalSize ∧
  (∀ i, i < RECORD_PREFIX_SIZE → g.bytes (g.BigBuffer + off + i) = RECORD_PREFIX.getD i 0) ∧
  (∀ i, i < len → g.bytes (g.BigBuffer + off + RECORD_PREFIX_SIZE + i) = buf i)

instance (g : GlobalContext) (off : Nat) (buf : Nat → Nat) (len : Nat) :
    Decidable (g.record_at off buf len) := by
  unfold GlobalContext.record_at
  infer_instance

/-- The buffer holds the record `RECORD_PREFIX ∥ buf[0..len)` at some 16-byte-aligned
offset. -/
def GlobalContext.holds_record (g : GlobalContext) (buf : Nat → Nat) (len : Nat) : Prop :=
  ∃ off, off < g.TotalSize ∧ g.record_at off buf len

instance (g : GlobalContext) (buf : Nat → Nat) (len : Nat) :
    Decidable (g.holds_record buf len) := by
  unfold GlobalContext.holds_record
  infer_instance

/-- The state holds the record `RECORD_PREFIX ∥ buf[0..len)` in the buffer of the
installed context. -/
def State.holds_record (s : State) (buf : Nat → Nat) (len : Nat) : Prop :=
  match s.GlobalCtx with
  | none => False
  | some g => g.holds_record buf len

instance (s : State) (buf : Nat → Nat) (len : Nat) : Decidable (s.holds_record buf len) := by
  unfold State.holds_record
  cases s.GlobalCtx <;> infer_instance

/-- A sequence of `write` calls made by the thread, with what each returned. -/
def writes (fuel : Nat) : State → List ((Nat → Nat) × Nat) → Option (List Bool × State)
  | s, [] => some ([], s)
  | s, (buf, len) :: rest =>
    match write fuel s buf len with
    | none => none
    | some (r, s1) =>
      match writes fuel s1 rest with
      | none => none
      | some (rs, s2) => some (r :: rs, s2)

/-- States the thread can be in: the start of the program followed by completed calls of
`initialize` (with `size_t` arguments, and a block returned by `new` that is non-null and
whose one-past-the-end address is an address), `finalize` and `write`. -/
inductive State.Reachable : State → Prop
  | start : Reachable State.start
  | initialized (fuel : Nat) (allocation : Option Allocation) (cas_fails_spuriously : Bool)
      (s : State) (total_buffer_size chunk_size : Nat) (r : Bool) (s' : State) :
      Reachable s → total_buffer_size < WORD → chunk_size < WORD →
      (∀ a, allocation = some a → 0 < a.base ∧ a.base + total_buffer_size < WORD) →
      initialize_log fuel allocation cas_fails_spuriously s total_buffer_size chunk_size
        = some (r, s') →
      Reachable s'
  | finalized (s : State) : Reachable s → Reachable (finalize s)
  | written (fuel : Nat) (s : State) (buf : Nat → Nat) (len : Nat) (r : Bool) (s' : State) :
      Reachable s → write fuel s buf len = some (r, s') → Reachable s'

/-- The geometry `initialize` accepts. -/
def valid_geometry (total_buffer_size chunk_size : Nat) : Prop :=
  chunk_size > 18 ∧ total_buffer_size ≥ chunk_size ∧ total_buffer_size % chunk_size = 0

instance (total_buffer_size chunk_size : Nat) :
    Decidable (valid_geometry total_buffer_size chunk_size) := by
  unfold valid_geometry
  infer_instance

/-- An installed context has a geometry that `initialize` accepted, `size_t` sizes, and a
non-null buffer inside the address space. -/
def State.Geometry (s : State) : Prop :=
  ∀ g, s.GlobalCtx = some g →
    valid_geometry g.TotalSize g.ChunkSize ∧ g.TotalSize < WORD ∧
      0 < g.BigBuffer ∧ g.BigBuffer + g.TotalSize < WORD

/-- A block as `new char[]` may return it: 16-byte aligned, here zero-filled. -/
def zeroed_block (base : Nat) : Allocation := { base := base, bytes := fun _ => 0 }

/-- The state after `initialize(256, 128)` succeeded at program start on the zero-filled
block at address 4096 (the set-up of the unit tests). -/
def log_256_128 : State :=
  { GlobalCtx := some (fresh_context (zeroed_block 4096) 256 128),
    CurrentChunk := { Chunk := 0 } }

/-- The byte at address `addr` in the memory of the installed context. -/
def State.byte (s : State) (addr : Nat) : Nat :=
  match s.GlobalCtx with
  | none => 0
  | some g => g.bytes addr

/-- The 20 bytes of `"love me or leave me\n"`, the record of the unit tests. -/
def love_me : Nat → Nat :=
  fun i => [108, 111, 118, 101, 32, 109, 101, 32, 111, 114, 32, 108, 101, 97, 118, 101, 32,
    109, 101, 10].getD i 0

/-- The state right after `initialize` installed the context `g`: the holder of the
thread holds no chunk. -/
def State.installed (g : GlobalContext) : State :=
  { GlobalCtx := some g, CurrentChunk := { Chunk := 0 } }

/-- The address `p` is the address of one of the chunks of the buffer of `g`. -/
def GlobalContext.is_chunk (g : GlobalContext) (p : Nat) : Prop :=
  ∃ i, i < g.TotalSize / g.ChunkSize ∧ p = g.BigBuffer + g.ChunkSize * i

/-- The fill point stored in the chunk at `chunk` is 16-byte aligned and lies inside the
chunk, behind the first 16 bytes. -/
def GlobalContext.fill_in_chunk (g : GlobalContext) (chunk : Nat) : Prop :=
  MemoryBufferChunk.get_fill_point g.bytes chunk % RECORD_ALIGNMENT = 0 ∧
  chunk + 16 ≤ MemoryBufferChunk.get_fill_point g.bytes chunk ∧
  MemoryBufferChunk.get_fill_point g.bytes chunk ≤ chunk + g.ChunkSize

/-- Invariant of a log whose chunk size is a multiple of 16 and whose buffer is 16-byte
aligned, used by one thread with holder `h`: the ring is in sequential shape and stores
chunk addresses only, and a held chunk is a chunk of the buffer with its fill point
inside it. -/
structure GlobalContext.Aligned (g : GlobalContext) (h : TLSChunkHolder) : Prop where
  geometry : valid_geometry g.TotalSize g.ChunkSize
  chunk_aligned : g.ChunkSize % RECORD_ALIGNMENT = 0
  base_aligned : g.BigBuffer % RECORD_ALIGNMENT = 0
  base_pos : 0 < g.BigBuffer
  in_space : g.BigBuffer + g.TotalSize < WORD
  ring : g.Queue.Inv
  ring_chunks : ∀ p ∈ g.Queue.stored, g.is_chunk p
  held : h.Chunk ≠ 0 → g.is_chunk h.Chunk ∧ g.fill_in_chunk h.Chunk

/-- The invariant `GlobalContext.Aligned` for the installed context, if any. -/
def State.Aligned (s : State) : Prop :=
  ∀ g, s.GlobalCtx = some g → g.Aligned s.CurrentChunk

/-- The fill point of the chunk the thread holds (0 when no context is installed). -/
def State.fill_point (s : State) : Nat :=
  match s.GlobalCtx with
  | none => 0
  | some g => MemoryBufferChunk.get_fill_point g.bytes s.CurrentChunk.Chunk

/-- The value of `available_space` for the chunk the thread holds (0 when no context is
installed). -/
def State.available_space (s : State) : Nat :=
  match s.GlobalCtx with
  | none => 0
  | some g => MemoryBufferChunk.available_space g.bytes s.CurrentChunk.Chunk g.ChunkSize

/-- The memory after each buffer store that `write(buf, len)` makes once `init` has
returned true with the call context `c`, in program order: after the `memset` that ends
`init`, after the `memcpy` of the payload, after `write_prefix`, after `fill_up_to`. -/
def CallContext.stores (c : CallContext) (buf : Nat → Nat) (len : Nat) : List Memory :=
  let m1 := memcpy c.GCtx.bytes c.RecordPlace buf len
  let m2 := CallContext.write_prefix c m1
  let m3 := MemoryBufferChunk.fill_up_to m2 c.Chunk (c.RecordPlace + len)
  [c.GCtx.bytes, m1, m2, m3]

/-- The store trace of a successful `write(buf, len)` (`none` when `init` fails). -/
def write_trace (fuel : Nat) (s : State) (buf : Nat → Nat) (len : Nat) : Option (List Memory) :=
  match CallContext.init fuel s len with
  | some (some c, _) => some (c.stores buf len)
  | _ => none

/-- The thread holds a chunk that does not report `out_of_space` for a record of `len`
bytes, so that `init` places the record in it without rotating. -/
def State.has_room (s : State) (len : Nat) : Prop :=
  match s.GlobalCtx with
  | none => False
  | some g =>
    s.CurrentChunk.Chunk ≠ 0 ∧
      MemoryBufferChunk.out_of_space g.bytes s.CurrentChunk.Chunk g.ChunkSize len = false

/-- The state after `write("love me or leave me\n", 20)` on the freshly initialized log
of the unit tests. -/
def log_after_write : State :=
  ((write 1 log_256_128 love_me 20).getD (false, log_256_128)).2

/-- The prefix slot `init(len)` chooses in state `s` (`none` when `init` fails or the
fuel runs out). -/
def prefix_slot (fuel : Nat) (s : State) (len : Nat) : Option Nat :=
  match CallContext.init fuel s len with
  | some (some c, _) => some c.PrefixPlace
  | _ => none

/-- The second payload of the two-record run: the four bytes "bye\n". -/
def bye : Nat → Nat :=
  fun i => [98, 121, 101, 10].getD i 0

/-- The log of `log_after_write` after a second write, of the 4 bytes of `bye`. -/
def log_after_two_writes : State :=
  ((write 1 log_after_write bye 4).getD (false, log_after_write)).2

/-- Member `CallContext::reset_chunk(record_size)` for the holder `h` of the calling
thread: `none` inside is the result false. -/
def CallContext.reset_chunk (fuel : Nat) (c : CallContext) (h : TLSChunkHolder)
    (record_size : Nat) : Option (Option CallContext × State) :=
  match h.reset fuel c.GCtx with
  | none => none
  | some (chunk, h2, g2) =>
    if chunk = 0 then some (none, { GlobalCtx := some g2, CurrentChunk := h2 })
    else if MemoryBufferChunk.out_of_space g2.bytes chunk g2.ChunkSize record_size then
      some (none, { GlobalCtx := some g2, CurrentChunk := h2 })
    else
      let c2 := CallContext.place g2 chunk
      some (some c2, { GlobalCtx := some c2.GCtx, CurrentChunk := h2 })

/-- Largest value of an `int`. -/
def INT_MAX : Nat := 2147483647

/-- Library `vsnprintf(str, size, format, args)`, the format and its arguments given by
the text they render to (`none`: an output error). It stores at most `size - 1` bytes of
the text followed by a NUL, nothing when `size` is 0, and returns the length of the whole
text, or a negative value on an error or when the length is no `int`. -/
def vsnprintf (m : Memory) (str size : Nat) (rendering : Option (List Nat)) : Memory × Int :=
  match rendering with
  | none => (m, -1)
  | some text =>
    if text.length > INT_MAX then (m, -1)
    else if size = 0 then (m, text.length)
    else
      let n := min text.length (size - 1)
      (memset (memcpy m str (fun i => text.getD i 0) n) (str + n) 0 1, text.length)

/-- The part of `format_write` from the label `again` on; `rounds` bounds the number of
passes through the label. -/
def format_write_again : Nat → Nat → CallContext → TLSChunkHolder → Option (List Nat) →
    Option (Bool × State)
  | 0, _, _, _, _ => none
  | rounds + 1, fuel, ctx, h, rendering =>
    let space_available_for_record :=
      (MemoryBufferChunk.available_space ctx.GCtx.bytes ctx.Chunk ctx.GCtx.ChunkSize + WORD -
        RECORD_PREFIX_SIZE) % WORD
    let r := vsnprintf ctx.GCtx.bytes ctx.RecordPlace space_available_for_record rendering
    let bytes_written := r.2
    if bytes_written < 0 then
      some (false, { GlobalCtx := some { ctx.GCtx with bytes := r.1 }, CurrentChunk := h })
    else if bytes_written.toNat > space_available_for_record then
      match CallContext.reset_chunk fuel { ctx with GCtx := { ctx.GCtx with bytes := r.1 } } h
          bytes_written.toNat with
      | none => none
      | some (none, s1) => some (false, s1)
      | some (some ctx1, s1) => format_write_again rounds fuel ctx1 s1.CurrentChunk rendering
    else
      let m2 := CallContext.write_prefix ctx r.1
      let m3 := MemoryBufferChunk.fill_up_to m2 ctx.Chunk (ctx.RecordPlace + bytes_written.toNat)
      some (true, { GlobalCtx := some { ctx.GCtx with bytes := m3 }, CurrentChunk := h })

/-- Function `format_write(format, ...)`, the format and its arguments given by the text
they render to. -/
def format_write (rounds fuel : Nat) (s : State) (rendering : Option (List Nat)) :
    Option (Bool × State) :=
  match CallContext.init fuel s 2 with
  | none => none
  | some (none, s1) => some (false, s1)
  | some (some ctx, s1) => format_write_again rounds fuel ctx s1.CurrentChunk rendering

/-- The text `"love me or leave me\n"` of the unit tests as a list of bytes. -/
def love_me_text : List Nat :=
  [108, 111, 118, 101, 32, 109, 101, 32, 111, 114, 32, 108, 101, 97, 118, 101, 32,
    109, 101, 10]

/-- A text of 96 bytes, the digits `0123456789` repeated. -/
def text_96 : List Nat := (List.range 96).map (fun i => 48 + i % 10)

/-- The bytes of the memory of the installed context at `addr, addr + 1, ..`, `n` of
them. -/
def State.bytes_at (s : State) (addr n : Nat) : List Nat :=
  (List.range n).map (fun i => s.byte (addr + i))

/-- The process with its threads: the global `GlobalCtx` and the `thread_local
CurrentChunk` of every thread, thread `t` owning entry `t` of the list. -/
structure Process where
  GlobalCtx : Option GlobalContext
  CurrentChunk : List TLSChunkHolder

/-- A call of the log that a thread runs to completion before any other thread runs
(operation-granular steps); `thread_exit` runs the destructor of the thread's holder. -/
inductive Operation where
  | init (allocation : Option Allocation) (cas_fails_spuriously : Bool)
      (total_buffer_size chunk_size : Nat)
  | finalize
  | write (buf : Nat → Nat) (len : Nat)
  | format_write (rendering : Option (List Nat))
  | thread_exit

/-- The process at program start, with `n` threads. -/
def Process.start (n : Nat) : Process :=
  { GlobalCtx := none, CurrentChunk := List.replicate n { Chunk := 0 } }

/-- What thread `t` sees of the process. -/
def Process.view (p : Process) (t : Nat) : State :=
  { GlobalCtx := p.GlobalCtx, CurrentChunk := p.CurrentChunk.getD t { Chunk := 0 } }

/-- The process after thread `t` ran a call that left it the view `s`. -/
def Process.commit (p : Process) (t : Nat) (s : State) : Process :=
  { GlobalCtx := s.GlobalCtx, CurrentChunk := p.CurrentChunk.set t s.CurrentChunk }

/-- Thread `t` runs one operation; the result is what the call returned (true for the
two `void` operations). After `thread_exit` entry `t` is the holder of a new thread. A
thread that does not exist runs nothing. -/
def Process.step (fuel : Nat) (p : Process) (t : Nat) : Operation → Option (Bool × Process)
  | Operation.init allocation cas_fails_spuriously total_buffer_size chunk_size =>
    if t < p.CurrentChunk.length then
      (initialize_log fuel allocation cas_fails_spuriously (p.view t) total_buffer_size
        chunk_size).map (fun r => (r.1, p.commit t r.2))
    else some (false, p)
  | Operation.finalize =>
    if t < p.CurrentChunk.length then some (true, p.commit t (finalize (p.view t)))
    else some (false, p)
  | Operation.write buf len =>
    if t < p.CurrentChunk.length then
      (write fuel (p.view t) buf len).map (fun r => (r.1, p.commit t r.2))
    else some (false, p)
  | Operation.format_write rendering =>
    if t < p.CurrentChunk.length then
      (format_write fuel fuel (p.view t) rendering).map (fun r => (r.1, p.commit t r.2))
    else some (false, p)
  | Operation.thread_exit =>
    if t < p.CurrentChunk.length then
      (TLSChunkHolder.destroy fuel (p.view t).CurrentChunk p.GlobalCtx).map
        (fun g => (true, { GlobalCtx := g, CurrentChunk := p.CurrentChunk.set t { Chunk := 0 } }))
    else some (false, p)

/-- A sequence of operations, each by the thread named with it, and what they
returned. -/
def Process.run (fuel : Nat) : Process → List (Nat × Operation) → Option (List Bool × Process)
  | p, [] => some ([], p)
  | p, (t, op) :: rest =>
    match p.step fuel t op with
    | none => none
    | some (r, p1) =>
      match Process.run fuel p1 rest with
      | none => none
      | some (rs, p2) => some (r :: rs, p2)

/-- The contents of memory as the process sees them through the installed context. -/
def Process.memory (p : Process) : Memory :=
  match p.GlobalCtx with
  | none => fun _ => 0
  | some g => g.bytes

/-- The chunk a holder holds, if it holds one. -/
def TLSChunkHolder.held (h : TLSChunkHolder) : Option Nat :=
  if h.Chunk = 0 then none else some h.Chunk

/-- The chunk pointers held by the threads. -/
def Process.held (p : Process) : List Nat := p.CurrentChunk.filterMap TLSChunkHolder.held

/-- A call that took the context from `g` to `g1` and the holder of the calling thread from
`h` to `h1` moved chunk pointers only between the ring and that holder: the ring is still
in sequential use, its capacity is the same, and ring and holder together reference the
same pointers as before. -/
def GlobalContext.Balanced (g g1 : GlobalContext) (h h1 : TLSChunkHolder) : Prop :=
  g1.Queue.Inv ∧ g1.Queue.Size = g.Queue.Size ∧
    (↑g1.Queue.stored + ↑h1.held.toList : Multiset Nat) = ↑g.Queue.stored + ↑h.held.toList

/-- Every chunk pointer in `all` has exactly one owner in the process `p`: the ring of the
installed context, whose capacity is the number of the chunks, or one holder. -/
def Process.Owned (p : Process) (all : List Nat) : Prop :=
  ∃ g, p.GlobalCtx = some g ∧ g.Queue.Inv ∧ g.Queue.Size = all.length ∧
    (g.Queue.stored ++ p.held).Perm all

/-- The operation is one of `write`, `format_write`, thread exit. -/
def Operation.in_lifetime : Operation → Prop
  | Operation.write _ _ => True
  | Operation.format_write _ => True
  | Operation.thread_exit => True
  | _ => False

/-- The chunk pointers stored in the ring of the installed context. -/
def Process.stored (p : Process) : List Nat :=
  match p.GlobalCtx with
  | none => []
  | some g => g.Queue.stored

/-- The address `c` lies in `big_buffer` of the installed context. -/
def Process.in_big_buffer (p : Process) (c : Nat) : Bool :=
  match p.GlobalCtx with
  | none => false
  | some g => decide (g.BigBuffer ≤ c ∧ c < g.BigBuffer + g.TotalSize)

/-- The addresses of the chunks of `big_buffer` of the installed context. -/
def Process.chunks (p : Process) : List Nat :=
  match p.GlobalCtx with
  | none => []
  | some g => (List.range (g.TotalSize / g.ChunkSize)).map (fun k => g.BigBuffer + g.ChunkSize * k)

/-- Two threads, the first context of 2 chunks of 128 bytes on the zero-filled block at
4096: thread 0 initializes, thread 1 writes a record and so holds the chunk 4096. -/
def first_lifetime : Process :=
  ((Process.run 4 (Process.start 2)
    [(0, Operation.init (some (zeroed_block 4096)) false 256 128),
     (1, Operation.write love_me 20)]).getD ([], Process.start 2)).2

/-- The block `new char[]` returns at `base` while the memory holds what the process
`p` left in it. -/
def Process.block (p : Process) (base : Nat) : Allocation := { base := base, bytes := p.memory }

/-- Where a thread stands in a call of `enqueue` or `dequeue`, between two atomic
operations: `enq_rollback`, `deq_rollback` after a failed `book_space` / `book_elem`
before the `fetch_sub` that undoes it; `enq_draw`, `deq_draw` at the head of the
`for (;;)` loop; `enq_cas`, `deq_xchg` with the slot drawn, before the operation on the
slot; `enq_release`, `deq_release` after the slot operation succeeded, before the
`fetch_sub` on the other semaphore and the return. -/
inductive Pc where
  | idle
  | enq_rollback (elem : Nat)
  | enq_draw (elem : Nat)
  | enq_cas (elem slot : Nat)
  | enq_release (elem : Nat)
  | deq_rollback
  | deq_draw
  | deq_xchg (slot : Nat)
  | deq_release (elem : Nat)
  deriving DecidableEq

/-- One ring used by several threads: the ring, where every thread stands, and the
calls that have returned (latest first) with what they returned. -/
structure Concurrent where
  ring : RingPtrQueue
  threads : List Pc
  history : List (RingCall × RingReturn)

/-- A fresh ring of capacity `size` and `n` threads that have not called yet. -/
def Concurrent.start (size n : Nat) : Concurrent :=
  { ring := RingPtrQueue.construct size, threads := List.replicate n Pc.idle, history := [] }

/-- The next atomic operation of thread `t`, which stands at `pc`; an idle thread starts
`call` with the `fetch_add` of `book_space` / `book_elem`. -/
def Concurrent.act (c : Concurrent) (t : Nat) (call : RingCall) : Pc → Concurrent
  | Pc.idle =>
    match call with
    | RingCall.enqueue elem =>
      let let_me_pass := (c.ring.SpaceSemaphore + 1) % WORD
      let ring := { c.ring with SpaceSemaphore := fetch_add c.ring.SpaceSemaphore 1 }
      if let_me_pass ≤ c.ring.Size then
        { c with ring := ring, threads := c.threads.set t (Pc.enq_draw elem) }
      else { c with ring := ring, threads := c.threads.set t (Pc.enq_rollback elem) }
    | RingCall.dequeue =>
      let let_me_pass := (c.ring.ElemSemaphore + 1) % WORD
      let ring := { c.ring with ElemSemaphore := fetch_add c.ring.ElemSemaphore 1 }
      if let_me_pass ≤ c.ring.Size then
        { c with ring := ring, threads := c.threads.set t Pc.deq_draw }
      else { c with ring := ring, threads := c.threads.set t Pc.deq_rollback }
  | Pc.enq_rollback elem =>
    { ring := { c.ring with SpaceSemaphore := fetch_sub c.ring.SpaceSemaphore 1 },
      threads := c.threads.set t Pc.idle,
      history := (RingCall.enqueue elem, RingReturn.enqueued false) :: c.history }
  | Pc.enq_draw elem =>
    { c with
      ring := { c.ring with Tail := fetch_add c.ring.Tail 1 },
      threads := c.threads.set t (Pc.enq_cas elem (c.ring.Tail % c.ring.Size)) }
  | Pc.enq_cas elem slot =>
    if c.ring.Buffer.getD slot 0 = 0 then
      { c with
        ring := { c.ring with Buffer := c.ring.Buffer.set slot elem },
        threads := c.threads.set t (Pc.enq_release elem) }
    else { c with threads := c.threads.set t (Pc.enq_draw elem) }
  | Pc.enq_release elem =>
    { ring := { c.ring with ElemSemaphore := fetch_sub c.ring.ElemSemaphore 1 },
      threads := c.threads.set t Pc.idle,
      history := (RingCall.enqueue elem, RingReturn.enqueued true) :: c.history }
  | Pc.deq_rollback =>
    { ring := { c.ring with ElemSemaphore := fetch_sub c.ring.ElemSemaphore 1 },
      threads := c.threads.set t Pc.idle,
      history := (RingCall.dequeue, RingReturn.dequeued 0) :: c.history }
  | Pc.deq_draw =>
    { c with
      ring := { c.ring with Head := fetch_add c.ring.Head 1 },
      threads := c.threads.set t (Pc.deq_xchg (c.ring.Head % c.ring.Size)) }
  | Pc.deq_xchg slot =>
    let elem := c.ring.Buffer.getD slot 0
    let ring := { c.ring with Buffer := c.ring.Buffer.set slot 0 }
    if elem ≠ 0 then { c with ring := ring, threads := c.threads.set t (Pc.deq_release elem) }
    else { c with ring := ring, threads := c.threads.set t Pc.deq_draw }
  | Pc.deq_release elem =>
    { ring := { c.ring with SpaceSemaphore := fetch_sub c.ring.SpaceSemaphore 1 },
      threads := c.threads.set t Pc.idle,
      history := (RingCall.dequeue, RingReturn.dequeued elem) :: c.history }

/-- Thread `t` is scheduled for one atomic operation; `call` is the call it starts if it
is idle. A thread that does not exist does nothing. -/
def Concurrent.step (c : Concurrent) (e : Nat × RingCall) : Concurrent :=
  match c.threads[e.1]? with
  | none => c
  | some pc => c.act e.1 e.2 pc

/-- An interleaving: the threads scheduled one after the other. -/
def Concurrent.run (c : Concurrent) (schedule : List (Nat × RingCall)) : Concurrent :=
  schedule.foldl Concurrent.step c

/-- Pointers whose `enqueue` has returned true. -/
def Concurrent.accepted (c : Concurrent) : List Nat :=
  c.history.filterMap (fun r =>
    match r with
    | (RingCall.enqueue elem, RingReturn.enqueued true) => some elem
    | _ => none)

/-- Pointers that a `dequeue` has returned. -/
def Concurrent.delivered (c : Concurrent) : List Nat :=
  c.history.filterMap (fun r =>
    match r with
    | (_, RingReturn.dequeued elem) => if elem ≠ 0 then some elem else none
    | _ => none)

/-- The pointer of a thread whose `enqueue` has put it into a slot and not returned. -/
def Pc.putting : Pc → Option Nat
  | Pc.enq_release elem => some elem
  | _ => none

/-- The pointer of a thread whose `dequeue` has taken it from a slot and not returned. -/
def Pc.taking : Pc → Option Nat
  | Pc.deq_release elem => some elem
  | _ => none

/-- The pointer of a thread that is inside `enqueue`. -/
def Pc.enqueuing : Pc → Option Nat
  | Pc.enq_rollback elem => some elem
  | Pc.enq_draw elem => some elem
  | Pc.enq_cas elem _ => some elem
  | Pc.enq_release elem => some elem
  | _ => none

/-- Pointers put into a slot by calls of `enqueue` that have not returned yet. -/
def Concurrent.putting (c : Concurrent) : List Nat := c.threads.filterMap Pc.putting

/-- Pointers taken from a slot by calls of `dequeue` that have not returned yet. -/
def Concurrent.taking (c : Concurrent) : List Nat := c.threads.filterMap Pc.taking

/-- Pointers passed to the calls of `enqueue` made so far, returned or not. -/
def Concurrent.offered (c : Concurrent) : List Nat :=
  c.history.filterMap (fun r =>
    match r with
    | (RingCall.enqueue elem, _) => some elem
    | _ => none) ++ c.threads.filterMap Pc.enqueuing

/-- No call is in progress. -/
def Concurrent.quiescent (c : Concurrent) : Prop := ∀ pc ∈ c.threads, pc = Pc.idle

instance (c : Concurrent) : Decidable c.quiescent := by
  unfold Concurrent.quiescent
  infer_instance

/-- What is known of a thread inside a call on a ring of capacity `size`: its pointer is
not null and its slot is a slot of the ring. -/
def Pc.wf (size : Nat) : Pc → Prop
  | Pc.enq_rollback elem => elem ≠ 0
  | Pc.enq_draw elem => elem ≠ 0
  | Pc.enq_cas elem slot => elem ≠ 0 ∧ slot < size
  | Pc.enq_release elem => elem ≠ 0
  | Pc.deq_xchg slot => slot < size
  | Pc.deq_release elem => elem ≠ 0
  | _ => True

/-- Invariant of the interleavings on a ring of positive capacity: the slot array has
`Size` slots, the threads are well-formed, and the pointers accepted or being put are
those stored, delivered or being taken. -/
structure Concurrent.Inv (c : Concurrent) : Prop where
  size_pos : 0 < c.ring.Size
  len : c.ring.Buffer.length = c.ring.Size
  wf : ∀ pc ∈ c.threads, pc.wf c.ring.Size
  conserved : (↑c.accepted + ↑c.putting : Multiset Nat) =
    ↑c.ring.stored + ↑c.delivered + ↑c.taking

/-- The thread stands between a failed `book_space` and its `fetch_sub`. -/
def Pc.space_booked : Pc → Option Nat
  | Pc.enq_rollback elem => some elem
  | _ => none

/-- The thread stands between a failed `book_elem` and its `fetch_sub`. -/
def Pc.elem_booked : Pc → Option Nat
  | Pc.deq_rollback => some 0
  | _ => none

/-- Invariant of the interleavings on the ring of capacity 0: every booking fails, the
semaphores count the threads that have not yet undone theirs, nothing is accepted or
delivered. -/
structure Concurrent.Inv0 (c : Concurrent) : Prop where
  few : c.threads.length + 1 < WORD
  size_zero : c.ring.Size = 0
  buffer : c.ring.Buffer = []
  pcs : ∀ pc ∈ c.threads, pc = Pc.idle ∨ (∃ elem, pc = Pc.enq_rollback elem) ∨ pc = Pc.deq_rollback
  space : c.ring.SpaceSemaphore = (c.threads.filterMap Pc.space_booked).length
  elems : c.ring.ElemSemaphore = (c.threads.filterMap Pc.elem_booked).length
  accepted : c.accepted = []
  delivered : c.delivered = []

/-- An interleaving of two threads on a ring of capacity 2: thread 0 completes
`enqueue(7)`, then its `enqueue(9)` runs interleaved with a `dequeue` of thread 1. -/
def two_threads_schedule : List (Nat × RingCall) :=
  [(0, RingCall.enqueue 7), (0, RingCall.enqueue 7), (0, RingCall.enqueue 7),
   (0, RingCall.enqueue 7), (0, RingCall.enqueue 9), (1, RingCall.dequeue),
   (1, RingCall.dequeue), (0, RingCall.enqueue 9), (1, RingCall.dequeue),
   (0, RingCall.enqueue 9), (1, RingCall.dequeue), (0, RingCall.enqueue 9)]

/-- The text that `"%s or %s, %u\n"` renders for `"love me"`, `"leave me"` and `i`. -/
def love_me_numbered (i : Nat) : List Nat :=
  [108, 111, 118, 101, 32, 109, 101, 32, 111, 114, 32, 108, 101, 97, 118, 101, 32,
    109, 101, 44, 32] ++ (Nat.toDigits 10 i).map Char.toNat ++ [10]

/-- A sequence of `format_write` calls by one thread, with what each call returned. -/
def format_writes (rounds fuel : Nat) :
    State → List (Option (List Nat)) → Option (List Bool × State)
  | s, [] => some ([], s)
  | s, r :: rest =>
    match format_write rounds fuel s r with
    | none => none
    | some (b, s1) =>
      match format_writes rounds fuel s1 rest with
      | none => none
      | some (bs, s2) => some (b :: bs, s2)

/-- One thread alone runs `enqueue(7)`, `enqueue(9)`, `enqueue(11)` and `dequeue()` to
completion, atomic operation by atomic operation. -/
def solo_schedule : List (Nat × RingCall) :=
  List.replicate 4 (0, RingCall.enqueue 7) ++ List.replicate 4 (0, RingCall.enqueue 9) ++
    List.replicate 2 (0, RingCall.enqueue 11) ++ List.replicate 4 (0, RingCall.dequeue)

/-- The thread with holder `h` is the only user of the context `g`: the ring and the
holder together hold as many chunk pointers as the ring has slots, and there is a chunk. -/
def GlobalContext.sole_user (g : GlobalContext) (h : TLSChunkHolder) : Prop :=
  0 < g.Queue.Size ∧ g.Queue.stored.length + h.held.toList.length = g.Queue.Size

/-- The byte budget `format_write` computes at the label `again`:
`available_space(ChunkSize) - RECORD_PREFIX_SIZE` as a `size_t`. -/
def CallContext.space_available_for_record (c : CallContext) : Nat :=
  (MemoryBufferChunk.available_space c.GCtx.bytes c.Chunk c.GCtx.ChunkSize + WORD -
    RECORD_PREFIX_SIZE) % WORD

/-- The state after `initialize(384, 128)` succeeded at program start on the zero-filled
block at address 4096 (three chunks) and the thread wrote two records of 20 bytes: it
holds the chunk 4096, whose fill point is 16 bytes before the end of the chunk. -/
def log_384_128_chunk_used : State :=
  ((writes 6 (State.installed (fresh_context (zeroed_block 4096) 384 128))
    [(love_me, 20), (love_me, 20)]).getD ([], State.start)).2

/-- A text of 100 bytes, the digits `0123456789` repeated. -/
def text_100 : List Nat := (List.range 100).map (fun i => 48 + i % 10)

/-- Three threads on the log of 2 chunks of 128 bytes on the zero-filled block at 4096:
thread 0 initializes and writes a record, thread 1 writes a record; each of them holds one
of the two chunks and the ring is empty. -/
def both_chunks_held : Process :=
  ((Process.run 4 (Process.start 3)
    [(0, Operation.init (some (zeroed_block 4096)) false 256 128),
     (0, Operation.write love_me 20),
     (1, Operation.write love_me 20)]).getD ([], Process.start 3)).2

/-! ## Facts about slot arrays -/

theorem getD_set_self (l : List Nat) (i v : Nat) (h : i < l.length) :
    (l.set i v).getD i 0 = v := by
  simp [List.getD_eq_getElem?_getD, List.getElem?_set, h]

theorem getD_set_other (l : List Nat) (i j v : Nat) (h : i ≠ j) :
    (l.set i v).getD j 0 = l.getD j 0 := by
  simp [List.getD_eq_getElem?_getD, List.getElem?_set, h]

theorem set_getD_same (l : List Nat) (i : Nat) : l.set i (l.getD i 0) = l := by
  induction l generalizing i with
  | nil => simp
  | cons a t ih =>
    cases i with
    | zero => simp
    | succ n => simpa [List.getD_eq_getElem?_getD] using ih n

theorem stored_set_insert (l : List Nat) (i p : Nat) (h : i < l.length)
    (h0 : l.getD i 0 = 0) (hp : p ≠ 0) :
    ((l.set i p).filter (fun x => x ≠ 0)).Perm (p :: l.filter (fun x => x ≠ 0)) := by
  induction l generalizing i with
  | nil => simp at h
  | cons a t ih =>
    cases i with
    | zero =>
      simp at h0
      subst h0
      simp [hp]
    | succ n =>
      simp at h h0
      have ht := ih n h (by simpa using h0)
      by_cases ha : a = 0
      · simpa [ha] using ht
      · simp only [List.set_cons_succ, List.filter_cons, ha, ne_eq, not_false_eq_true,
          decide_True, ite_true]
        exact (List.Perm.cons a ht).trans (List.Perm.swap p a _)

theorem stored_set_remove (l : List Nat) (i e : Nat) (h : i < l.length)
    (h0 : l.getD i 0 = e) (he : e ≠ 0) :
    (l.filter (fun x => x ≠ 0)).Perm (e :: (l.set i 0).filter (fun x => x ≠ 0)) := by
  induction l generalizing i with
  | nil => simp at h
  | cons a t ih =>
    cases i with
    | zero =>
      simp at h0
      subst h0
      simp [he]
    | succ n =>
      simp at h h0
      have ht := ih n h (by simpa using h0)
      by_cases ha : a = 0
      · simpa [ha] using ht
      · simp only [List.set_cons_succ, List.filter_cons, ha, ne_eq, not_false_eq_true,
          decide_True, ite_true]
        exact (List.Perm.cons a ht).trans (List.Perm.swap e a _)

theorem exists_null_slot (l : List Nat)
    (h : (l.filter (fun x => x ≠ 0)).length < l.length) :
    ∃ j, j < l.length ∧ l.getD j 0 = 0 := by
  obtain ⟨x, hx, hpx⟩ := List.length_filter_lt_length_iff_exists.mp h
  obtain ⟨j, hj, rfl⟩ := List.getElem_of_mem hx
  refine ⟨j, hj, ?_⟩
  rw [List.getD_eq_getElem _ _ hj]
  simpa using hpx

theorem exists_stored_slot (l : List Nat)
    (h : 0 < (l.filter (fun x => x ≠ 0)).length) :
    ∃ j, j < l.length ∧ l.getD j 0 ≠ 0 := by
  obtain ⟨x, hx⟩ := List.exists_mem_of_length_pos h
  obtain ⟨hxl, hpx⟩ := List.mem_filter.mp hx
  obtain ⟨j, hj, rfl⟩ := List.getElem_of_mem hxl
  refine ⟨j, hj, ?_⟩
  rw [List.getD_eq_getElem _ _ hj]
  simpa using hpx

/-- Within `2 * n` draws starting at any counter value `t`, the slot sequence
`t % n, (t+1) % n, ...` (the counter wrapping at `WORD`) visits every slot `j < n`. -/
theorem slot_visited (t n j : Nat) (ht : t < WORD) (hn : n < WORD) (hj : j < n) :
    ∃ k, k < 2 * n ∧ ((t + k) % WORD) % n = j := by
  by_cases hw : t + n ≤ WORD
  · refine ⟨(j + n - t % n) % n, ?_, ?_⟩
    · have := Nat.mod_lt (j + n - t % n) (by omega : n > 0)
      omega
    · have hr : t % n < n := Nat.mod_lt _ (by omega)
      have hk : (j + n - t % n) % n < n := Nat.mod_lt _ (by omega)
      have hlt : t + (j + n - t % n) % n < WORD := by omega
      rw [Nat.mod_eq_of_lt hlt, Nat.add_mod, Nat.mod_mod, ← Nat.add_mod]
      have hd := Nat.div_add_mod t n
      have : t + (j + n - t % n) = j + n * (t / n + 1) := by
        rw [Nat.mul_add, Nat.mul_one]
        omega
      rw [this, Nat.add_mul_mod_self_left, Nat.mod_eq_of_lt hj]
  · refine ⟨WORD - t + j, by omega, ?_⟩
    have : t + (WORD - t + j) = j + WORD := by omega
    rw [this, Nat.add_mod_right, Nat.mod_eq_of_lt (by omega : j < WORD), Nat.mod_eq_of_lt hj]

/-! ## The slot-search loops -/

theorem one_lt_WORD : 1 < WORD := by simp [WORD]

theorem fetch_add_lt (x d : Nat) : fetch_add x d < WORD :=
  Nat.mod_lt _ (by simp [WORD])

theorem fetch_sub_lt (x d : Nat) : fetch_sub x d < WORD :=
  Nat.mod_lt _ (by simp [WORD])

theorem fetch_sub_fetch_add (x : Nat) (h : x < WORD) : fetch_sub (fetch_add x 1) 1 = x := by
  unfold fetch_sub fetch_add
  simp only [WORD] at *
  omega

theorem fetch_sub_one (x : Nat) (h0 : 0 < x) (h : x < WORD) : fetch_sub x 1 = x - 1 := by
  unfold fetch_sub
  simp only [WORD] at *
  omega

theorem enqueue_loop_some (fuel : Nat) (q : RingPtrQueue) (p : Nat) (q' : RingPtrQueue)
    (hlen : q.Buffer.length = q.Size) (hs : 0 < q.Size)
    (h : q.enqueue_loop fuel p = some q') :
    ∃ slot, slot < q.Size ∧ q.Buffer.getD slot 0 = 0 ∧ q'.Buffer = q.Buffer.set slot p ∧
      q'.Size = q.Size ∧ q'.SpaceSemaphore = q.SpaceSemaphore ∧
      q'.ElemSemaphore = fetch_sub q.ElemSemaphore 1 ∧ q'.Head = q.Head ∧ q'.Tail < WORD := by
  induction fuel generalizing q with
  | zero => simp [RingPtrQueue.enqueue_loop] at h
  | succ f ih =>
    simp only [RingPtrQueue.enqueue_loop] at h
    split at h
    · rename_i h0
      simp only [Option.some.injEq] at h
      subst h
      exact ⟨q.Tail % q.Size, Nat.mod_lt _ hs, h0, rfl, rfl, rfl, rfl, rfl, fetch_add_lt _ _⟩
    · have hr := ih { q with Tail := fetch_add q.Tail 1 } hlen hs h
      obtain ⟨slot, h1, h2, h3, h4, h5, h6, h7, h8⟩ := hr
      exact ⟨slot, h1, h2, h3, h4, h5, h6, h7, h8⟩

theorem enqueue_loop_isSome (k fuel : Nat) (q : RingPtrQueue) (p : Nat)
    (ht : q.Tail < WORD) (hk : k < fuel)
    (h0 : q.Buffer.getD (((q.Tail + k) % WORD) % q.Size) 0 = 0) :
    (q.enqueue_loop fuel p).isSome = true := by
  induction k generalizing q fuel with
  | zero =>
    obtain ⟨f, rfl⟩ : ∃ f, fuel = f + 1 := ⟨fuel - 1, by omega⟩
    simp only [Nat.add_zero, Nat.mod_eq_of_lt ht] at h0
    simp only [RingPtrQueue.enqueue_loop]
    rw [if_pos h0]
    rfl
  | succ k ih =>
    obtain ⟨f, rfl⟩ : ∃ f, fuel = f + 1 := ⟨fuel - 1, by omega⟩
    simp only [RingPtrQueue.enqueue_loop]
    split
    · rfl
    · apply ih
      · exact fetch_add_lt _ _
      · omega
      · simp only [fetch_add]
        rw [Nat.mod_add_mod, show q.Tail + 1 + k = q.Tail + (k + 1) by omega]
        exact h0

theorem dequeue_loop_some (fuel : Nat) (q : RingPtrQueue) (e : Nat) (q' : RingPtrQueue)
    (hlen : q.Buffer.length = q.Size) (hs : 0 < q.Size)
    (h : q.dequeue_loop fuel = some (e, q')) :
    e ≠ 0 ∧ ∃ slot, slot < q.Size ∧ q.Buffer.getD slot 0 = e ∧
      q'.Buffer = q.Buffer.set slot 0 ∧
      q'.Size = q.Size ∧ q'.SpaceSemaphore = fetch_sub q.SpaceSemaphore 1 ∧
      q'.ElemSemaphore = q.ElemSemaphore ∧ q'.Tail = q.Tail ∧ q'.Head < WORD := by
  induction fuel generalizing q with
  | zero => simp [RingPtrQueue.dequeue_loop] at h
  | succ f ih =>
    simp only [RingPtrQueue.dequeue_loop] at h
    split at h
    · rename_i h0
      simp only [Option.some.injEq, Prod.mk.injEq] at h
      obtain ⟨h1, h2⟩ := h
      subst h1 h2
      exact ⟨h0, q.Head % q.Size, Nat.mod_lt _ hs, rfl, rfl, rfl, rfl, rfl, rfl, fetch_add_lt _ _⟩
    · rename_i h0
      simp only [ne_eq, not_not] at h0
      have hb : q.Buffer.set (q.Head % q.Size) 0 = q.Buffer := by
        conv_lhs => rw [← h0]
        exact set_getD_same _ _
      rw [hb] at h
      have hr := ih { q with Head := fetch_add q.Head 1 } hlen hs h
      obtain ⟨hne, slot, h1, h2, h3, h4, h5, h6, h7, h8⟩ := hr
      exact ⟨hne, slot, h1, h2, h3, h4, h5, h6, h7, h8⟩

theorem dequeue_loop_isSome (k fuel : Nat) (q : RingPtrQueue)
    (ht : q.Head < WORD) (hk : k < fuel)
    (h0 : q.Buffer.getD (((q.Head + k) % WORD) % q.Size) 0 ≠ 0) :
    (q.dequeue_loop fuel).isSome = true := by
  induction k generalizing q fuel with
  | zero =>
    obtain ⟨f, rfl⟩ : ∃ f, fuel = f + 1 := ⟨fuel - 1, by omega⟩
    simp only [Nat.add_zero, Nat.mod_eq_of_lt ht] at h0
    simp only [RingPtrQueue.dequeue_loop]
    rw [if_pos h0]
    rfl
  | succ k ih =>
    obtain ⟨f, rfl⟩ : ∃ f, fuel = f + 1 := ⟨fuel - 1, by omega⟩
    simp only [RingPtrQueue.dequeue_loop]
    split
    · rfl
    · rename_i hz
      simp only [ne_eq, not_not] at hz
      have hb : q.Buffer.set (q.Head % q.Size) 0 = q.Buffer := by
        conv_lhs => rw [← hz]
        exact set_getD_same _ _
      rw [hb]
      apply ih
      · exact fetch_add_lt _ _
      · omega
      · simp only [fetch_add]
        rw [Nat.mod_add_mod, show q.Head + 1 + k = q.Head + (k + 1) by omega]
        exact h0

/-! ## `enqueue` and `dequeue` on a ring in sequential use -/

theorem stored_length_le (q : RingPtrQueue) : q.stored.length ≤ q.Buffer.length :=
  List.length_filter_le _ _

theorem enqueue_inv (fuel : Nat) (q : RingPtrQueue) (p : Nat) (b : Bool) (q' : RingPtrQueue)
    (hi : q.Inv) (hp : p ≠ 0) (h : q.enqueue fuel p = some (b, q')) :
    q'.Inv ∧ (b = true ↔ q.stored.length < q.Size) ∧ (b = false → q' = q) ∧
      (b = true → q'.stored.Perm (p :: q.stored)) ∧ q'.Size = q.Size ∧ q'.Head = q.Head := by
  have hle := stored_length_le q
  have hlen := hi.len
  have hsz := hi.size_lt
  have hsp := hi.space
  have hel := hi.elems
  have hW := one_lt_WORD
  have hmod : (q.SpaceSemaphore + 1) % WORD = q.SpaceSemaphore + 1 :=
    Nat.mod_eq_of_lt (by omega)
  unfold RingPtrQueue.enqueue RingPtrQueue.book_space at h
  simp only [hmod] at h
  by_cases hpass : q.SpaceSemaphore + 1 ≤ q.Size
  · simp only [hpass, ite_true, Bool.true_eq_false, ite_false, Option.map_eq_some',
      Prod.mk.injEq] at h
    obtain ⟨q2, hloop, hb, rfl⟩ := h
    obtain ⟨slot, hs1, hs2, hs3, hs4, hs5, hs6, hs7, hs8⟩ :=
      enqueue_loop_some fuel { q with SpaceSemaphore := fetch_add q.SpaceSemaphore 1 } p q2
        hlen (by show 0 < q.Size; omega) hloop
    simp only at hs1 hs2 hs3 hs4 hs5 hs6 hs7
    have hperm : q2.stored.Perm (p :: q.stored) := by
      unfold RingPtrQueue.stored
      rw [hs3]
      exact stored_set_insert _ _ _ (by omega) hs2 hp
    refine ⟨⟨?_, ?_, ?_, ?_, ?_, hs8⟩, ?_, ?_, ?_, hs4, hs7⟩
    · rw [hs3, hs4, List.length_set, hlen]
    · rw [hs4]; exact hsz
    · rw [hs5, hperm.length_eq, List.length_cons, ← hsp]
      unfold fetch_add
      exact hmod
    · rw [hs5, hs6, hs4]
      unfold fetch_add
      rw [hmod, fetch_sub_one _ (by omega) (by omega)]
      omega
    · rw [hs7]; exact hi.head_lt
    · simp only [← hb, true_iff]; omega
    · intro hf; simp [← hb] at hf
    · intro _; exact hperm
  · simp only [hpass, ite_false, ite_true, Option.some.injEq, Prod.mk.injEq] at h
    obtain ⟨hb, rfl⟩ := h
    have hq : ({ q with SpaceSemaphore := fetch_sub (fetch_add q.SpaceSemaphore 1) 1 } :
        RingPtrQueue) = q := by
      rw [fetch_sub_fetch_add _ (by omega)]
    simp only at hq
    rw [hq]
    refine ⟨hi, ?_, fun _ => rfl, ?_, rfl, rfl⟩
    · simp only [← hb, Bool.false_eq_true, false_iff]; omega
    · intro hf; simp [← hb] at hf

theorem enqueue_isSome (fuel : Nat) (q : RingPtrQueue) (p : Nat)
    (hi : q.Inv) (hf : 2 * q.Size ≤ fuel) : (q.enqueue fuel p).isSome = true := by
  have hle := stored_length_le q
  have hlen := hi.len
  have hsz := hi.size_lt
  have hsp := hi.space
  have hW := one_lt_WORD
  have hmod : (q.SpaceSemaphore + 1) % WORD = q.SpaceSemaphore + 1 :=
    Nat.mod_eq_of_lt (by omega)
  unfold RingPtrQueue.enqueue RingPtrQueue.book_space
  simp only [hmod]
  by_cases hpass : q.SpaceSemaphore + 1 ≤ q.Size
  · simp only [hpass, ite_true, Bool.true_eq_false, ite_false, Option.isSome_map']
    obtain ⟨j, hj, hj0⟩ := exists_null_slot q.Buffer (by unfold RingPtrQueue.stored at hsp; omega)
    obtain ⟨k, hk, hkj⟩ := slot_visited q.Tail q.Size j hi.tail_lt (by omega) (by omega)
    apply enqueue_loop_isSome k
    · exact hi.tail_lt
    · omega
    · simp only
      rw [hkj]
      exact hj0
  · simp [hpass]

theorem dequeue_inv (fuel : Nat) (q : RingPtrQueue) (e : Nat) (q' : RingPtrQueue)
    (hi : q.Inv) (h : q.dequeue fuel = some (e, q')) :
    q'.Inv ∧ (e = 0 ↔ q.stored.length = 0) ∧ (e = 0 → q' = q) ∧
      (e ≠ 0 → q.stored.Perm (e :: q'.stored)) ∧ q'.Size = q.Size ∧ q'.Tail = q.Tail := by
  have hle := stored_length_le q
  have hlen := hi.len
  have hsz := hi.size_lt
  have hsp := hi.space
  have hel := hi.elems
  have hW := one_lt_WORD
  have hmod : (q.ElemSemaphore + 1) % WORD = q.ElemSemaphore + 1 :=
    Nat.mod_eq_of_lt (by omega)
  unfold RingPtrQueue.dequeue RingPtrQueue.book_elem at h
  simp only [hmod] at h
  by_cases hpass : q.ElemSemaphore + 1 ≤ q.Size
  · simp only [hpass, ite_true, Bool.true_eq_false, ite_false] at h
    obtain ⟨hne, slot, hs1, hs2, hs3, hs4, hs5, hs6, hs7, hs8⟩ :=
      dequeue_loop_some fuel { q with ElemSemaphore := fetch_add q.ElemSemaphore 1 } e q'
        hlen (by show 0 < q.Size; omega) h
    simp only at hs1 hs2 hs3 hs4 hs5 hs6 hs7
    have hperm : q.stored.Perm (e :: q'.stored) := by
      unfold RingPtrQueue.stored
      rw [hs3]
      exact stored_set_remove _ _ _ (by omega) hs2 hne
    have hpl := hperm.length_eq
    rw [List.length_cons] at hpl
    refine ⟨⟨?_, ?_, ?_, ?_, hs8, ?_⟩, ?_, ?_, ?_, hs4, hs7⟩
    · rw [hs3, hs4, List.length_set, hlen]
    · rw [hs4]; exact hsz
    · rw [hs5, fetch_sub_one _ (by omega) (by omega)]
      omega
    · rw [hs5, hs6, hs4]
      unfold fetch_add
      rw [hmod, fetch_sub_one _ (by omega) (by omega)]
      omega
    · rw [hs7]; exact hi.tail_lt
    · constructor
      · intro h0; exact absurd h0 hne
      · intro h0; omega
    · intro h0; exact absurd h0 hne
    · intro _; exact hperm
  · simp only [hpass, ite_false, ite_true, Option.some.injEq, Prod.mk.injEq] at h
    obtain ⟨hb, rfl⟩ := h
    have hq : ({ q with ElemSemaphore := fetch_sub (fetch_add q.ElemSemaphore 1) 1 } :
        RingPtrQueue) = q := by
      rw [fetch_sub_fetch_add _ (by omega)]
    simp only at hq
    rw [hq]
    refine ⟨hi, ?_, fun _ => rfl, ?_, rfl, rfl⟩
    · simp only [← hb, true_iff]; omega
    · intro hf; simp [← hb] at hf

theorem dequeue_isSome (fuel : Nat) (q : RingPtrQueue)
    (hi : q.Inv) (hf : 2 * q.Size ≤ fuel) : (q.dequeue fuel).isSome = true := by
  have hle := stored_length_le q
  have hlen := hi.len
  have hsz := hi.size_lt
  have hsp := hi.space
  have hel := hi.elems
  have hW := one_lt_WORD
  have hmod : (q.ElemSemaphore + 1) % WORD = q.ElemSemaphore + 1 :=
    Nat.mod_eq_of_lt (by omega)
  unfold RingPtrQueue.dequeue RingPtrQueue.book_elem
  simp only [hmod]
  by_cases hpass : q.ElemSemaphore + 1 ≤ q.Size
  · simp only [hpass, ite_true, Bool.true_eq_false, ite_false]
    obtain ⟨j, hj, hj0⟩ := exists_stored_slot q.Buffer
      (by unfold RingPtrQueue.stored at hsp; omega)
    obtain ⟨k, hk, hkj⟩ := slot_visited q.Head q.Size j hi.head_lt (by omega) (by omega)
    apply dequeue_loop_isSome k
    · exact hi.head_lt
    · omega
    · simp only
      rw [hkj]
      exact hj0
  · simp [hpass]

theorem construct_inv (size : Nat) (h : 8 * size < WORD) : (RingPtrQueue.construct size).Inv := by
  have hW := one_lt_WORD
  refine ⟨?_, h, ?_, ?_, ?_, ?_⟩ <;>
    simp [RingPtrQueue.construct, RingPtrQueue.stored] <;> omega

theorem reachable_inv (q : RingPtrQueue) (h : q.Reachable) : q.Inv := by
  induction h with
  | construct size hs => exact construct_inv size hs
  | enqueue fuel q elem b q' _ hne hstep ih => exact (enqueue_inv fuel q elem b q' ih hne hstep).1
  | dequeue fuel q e q' _ hstep ih => exact (dequeue_inv fuel q e q' ih hstep).1

theorem enqueue_total (fuel : Nat) (q : RingPtrQueue) (p : Nat)
    (hi : q.Inv) (hp : p ≠ 0) (hf : 2 * q.Size ≤ fuel) :
    ∃ b q', q.enqueue fuel p = some (b, q') ∧ q'.Inv ∧
      (b = true ↔ q.stored.length < q.Size) ∧ (b = false → q' = q) ∧
      (b = true → q'.stored.Perm (p :: q.stored)) ∧ q'.Size = q.Size := by
  obtain ⟨⟨b, q'⟩, h⟩ := Option.isSome_iff_exists.mp (enqueue_isSome fuel q p hi hf)
  obtain ⟨h1, h2, h3, h4, h5, _⟩ := enqueue_inv fuel q p b q' hi hp h
  exact ⟨b, q', h, h1, h2, h3, h4, h5⟩

theorem dequeue_total (fuel : Nat) (q : RingPtrQueue)
    (hi : q.Inv) (hf : 2 * q.Size ≤ fuel) :
    ∃ e q', q.dequeue fuel = some (e, q') ∧ q'.Inv ∧
      (e = 0 ↔ q.stored.length = 0) ∧ (e = 0 → q' = q) ∧
      (e ≠ 0 → q.stored.Perm (e :: q'.stored)) ∧ q'.Size = q.Size := by
  obtain ⟨⟨e, q'⟩, h⟩ := Option.isSome_iff_exists.mp (dequeue_isSome fuel q hi hf)
  obtain ⟨h1, h2, h3, h4, h5, _⟩ := dequeue_inv fuel q e q' hi h
  exact ⟨e, q', h, h1, h2, h3, h4, h5⟩

/-- C2: in sequential use, `enqueue(p)` of a non-null `p` (given fuel for `2 * Size`
slot draws) returns, and returns true iff fewer than `Size` pointers are stored; on
false the whole ring state is unchanged, on true the stored pointers are the previous
ones plus `p`. -/
theorem C2_enqueue_iff_not_full (q : RingPtrQueue) (hq : q.Reachable) (p : Nat) (hp : p ≠ 0)
    (fuel : Nat) (hf : 2 * q.Size ≤ fuel) :
    ∃ b q', q.enqueue fuel p = some (b, q') ∧
      (b = true ↔ q.stored.length < q.Size) ∧ (b = false → q' = q) ∧
      (b = true → (q'.stored : Multiset Nat) = p ::ₘ (q.stored : Multiset Nat)) := by
  obtain ⟨b, q', h, _, h2, h3, h4, _⟩ := enqueue_total fuel q p (reachable_inv q hq) hp hf
  refine ⟨b, q', h, h2, h3, fun hb => ?_⟩
  rw [Multiset.cons_coe]
  exact Multiset.coe_eq_coe.mpr (h4 hb)

theorem C2_enqueue_iff_not_full_witness :
    (RingPtrQueue.construct 1).Reachable ∧ (7 : Nat) ≠ 0 ∧
      2 * (RingPtrQueue.construct 1).Size ≤ 2 ∧
      ∃ b q', (RingPtrQueue.construct 1).enqueue 2 7 = some (b, q') ∧
        (b = true ↔ (RingPtrQueue.construct 1).stored.length < (RingPtrQueue.construct 1).Size) ∧
        (b = false → q' = RingPtrQueue.construct 1) ∧
        (b = true → (q'.stored : Multiset Nat) =
          7 ::ₘ ((RingPtrQueue.construct 1).stored : Multiset Nat)) :=
  ⟨RingPtrQueue.Reachable.construct 1 (by simp [WORD]), by decide, by decide,
    C2_enqueue_iff_not_full (RingPtrQueue.construct 1)
      (RingPtrQueue.Reachable.construct 1 (by simp [WORD])) 7 (by decide) 2 (by decide)⟩

/-- C3 (counterexample): on a fresh ring of capacity 0, `enqueue(7)` is refused and the
following `dequeue()` returns null, not 7. -/
theorem C3_fresh_ring_of_capacity_zero :
    (RingPtrQueue.construct 0).enqueue 1 7 = some (false, RingPtrQueue.construct 0) ∧
      (RingPtrQueue.construct 0).dequeue 1 = some (0, RingPtrQueue.construct 0) := by
  constructor <;> rfl

/-- C3 (amended): in sequential use, `dequeue()` (given fuel for `2 * Size` slot draws)
returns, and returns null iff no pointer is stored, leaving the whole ring state unchanged
in that case; otherwise it returns a stored pointer and removes exactly one occurrence of
it. On a fresh ring of capacity at least 1, `enqueue(p)` followed by `dequeue()` returns
`p` and a further `dequeue()` returns null. -/
theorem C3_dequeue_null_iff_empty (q : RingPtrQueue) (hq : q.Reachable)
    (fuel : Nat) (hf : 2 * q.Size ≤ fuel) :
    (∃ e q', q.dequeue fuel = some (e, q') ∧
      (e = 0 ↔ q.stored = []) ∧ (e = 0 → q' = q) ∧
      (e ≠ 0 → e ∈ q.stored ∧
        (q'.stored : Multiset Nat) = (q.stored : Multiset Nat).erase e)) ∧
    (∀ size p f, 0 < size → 8 * size < WORD → p ≠ 0 → 2 * size ≤ f →
      ∃ q1 q2, (RingPtrQueue.construct size).enqueue f p = some (true, q1) ∧
        q1.dequeue f = some (p, q2) ∧ q2.dequeue f = some (0, q2)) := by
  constructor
  · obtain ⟨e, q', h, _, h2, h3, h4, _⟩ := dequeue_total fuel q (reachable_inv q hq) hf
    refine ⟨e, q', h, ?_, h3, fun he => ?_⟩
    · rw [h2, List.length_eq_zero]
    · have hperm := h4 he
      refine ⟨hperm.symm.subset (List.mem_cons_self _ _), ?_⟩
      rw [Multiset.coe_eq_coe.mpr hperm, ← Multiset.cons_coe, Multiset.erase_cons_head]
  · intro size p f hpos hsz hp hfu
    have hi0 := construct_inv size hsz
    obtain ⟨b, q1, h, hi1, h2, _, h4, h5⟩ :=
      enqueue_total f (RingPtrQueue.construct size) p hi0 hp hfu
    have hs0 : (RingPtrQueue.construct size).stored = [] := by
      simp [RingPtrQueue.construct, RingPtrQueue.stored]
    have hsize : (RingPtrQueue.construct size).Size = size := rfl
    rw [hs0, hsize] at h2
    have hb : b = true := h2.mpr (by simpa using hpos)
    subst hb
    have hp1 := h4 rfl
    rw [hs0] at hp1
    have hq1 : q1.stored = [p] := List.perm_singleton.mp hp1
    rw [hsize] at h5
    obtain ⟨e, q2, hd, hi2, d2, _, d4, d5⟩ := dequeue_total f q1 hi1 (by omega)
    have he : e ≠ 0 := by
      intro h0
      have := d2.mp h0
      simp [hq1] at this
    have hp2 := d4 he
    rw [hq1] at hp2
    have hl := hp2.length_eq
    simp only [List.length_cons, List.length_nil] at hl
    have hq2 : q2.stored = [] := List.length_eq_zero.mp (by omega)
    rw [hq2] at hp2
    have hep : e = p := by
      have := List.perm_singleton.mp hp2.symm
      simpa using this
    subst hep
    obtain ⟨e3, q3, hd3, _, t2, t3, _, _⟩ := dequeue_total f q2 hi2 (by omega)
    have he3 : e3 = 0 := t2.mpr (by simp [hq2])
    have hq3 := t3 he3
    subst he3
    subst hq3
    exact ⟨q1, q3, h, hd, hd3⟩

theorem C3_dequeue_null_iff_empty_witness :
    (RingPtrQueue.construct 1).Reachable ∧ 2 * (RingPtrQueue.construct 1).Size ≤ 2 ∧
    ((∃ e q', (RingPtrQueue.construct 1).dequeue 2 = some (e, q') ∧
      (e = 0 ↔ (RingPtrQueue.construct 1).stored = []) ∧
      (e = 0 → q' = RingPtrQueue.construct 1) ∧
      (e ≠ 0 → e ∈ (RingPtrQueue.construct 1).stored ∧
        (q'.stored : Multiset Nat) =
          ((RingPtrQueue.construct 1).stored : Multiset Nat).erase e)) ∧
    (∀ size p f, 0 < size → 8 * size < WORD → p ≠ 0 → 2 * size ≤ f →
      ∃ q1 q2, (RingPtrQueue.construct size).enqueue f p = some (true, q1) ∧
        q1.dequeue f = some (p, q2) ∧ q2.dequeue f = some (0, q2))) :=
  ⟨RingPtrQueue.Reachable.construct 1 (by simp [WORD]), by decide,
    C3_dequeue_null_iff_empty (RingPtrQueue.construct 1)
      (RingPtrQueue.Reachable.construct 1 (by simp [WORD])) 2 (by decide)⟩

/-! ## The ring is a bounded FIFO while the cursors have not wrapped -/

theorem slot_inj (h n i j : Nat) (hi : i < n) (hj : j < n)
    (heq : (h + i) % n = (h + j) % n) : i = j :=
  Nat.ModEq.eq_of_lt_of_lt (Nat.ModEq.add_left_cancel' h heq) hi hj

theorem fifo_enqueue (fuel : Nat) (q : RingPtrQueue) (l : List Nat) (p : Nat)
    (hF : q.Fifo l) (hp : p ≠ 0) (ht : q.Tail + 1 < WORD) (hf : 1 ≤ fuel) :
    ∃ q', q.enqueue fuel p = some (decide (l.length < q.Size), q') ∧
      q'.Fifo (if l.length < q.Size then l ++ [p] else l) ∧ q'.Size = q.Size ∧
      q'.Tail ≤ q.Tail + 1 := by
  obtain ⟨hlen, hsz, hle, hsp, hel, htl, hbuf, hnz⟩ := hF
  have hW := one_lt_WORD
  have hmod : (q.SpaceSemaphore + 1) % WORD = q.SpaceSemaphore + 1 :=
    Nat.mod_eq_of_lt (by omega)
  obtain ⟨f, rfl⟩ : ∃ f, fuel = f + 1 := ⟨fuel - 1, by omega⟩
  unfold RingPtrQueue.enqueue RingPtrQueue.book_space
  simp only [hmod]
  by_cases hlt : l.length < q.Size
  · have hpass : q.SpaceSemaphore + 1 ≤ q.Size := by omega
    have hslot : q.Buffer.getD (q.Tail % q.Size) 0 = 0 := by
      rw [htl, hbuf _ hlt]
      simp [List.getD_eq_getElem?_getD]
    simp only [hpass, ite_true, Bool.true_eq_false, ite_false, RingPtrQueue.enqueue_loop,
      hslot, Option.map_some', hlt, decide_True]
    refine ⟨_, rfl, ?_, rfl, ?_⟩
    · refine ⟨?_, hsz, ?_, ?_, ?_, ?_, ?_, ?_⟩
      · simp [hlen]
      · simp; omega
      · simp only [List.length_append, List.length_singleton, fetch_add]
        rw [hmod, hsp]
      · simp only [List.length_append, List.length_singleton]
        rw [fetch_sub_one _ (by omega) (by omega)]
        omega
      · simp only [List.length_append, List.length_singleton, fetch_add]
        rw [Nat.mod_eq_of_lt ht]
        omega
      · intro i hi
        simp only
        by_cases hil : i = l.length
        · subst hil
          rw [htl, getD_set_self _ _ _ (by rw [hlen]; exact Nat.mod_lt _ (by omega))]
          simp [List.getD_eq_getElem?_getD]
        · have hne : q.Tail % q.Size ≠ (q.Head + i) % q.Size := by
            rw [htl]
            intro hcon
            exact hil (slot_inj _ _ _ _ hlt hi hcon).symm
          rw [getD_set_other _ _ _ _ hne, hbuf i hi]
          simp only [List.getD_eq_getElem?_getD]
          by_cases hi2 : i < l.length
          · rw [List.getElem?_append_left hi2]
          · rw [List.getElem?_eq_none (by omega), List.getElem?_eq_none (by simp; omega)]
      · intro x hx
        rcases List.mem_append.mp hx with h1 | h1
        · exact hnz x h1
        · simp at h1; rw [h1]; exact hp
    · simp only [fetch_add]
      exact Nat.mod_le _ _
  · have hpass : ¬ q.SpaceSemaphore + 1 ≤ q.Size := by omega
    have hq : ({ q with SpaceSemaphore := fetch_sub (fetch_add q.SpaceSemaphore 1) 1 } :
        RingPtrQueue) = q := by
      rw [fetch_sub_fetch_add _ (by omega)]
    simp only at hq
    simp only [hpass, ite_false, ite_true, hlt, decide_False, hq]
    exact ⟨q, rfl, ⟨hlen, hsz, hle, hsp, hel, htl, hbuf, hnz⟩, rfl, by omega⟩

theorem fifo_dequeue (fuel : Nat) (q : RingPtrQueue) (l : List Nat)
    (hF : q.Fifo l) (ht : q.Tail + 1 < WORD) (hf : 1 ≤ fuel) :
    ∃ q', q.dequeue fuel = some (l.headD 0, q') ∧ q'.Fifo l.tail ∧ q'.Size = q.Size ∧
      q'.Tail = q.Tail := by
  obtain ⟨hlen, hsz, hle, hsp, hel, htl, hbuf, hnz⟩ := hF
  have hW := one_lt_WORD
  have hmod : (q.ElemSemaphore + 1) % WORD = q.ElemSemaphore + 1 :=
    Nat.mod_eq_of_lt (by omega)
  obtain ⟨f, rfl⟩ : ∃ f, fuel = f + 1 := ⟨fuel - 1, by omega⟩
  unfold RingPtrQueue.dequeue RingPtrQueue.book_elem
  simp only [hmod]
  cases l with
  | nil =>
    simp only [List.length_nil, Nat.add_zero] at hel hsp htl
    have hpass : ¬ q.ElemSemaphore + 1 ≤ q.Size := by omega
    have hq : ({ q with ElemSemaphore := fetch_sub (fetch_add q.ElemSemaphore 1) 1 } :
        RingPtrQueue) = q := by
      rw [fetch_sub_fetch_add _ (by omega)]
    simp only at hq
    simp only [hpass, ite_false, ite_true, hq, List.headD_nil, List.tail_nil]
    exact ⟨q, rfl, ⟨hlen, hsz, by simp, by simpa using hsp, by simpa using hel,
      by simpa using htl, hbuf, hnz⟩, rfl, rfl⟩
  | cons x t =>
    simp only [List.length_cons] at hel hsp htl hle
    have hpass : q.ElemSemaphore + 1 ≤ q.Size := by omega
    have hslot : q.Buffer.getD (q.Head % q.Size) 0 = x := by
      have := hbuf 0 (by omega)
      simpa using this
    have hx : x ≠ 0 := hnz x (List.mem_cons_self _ _)
    simp only [hpass, ite_true, Bool.true_eq_false, ite_false, RingPtrQueue.dequeue_loop,
      hslot, ne_eq, hx, not_false_eq_true, List.headD_cons, List.tail_cons]
    refine ⟨_, rfl, ?_, rfl, rfl⟩
    have hh : q.Head + 1 < WORD := by omega
    refine ⟨?_, hsz, ?_, ?_, ?_, ?_, ?_, ?_⟩
    · simp [hlen]
    · show t.length ≤ q.Size
      omega
    · show fetch_sub q.SpaceSemaphore 1 = t.length
      rw [fetch_sub_one _ (by omega) (by omega)]
      omega
    · show fetch_add q.ElemSemaphore 1 + t.length = q.Size
      unfold fetch_add
      rw [hmod]
      omega
    · show q.Tail = fetch_add q.Head 1 + t.length
      unfold fetch_add
      rw [Nat.mod_eq_of_lt hh]
      omega
    · intro i hi
      show (q.Buffer.set (q.Head % q.Size) 0).getD ((fetch_add q.Head 1 + i) % q.Size) 0
        = t.getD i 0
      have hi' : i < q.Size := hi
      unfold fetch_add
      rw [Nat.mod_eq_of_lt hh]
      by_cases hlast : i + 1 = q.Size
      · have hslot2 : (q.Head + 1 + i) % q.Size = q.Head % q.Size := by
          rw [show q.Head + 1 + i = q.Head + q.Size by omega, Nat.add_mod_right]
        rw [hslot2, getD_set_self _ _ _ (by rw [hlen]; exact Nat.mod_lt _ (by omega))]
        simp only [List.getD_eq_getElem?_getD]
        rw [List.getElem?_eq_none (by omega)]
        rfl
      · have hne : q.Head % q.Size ≠ (q.Head + 1 + i) % q.Size := by
          intro hcon
          have := slot_inj q.Head q.Size 0 (i + 1) (by omega) (by omega)
            (by rw [Nat.add_zero, hcon]; congr 1; omega)
          omega
        rw [getD_set_other _ _ _ _ hne]
        have := hbuf (i + 1) (by omega)
        rw [show q.Head + 1 + i = q.Head + (i + 1) by omega, this]
        simp [List.getD_eq_getElem?_getD]
    · intro y hy
      exact hnz y (List.mem_cons_of_mem _ hy)

theorem construct_fifo (size : Nat) (h : 8 * size < WORD) :
    (RingPtrQueue.construct size).Fifo [] := by
  refine ⟨?_, h, ?_, rfl, rfl, rfl, ?_, ?_⟩
  · simp [RingPtrQueue.construct]
  · simp
  · intro i _
    simp only [RingPtrQueue.construct, List.getD_eq_getElem?_getD, List.getElem?_replicate]
    split <;> rfl
  · simp

theorem calls_refine (fuel : Nat) (hf : 1 ≤ fuel) (cs : List RingCall) :
    ∀ (q : RingPtrQueue) (l : List Nat), q.Fifo l → q.Tail + cs.length < WORD →
      (∀ p, RingCall.enqueue p ∈ cs → p ≠ 0) →
      ∃ q', q.calls fuel cs = some ((BoundedFifo.calls q.Size l cs).1, q') ∧
        q'.Fifo (BoundedFifo.calls q.Size l cs).2 ∧ q'.Size = q.Size := by
  induction cs with
  | nil =>
    intro q l hF _ _
    exact ⟨q, rfl, hF, rfl⟩
  | cons c cs ih =>
    intro q l hF hw hnz
    simp only [List.length_cons] at hw
    cases c with
    | enqueue p =>
      obtain ⟨q1, h1, hF1, hs1, ht1⟩ :=
        fifo_enqueue fuel q l p hF (hnz p (List.mem_cons_self _ _)) (by omega) hf
      obtain ⟨q2, h2, hF2, hs2⟩ :=
        ih q1 _ hF1 (by omega) (fun p' hp' => hnz p' (List.mem_cons_of_mem _ hp'))
      refine ⟨q2, ?_, ?_, by rw [hs2, hs1]⟩
      · simp only [RingPtrQueue.calls, RingPtrQueue.call, h1, Option.map_some', h2, hs1,
          BoundedFifo.calls, BoundedFifo.call]
        split <;> simp_all
      · simp only [BoundedFifo.calls, BoundedFifo.call]
        rw [hs1] at hF2
        split <;> simp_all
    | dequeue =>
      obtain ⟨q1, h1, hF1, hs1, ht1⟩ := fifo_dequeue fuel q l hF (by omega) hf
      obtain ⟨q2, h2, hF2, hs2⟩ :=
        ih q1 _ hF1 (by omega) (fun p' hp' => hnz p' (List.mem_cons_of_mem _ hp'))
      refine ⟨q2, ?_, ?_, by rw [hs2, hs1]⟩
      · simp only [RingPtrQueue.calls, RingPtrQueue.call, h1, Option.map_some', h2, hs1,
          BoundedFifo.calls, BoundedFifo.call]
        cases l <;> simp
      · simp only [BoundedFifo.calls, BoundedFifo.call]
        rw [hs1] at hF2
        cases l <;> simpa using hF2

theorem model_calls_cons (N : Nat) (l : List Nat) (c : RingCall) (cs : List RingCall) :
    BoundedFifo.calls N l (c :: cs) =
      ((BoundedFifo.call N l c).1 :: (BoundedFifo.calls N (BoundedFifo.call N l c).2 cs).1,
        (BoundedFifo.calls N (BoundedFifo.call N l c).2 cs).2) := rfl

theorem model_enqueues (N : Nat) (ps : List Nat) :
    ∀ (l : List Nat) (rest : List RingCall), l.length + ps.length ≤ N →
      BoundedFifo.calls N l (ps.map RingCall.enqueue ++ rest) =
        (ps.map (fun _ => RingReturn.enqueued true) ++ (BoundedFifo.calls N (l ++ ps) rest).1,
          (BoundedFifo.calls N (l ++ ps) rest).2) := by
  induction ps with
  | nil => intro l rest _; simp
  | cons p ps ih =>
    intro l rest h
    simp only [List.length_cons] at h
    have hlt : l.length < N := by omega
    rw [List.map_cons, List.cons_append, model_calls_cons]
    simp only [BoundedFifo.call, hlt, ite_true]
    rw [ih (l ++ [p]) rest (by simp; omega)]
    simp

theorem model_dequeues (N : Nat) (l : List Nat) :
    BoundedFifo.calls N l (List.replicate (l.length + 1) RingCall.dequeue) =
      (l.map RingReturn.dequeued ++ [RingReturn.dequeued 0], []) := by
  induction l with
  | nil => rfl
  | cons x t ih =>
    rw [List.replicate_succ, model_calls_cons]
    simp only [BoundedFifo.call, List.length_cons]
    rw [ih]
    simp

/-- C4: while `Head` and `Tail` have not wrapped, the ring behaves as the bounded FIFO
list model: every sequence of calls on non-null pointers returns (with fuel for one slot
draw per call) exactly what the list model returns, and the slots then hold the model's
list in order from `Head`. Enqueuing `p1..pk` (`k ≤ N`) on a fresh ring and dequeuing
`k + 1` times returns `p1..pk` in order and then null. -/
theorem C4_ring_refines_bounded_fifo (N : Nat) (hN : 8 * N < WORD) (cs : List RingCall)
    (hnz : ∀ p, RingCall.enqueue p ∈ cs → p ≠ 0) (hw : cs.length < WORD)
    (fuel : Nat) (hf : 1 ≤ fuel) :
    (∃ q', (RingPtrQueue.construct N).calls fuel cs = some ((BoundedFifo.calls N [] cs).1, q') ∧
      q'.Fifo (BoundedFifo.calls N [] cs).2) ∧
    (∀ ps : List Nat, (∀ p ∈ ps, p ≠ 0) → ps.length ≤ N →
      ∃ q', (RingPtrQueue.construct N).calls fuel
          (ps.map RingCall.enqueue ++ List.replicate (ps.length + 1) RingCall.dequeue) =
        some (ps.map (fun _ => RingReturn.enqueued true) ++
              (ps.map RingReturn.dequeued ++ [RingReturn.dequeued 0]), q')) := by
  have hW := one_lt_WORD
  constructor
  · obtain ⟨q', h1, h2, _⟩ := calls_refine fuel hf cs (RingPtrQueue.construct N) []
      (construct_fifo N hN) (by simpa [RingPtrQueue.construct] using hw) hnz
    exact ⟨q', h1, h2⟩
  · intro ps hps hlen
    obtain ⟨q', h1, _, _⟩ := calls_refine fuel hf
      (ps.map RingCall.enqueue ++ List.replicate (ps.length + 1) RingCall.dequeue)
      (RingPtrQueue.construct N) [] (construct_fifo N hN)
      (by simp [RingPtrQueue.construct]; omega)
      (by
        intro p hp
        rcases List.mem_append.mp hp with h | h
        · obtain ⟨x, hx, hxe⟩ := List.mem_map.mp h
          cases hxe
          exact hps p hx
        · have := List.eq_of_mem_replicate h
          cases this)
    refine ⟨q', ?_⟩
    rw [h1]
    have hsize : (RingPtrQueue.construct N).Size = N := rfl
    rw [hsize, model_enqueues N ps [] _ (by simpa using hlen)]
    simp only [List.nil_append]
    rw [model_dequeues]

theorem C4_ring_refines_bounded_fifo_witness :
    8 * 2 < WORD ∧
    (∀ p, RingCall.enqueue p ∈ [RingCall.enqueue 5, RingCall.dequeue] → p ≠ 0) ∧
    [RingCall.enqueue 5, RingCall.dequeue].length < WORD ∧ 1 ≤ 1 ∧
    ((∃ q', (RingPtrQueue.construct 2).calls 1 [RingCall.enqueue 5, RingCall.dequeue] =
        some ((BoundedFifo.calls 2 [] [RingCall.enqueue 5, RingCall.dequeue]).1, q') ∧
      q'.Fifo (BoundedFifo.calls 2 [] [RingCall.enqueue 5, RingCall.dequeue]).2) ∧
    (∀ ps : List Nat, (∀ p ∈ ps, p ≠ 0) → ps.length ≤ 2 →
      ∃ q', (RingPtrQueue.construct 2).calls 1
          (ps.map RingCall.enqueue ++ List.replicate (ps.length + 1) RingCall.dequeue) =
        some (ps.map (fun _ => RingReturn.enqueued true) ++
              (ps.map RingReturn.dequeued ++ [RingReturn.dequeued 0]), q'))) :=
  ⟨by simp [WORD], by simp, by simp [WORD], Nat.le_refl 1,
    C4_ring_refines_bounded_fifo 2 (by simp [WORD]) [RingCall.enqueue 5, RingCall.dequeue]
      (by simp) (by simp [WORD]) 1 (Nat.le_refl 1)⟩

/-! ## Conservation of pointers -/

theorem calls_conserve (fuel : Nat) (cs : List RingCall) :
    ∀ (q : RingPtrQueue), q.Inv → 2 * q.Size ≤ fuel →
      (∀ p, RingCall.enqueue p ∈ cs → p ≠ 0) →
      ∃ rs q', q.calls fuel cs = some (rs, q') ∧ q'.Inv ∧ q'.Size = q.Size ∧
        ((accepted cs rs : Multiset Nat) + (q.stored : Multiset Nat) =
          (delivered rs : Multiset Nat) + (q'.stored : Multiset Nat)) := by
  induction cs with
  | nil =>
    intro q hi _ _
    exact ⟨[], q, rfl, hi, rfl, by simp [accepted, delivered]⟩
  | cons c cs ih =>
    intro q hi hf hnz
    have hnz' : ∀ p, RingCall.enqueue p ∈ cs → p ≠ 0 :=
      fun p hp => hnz p (List.mem_cons_of_mem _ hp)
    cases c with
    | enqueue p =>
      obtain ⟨b, q1, h1, hi1, _, e3, e4, e5⟩ :=
        enqueue_total fuel q p hi (hnz p (List.mem_cons_self _ _)) hf
      obtain ⟨rs, q2, h2, hi2, hs2, hm⟩ := ih q1 hi1 (by omega) hnz'
      refine ⟨RingReturn.enqueued b :: rs, q2, ?_, hi2, by omega, ?_⟩
      · simp [RingPtrQueue.calls, RingPtrQueue.call, h1, h2]
      · cases b with
        | true =>
          have hp1 := Multiset.coe_eq_coe.mpr (e4 rfl)
          rw [← Multiset.cons_coe] at hp1
          rw [hp1] at hm
          simp only [accepted, delivered]
          rw [← Multiset.cons_coe, Multiset.cons_add, ← Multiset.add_cons]
          exact hm
        | false =>
          rw [e3 rfl] at hm
          simpa [accepted, delivered] using hm
    | dequeue =>
      obtain ⟨e, q1, h1, hi1, _, d3, d4, d5⟩ := dequeue_total fuel q hi hf
      obtain ⟨rs, q2, h2, hi2, hs2, hm⟩ := ih q1 hi1 (by omega) hnz'
      refine ⟨RingReturn.dequeued e :: rs, q2, ?_, hi2, by omega, ?_⟩
      · simp [RingPtrQueue.calls, RingPtrQueue.call, h1, h2]
      · by_cases he : e = 0
        · rw [d3 he] at hm
          simpa [accepted, delivered, he] using hm
        · have hp1 := Multiset.coe_eq_coe.mpr (d4 he)
          rw [← Multiset.cons_coe] at hp1
          simp only [accepted, delivered, ne_eq, he, not_false_eq_true, ite_true]
          rw [hp1, Multiset.add_cons, hm, ← Multiset.cons_coe, Multiset.cons_add]

/-- C5: for every sequence of `enqueue` (non-null pointers) and `dequeue` calls executed
sequentially on a fresh ring of capacity `N` (fuel for `2 * N` slot draws per call), all
calls return, and the multiset of pointers whose `enqueue` returned true equals the
multiset of pointers returned non-null by `dequeue` plus the multiset of non-null
pointers stored in the slots. -/
theorem C5_no_pointer_lost_or_duplicated (N : Nat) (hN : 8 * N < WORD) (cs : List RingCall)
    (hnz : ∀ p, RingCall.enqueue p ∈ cs → p ≠ 0) (fuel : Nat) (hf : 2 * N ≤ fuel) :
    ∃ rs q', (RingPtrQueue.construct N).calls fuel cs = some (rs, q') ∧
      (accepted cs rs : Multiset Nat) =
        (delivered rs : Multiset Nat) + (q'.stored : Multiset Nat) := by
  obtain ⟨rs, q', h1, _, _, hm⟩ :=
    calls_conserve fuel cs (RingPtrQueue.construct N) (construct_inv N hN) hf hnz
  refine ⟨rs, q', h1, ?_⟩
  have hs0 : (RingPtrQueue.construct N).stored = [] := by
    simp [RingPtrQueue.construct, RingPtrQueue.stored]
  rw [hs0] at hm
  simpa using hm

theorem C5_no_pointer_lost_or_duplicated_witness :
    8 * 1 < WORD ∧
    (∀ p, RingCall.enqueue p ∈ [RingCall.enqueue 3, RingCall.enqueue 4, RingCall.dequeue] →
      p ≠ 0) ∧ 2 * 1 ≤ 2 ∧
    ∃ rs q', (RingPtrQueue.construct 1).calls 2
        [RingCall.enqueue 3, RingCall.enqueue 4, RingCall.dequeue] = some (rs, q') ∧
      (accepted [RingCall.enqueue 3, RingCall.enqueue 4, RingCall.dequeue] rs : Multiset Nat) =
        (delivered rs : Multiset Nat) + (q'.stored : Multiset Nat) :=
  ⟨by simp [WORD], by simp, by decide,
    C5_no_pointer_lost_or_duplicated 1 (by simp [WORD])
      [RingCall.enqueue 3, RingCall.enqueue 4, RingCall.dequeue] (by simp) 2 (by decide)⟩

/-! ## The log facade -/

theorem holder_get_geometry (fuel : Nat) (h h' : TLSChunkHolder) (g g' : GlobalContext)
    (chunk : Nat) (hg : h.get fuel g = some (chunk, h', g')) :
    g'.BigBuffer = g.BigBuffer ∧ g'.ChunkSize = g.ChunkSize ∧ g'.TotalSize = g.TotalSize := by
  unfold TLSChunkHolder.get at hg
  split at hg
  · split at hg
    · simp at hg
    · split at hg <;>
      · simp only [Option.some.injEq, Prod.mk.injEq] at hg
        obtain ⟨_, _, rfl⟩ := hg
        exact ⟨rfl, rfl, rfl⟩
  · simp only [Option.some.injEq, Prod.mk.injEq] at hg
    obtain ⟨_, _, rfl⟩ := hg
    exact ⟨rfl, rfl, rfl⟩

theorem holder_reset_geometry (fuel : Nat) (h h' : TLSChunkHolder) (g g' : GlobalContext)
    (chunk : Nat) (hg : h.reset fuel g = some (chunk, h', g')) :
    g'.BigBuffer = g.BigBuffer ∧ g'.ChunkSize = g.ChunkSize ∧ g'.TotalSize = g.TotalSize := by
  unfold TLSChunkHolder.reset at hg
  simp only at hg
  split at hg
  · simp at hg
  · split at hg
    · simp at hg
    · split at hg <;>
      · simp only [Option.some.injEq, Prod.mk.injEq] at hg
        obtain ⟨_, _, rfl⟩ := hg
        exact ⟨rfl, rfl, rfl⟩

theorem chunk_ring_enqueue (fuel base chunk_size N i : Nat) (hf : 1 ≤ fuel)
    (hN : 8 * N < WORD) (hi : i < N) :
    (chunk_ring base chunk_size N i).enqueue fuel (base + chunk_size * i) =
      some (true, chunk_ring base chunk_size N (i + 1)) := by
  have hW := one_lt_WORD
  obtain ⟨f, rfl⟩ : ∃ f, fuel = f + 1 := ⟨fuel - 1, by omega⟩
  have hmod : (i + 1) % WORD = i + 1 := Nat.mod_eq_of_lt (by omega)
  have hslot : ((List.range i).map (fun k => base + chunk_size * k) ++
      List.replicate (N - i) 0).getD (i % N) 0 = 0 := by
    rw [Nat.mod_eq_of_lt hi, List.getD_eq_getElem?_getD,
      List.getElem?_append_right (by simp)]
    simp only [List.getElem?_replicate]
    split <;> rfl
  have hset : ((List.range i).map (fun k => base + chunk_size * k) ++
      List.replicate (N - i) 0).set (i % N) (base + chunk_size * i) =
      (List.range (i + 1)).map (fun k => base + chunk_size * k) ++
        List.replicate (N - (i + 1)) 0 := by
    rw [Nat.mod_eq_of_lt hi, List.set_append_right _ _ (by simp)]
    simp only [List.length_map, List.length_range, Nat.sub_self]
    rw [show N - i = (N - (i + 1)) + 1 by omega, List.replicate_succ, List.set_cons_zero,
      List.range_succ, List.map_append]
    simp
  simp only [RingPtrQueue.enqueue, RingPtrQueue.book_space, chunk_ring, fetch_add, hmod,
    show i + 1 ≤ N from hi, ite_true, Bool.true_eq_false, ite_false,
    RingPtrQueue.enqueue_loop, hslot, hset, Option.map_some',
    fetch_sub_one (N - i) (by omega) (by omega)]
  rw [show N - i - 1 = N - (i + 1) by omega]

theorem put_chunks_eq (fuel base chunk_size N : Nat) (hf : 1 ≤ fuel) (hN : 8 * N < WORD) :
    ∀ count i, i + count = N →
      GlobalContext.put_chunks fuel base chunk_size count i (chunk_ring base chunk_size N i) =
        some (chunk_ring base chunk_size N N) := by
  intro count
  induction count with
  | zero =>
    intro i hi
    simp only [Nat.add_zero] at hi
    subst hi
    rfl
  | succ n ih =>
    intro i hi
    simp only [GlobalContext.put_chunks,
      chunk_ring_enqueue fuel base chunk_size N i hf hN (by omega)]
    exact ih (i + 1) (by omega)

theorem construct_eq_chunk_ring (base chunk_size N : Nat) :
    RingPtrQueue.construct N = chunk_ring base chunk_size N 0 := by
  simp [RingPtrQueue.construct, chunk_ring]

/-- The constructor of `GlobalContext` returns, and leaves the ring holding every chunk
pointer in order. -/
theorem GlobalContext.construct_eq (fuel : Nat) (a : Allocation)
    (total_buffer_size chunk_size : Nat) (hf : 1 ≤ fuel)
    (hN : 8 * (total_buffer_size / chunk_size) < WORD) :
    GlobalContext.construct fuel a total_buffer_size chunk_size =
      some (fresh_context a total_buffer_size chunk_size) := by
  unfold GlobalContext.construct fresh_context
  simp only
  rw [construct_eq_chunk_ring a.base chunk_size,
    put_chunks_eq fuel a.base chunk_size _ hf hN _ 0 (by omega)]

theorem chunks_fit (total_buffer_size chunk_size : Nat) (ht : total_buffer_size < WORD)
    (hc : 18 < chunk_size) : 8 * (total_buffer_size / chunk_size) < WORD := by
  have h1 : total_buffer_size / chunk_size ≤ total_buffer_size / 8 :=
    Nat.div_le_div_left (by omega) (by omega)
  omega

/-- What `initialize` does, in closed form: it fails on an invalid geometry, on a
throwing allocation, on an occupied slot and on a spurious failure of the weak
compare-exchange, and installs the constructed context otherwise. -/
theorem initialize_log_eq (fuel : Nat) (allocation : Option Allocation) (spurious : Bool)
    (s : State) (total_buffer_size chunk_size : Nat) (hf : 1 ≤ fuel)
    (ht : total_buffer_size < WORD) :
    initialize_log fuel allocation spurious s total_buffer_size chunk_size =
      match allocation with
      | none => some (false, s)
      | some a =>
        if valid_geometry total_buffer_size chunk_size ∧ s.GlobalCtx.isNone = true ∧
            spurious = false
        then some (true, { s with
          GlobalCtx := some (fresh_context a total_buffer_size chunk_size) })
        else some (false, s) := by
  unfold initialize_log valid_geometry
  simp only [RECORD_PREFIX_SIZE]
  by_cases h1 : chunk_size ≤ 16 + 2
  · have : ¬ chunk_size > 18 := by omega
    cases allocation <;> simp [h1, this]
  · have h1' : chunk_size > 18 := by omega
    simp only [h1, ite_false, h1', true_and]
    by_cases h2 : total_buffer_size < chunk_size
    · have : ¬ total_buffer_size ≥ chunk_size := by omega
      cases allocation <;> simp [h2, this]
    · have h2' : total_buffer_size ≥ chunk_size := by omega
      simp only [h2, ite_false, h2', true_and]
      by_cases h3 : total_buffer_size % chunk_size = 0
      · simp only [h3, ne_eq, not_true_eq_false, ite_false, true_and]
        cases allocation with
        | none => rfl
        | some a =>
          simp only [GlobalContext.construct_eq fuel a total_buffer_size chunk_size hf
            (chunks_fit _ _ ht h1')]
          cases hg : s.GlobalCtx with
          | none => cases spurious <;> simp
          | some g => simp
      · cases allocation <;> simp [h3]

/-- When the allocation succeeds, no context is installed and the weak compare-exchange
does not fail spuriously, `initialize` returns true iff the geometry is valid; it then
installs the constructed context, and otherwise leaves the state as it was. -/
theorem initialize_log_true_iff (fuel : Nat) (a : Allocation) (s : State)
    (total_buffer_size chunk_size : Nat) (hf : 1 ≤ fuel) (ht : total_buffer_size < WORD)
    (hs : s.GlobalCtx = none) :
    ∃ r s', initialize_log fuel (some a) false s total_buffer_size chunk_size = some (r, s') ∧
      (r = true ↔ valid_geometry total_buffer_size chunk_size) ∧
      (r = false → s' = s) ∧
      (r = true → s' = { s with
        GlobalCtx := some (fresh_context a total_buffer_size chunk_size) }) := by
  rw [initialize_log_eq fuel (some a) false s total_buffer_size chunk_size hf ht]
  by_cases hv : valid_geometry total_buffer_size chunk_size
  · exact ⟨true, _, by simp [hv, hs], by simp [hv], by simp, fun _ => rfl⟩
  · exact ⟨false, s, by simp [hv], by simp [hv], fun _ => rfl, by simp⟩

/-- C6 (failing run): `initialize(256, 128)` with a valid geometry, no context installed
and a successful allocation returns false and installs nothing when the weak
compare-exchange fails spuriously. -/
theorem C6_valid_geometry_rejected_on_spurious_cas_failure :
    valid_geometry 256 128 ∧ State.start.GlobalCtx = none ∧
      initialize_log 1 (some { base := 4096, bytes := fun _ => 0 }) true State.start 256 128 =
        some (false, State.start) := by
  refine ⟨by decide, rfl, ?_⟩
  rw [initialize_log_eq 1 _ true State.start 256 128 (Nat.le_refl 1) (by simp [WORD])]
  simp

/-- C7: with a context installed, `initialize` returns false for all arguments, whatever
the allocation and the compare-exchange do, and the state is the one before the call: the
installed context (buffer bytes, chunk size, total size, ring) and the holder are unchanged. -/
theorem C7_initialize_fails_when_installed (fuel : Nat) (allocation : Option Allocation)
    (spurious : Bool) (s : State) (g : GlobalContext) (total_buffer_size chunk_size : Nat)
    (hf : 1 ≤ fuel) (ht : total_buffer_size < WORD) (hs : s.GlobalCtx = some g) :
    initialize_log fuel allocation spurious s total_buffer_size chunk_size = some (false, s) := by
  rw [initialize_log_eq fuel allocation spurious s total_buffer_size chunk_size hf ht]
  cases allocation <;> simp [hs]

theorem C7_initialize_fails_when_installed_witness :
    1 ≤ 1 ∧ 256 < WORD ∧
      ({ GlobalCtx := some (fresh_context { base := 4096, bytes := fun _ => 0 } 256 128),
         CurrentChunk := { Chunk := 0 } } : State).GlobalCtx =
        some (fresh_context { base := 4096, bytes := fun _ => 0 } 256 128) ∧
      initialize_log 1 (some { base := 8192, bytes := fun _ => 0 }) false
        { GlobalCtx := some (fresh_context { base := 4096, bytes := fun _ => 0 } 256 128),
          CurrentChunk := { Chunk := 0 } } 256 128 =
        some (false,
          { GlobalCtx := some (fresh_context { base := 4096, bytes := fun _ => 0 } 256 128),
            CurrentChunk := { Chunk := 0 } }) :=
  ⟨Nat.le_refl 1, by simp [WORD], rfl,
    C7_initialize_fails_when_installed 1 _ false _ _ 256 128 (Nat.le_refl 1) (by simp [WORD]) rfl⟩

/-- C8 (counterexample): after `finalize`, `initialize(256, 128)` with a valid geometry
returns false when the allocation throws. -/
theorem C8_initialize_after_finalize_can_fail :
    valid_geometry 256 128 ∧
      initialize_log 1 none false (finalize State.start) 256 128 =
        some (false, finalize State.start) := by
  refine ⟨by decide, ?_⟩
  rw [initialize_log_eq 1 none false _ 256 128 (Nat.le_refl 1) (by simp [WORD])]

/-- C8 (amended): `finalize` is idempotent and safe when never initialized: from every
state a second `finalize` changes nothing, after `finalize` no context is installed and
the holder holds no chunk, `finalize` leaves the start state unchanged, and a following
`initialize` with a valid geometry whose allocation succeeds returns true again when the
weak compare-exchange does not fail spuriously. -/
theorem C8_finalize_idempotent (fuel : Nat) (a : Allocation) (s : State)
    (total_buffer_size chunk_size : Nat) (hf : 1 ≤ fuel) (ht : total_buffer_size < WORD)
    (hv : valid_geometry total_buffer_size chunk_size) :
    finalize (finalize s) = finalize s ∧
      (finalize s).GlobalCtx = none ∧ (finalize s).CurrentChunk.Chunk = 0 ∧
      finalize State.start = State.start ∧
      initialize_log fuel (some a) false (finalize s) total_buffer_size chunk_size =
        some (true, { GlobalCtx := some (fresh_context a total_buffer_size chunk_size),
                      CurrentChunk := { Chunk := 0 } }) := by
  refine ⟨rfl, rfl, rfl, rfl, ?_⟩
  rw [initialize_log_eq fuel (some a) false _ total_buffer_size chunk_size hf ht]
  simp [hv, finalize]

theorem C8_finalize_idempotent_witness :
    1 ≤ 1 ∧ 256 < WORD ∧ valid_geometry 256 128 ∧
      finalize (finalize State.start) = finalize State.start ∧
      (finalize State.start).GlobalCtx = none ∧ (finalize State.start).CurrentChunk.Chunk = 0 ∧
      finalize State.start = State.start ∧
      initialize_log 1 (some { base := 4096, bytes := fun _ => 0 }) false (finalize State.start)
          256 128 =
        some (true,
          { GlobalCtx := some (fresh_context { base := 4096, bytes := fun _ => 0 } 256 128),
            CurrentChunk := { Chunk := 0 } }) :=
  ⟨Nat.le_refl 1, by simp [WORD], by decide,
    C8_finalize_idempotent 1 { base := 4096, bytes := fun _ => 0 } State.start 256 128
      (Nat.le_refl 1) (by simp [WORD]) (by decide)⟩

theorem construct_fields (fuel : Nat) (a : Allocation) (total_buffer_size chunk_size : Nat)
    (g : GlobalContext)
    (h : GlobalContext.construct fuel a total_buffer_size chunk_size = some g) :
    g.BigBuffer = a.base ∧ g.ChunkSize = chunk_size ∧ g.TotalSize = total_buffer_size := by
  unfold GlobalContext.construct at h
  simp only at h
  split at h
  · simp at h
  · simp only [Option.some.injEq] at h
    subst h
    exact ⟨rfl, rfl, rfl⟩

theorem place_fields (g : GlobalContext) (chunk : Nat) :
    (CallContext.place g chunk).GCtx.BigBuffer = g.BigBuffer ∧
      (CallContext.place g chunk).GCtx.ChunkSize = g.ChunkSize ∧
      (CallContext.place g chunk).GCtx.TotalSize = g.TotalSize := by
  simp only [CallContext.place, and_self]

theorem init_geometry (fuel : Nat) (s s1 : State) (len : Nat) (oc : Option CallContext)
    (g : GlobalContext) (hs : s.GlobalCtx = some g)
    (h : CallContext.init fuel s len = some (oc, s1)) :
    ∃ g1, s1.GlobalCtx = some g1 ∧ g1.BigBuffer = g.BigBuffer ∧
      g1.ChunkSize = g.ChunkSize ∧ g1.TotalSize = g.TotalSize ∧
      (∀ c, oc = some c → c.GCtx = g1) := by
  unfold CallContext.init at h
  rw [hs] at h
  simp only at h
  split at h
  · simp only [Option.some.injEq, Prod.mk.injEq] at h
    obtain ⟨rfl, rfl⟩ := h
    exact ⟨g, hs, rfl, rfl, rfl, by simp⟩
  · split at h
    · simp at h
    · rename_i chunk h1 g1 hget
      obtain ⟨e1, e2, e3⟩ := holder_get_geometry fuel _ _ _ _ _ hget
      split at h
      · simp only [Option.some.injEq, Prod.mk.injEq] at h
        obtain ⟨rfl, rfl⟩ := h
        exact ⟨g1, rfl, e1, e2, e3, by simp⟩
      · split at h
        · split at h
          · simp at h
          · rename_i chunk2 h2 g2 hreset
            obtain ⟨f1, f2, f3⟩ := holder_reset_geometry fuel _ _ _ _ _ hreset
            split at h
            · simp only [Option.some.injEq, Prod.mk.injEq] at h
              obtain ⟨rfl, rfl⟩ := h
              exact ⟨g2, rfl, by rw [f1, e1], by rw [f2, e2], by rw [f3, e3], by simp⟩
            · split at h
              · simp only [Option.some.injEq, Prod.mk.injEq] at h
                obtain ⟨rfl, rfl⟩ := h
                exact ⟨g2, rfl, by rw [f1, e1], by rw [f2, e2], by rw [f3, e3], by simp⟩
              · simp only [Option.some.injEq, Prod.mk.injEq] at h
                obtain ⟨rfl, rfl⟩ := h
                obtain ⟨p1, p2, p3⟩ := place_fields g2 chunk2
                refine ⟨_, rfl, ?_, ?_, ?_, ?_⟩
                · rw [p1, f1, e1]
                · rw [p2, f2, e2]
                · rw [p3, f3, e3]
                · intro c hc
                  simp only [Option.some.injEq] at hc
                  rw [← hc]
        · simp only [Option.some.injEq, Prod.mk.injEq] at h
          obtain ⟨rfl, rfl⟩ := h
          obtain ⟨p1, p2, p3⟩ := place_fields g1 chunk
          refine ⟨_, rfl, ?_, ?_, ?_, ?_⟩
          · rw [p1, e1]
          · rw [p2, e2]
          · rw [p3, e3]
          · intro c hc
            simp only [Option.some.injEq] at hc
            rw [← hc]

theorem write_geometry (fuel : Nat) (s s' : State) (buf : Nat → Nat) (len : Nat) (r : Bool)
    (h : write fuel s buf len = some (r, s')) :
    (s.GlobalCtx = none → s' = s) ∧
    (∀ g, s.GlobalCtx = some g → ∃ g', s'.GlobalCtx = some g' ∧
      g'.BigBuffer = g.BigBuffer ∧ g'.ChunkSize = g.ChunkSize ∧ g'.TotalSize = g.TotalSize) := by
  constructor
  · intro hn
    rw [show write fuel s buf len = some (false, s) by simp [write, CallContext.init, hn]] at h
    simp only [Option.some.injEq, Prod.mk.injEq] at h
    exact h.2.symm
  · intro g hs
    unfold write at h
    split at h
    · simp at h
    · rename_i s1 hinit
      simp only [Option.some.injEq, Prod.mk.injEq] at h
      obtain ⟨_, rfl⟩ := h
      obtain ⟨g1, h1, e1, e2, e3, _⟩ := init_geometry fuel s _ len _ g hs hinit
      exact ⟨g1, h1, e1, e2, e3⟩
    · rename_i c s1 hinit
      simp only [Option.some.injEq, Prod.mk.injEq] at h
      obtain ⟨_, rfl⟩ := h
      obtain ⟨g1, h1, e1, e2, e3, e4⟩ := init_geometry fuel s _ len _ g hs hinit
      have hc := e4 c rfl
      refine ⟨_, rfl, ?_, ?_, ?_⟩
      · show c.GCtx.BigBuffer = g.BigBuffer
        rw [hc, e1]
      · show c.GCtx.ChunkSize = g.ChunkSize
        rw [hc, e2]
      · show c.GCtx.TotalSize = g.TotalSize
        rw [hc, e3]

theorem reachable_geometry (s : State) (h : s.Reachable) : s.Geometry := by
  induction h with
  | start =>
    intro g hg
    simp [State.start] at hg
  | initialized fuel allocation spurious s total chunk r s' _ ht hc ha hstep ih =>
    intro g' hg'
    unfold initialize_log at hstep
    simp only [RECORD_PREFIX_SIZE] at hstep
    split at hstep
    · simp only [Option.some.injEq, Prod.mk.injEq] at hstep
      obtain ⟨_, rfl⟩ := hstep
      exact ih g' hg'
    · split at hstep
      · simp only [Option.some.injEq, Prod.mk.injEq] at hstep
        obtain ⟨_, rfl⟩ := hstep
        exact ih g' hg'
      · split at hstep
        · simp only [Option.some.injEq, Prod.mk.injEq] at hstep
          obtain ⟨_, rfl⟩ := hstep
          exact ih g' hg'
        · rename_i c1 c2 c3
          split at hstep
          · simp only [Option.some.injEq, Prod.mk.injEq] at hstep
            obtain ⟨_, rfl⟩ := hstep
            exact ih g' hg'
          · rename_i a
            split at hstep
            · simp at hstep
            · rename_i new_ctx hnew
              obtain ⟨f1, f2, f3⟩ := construct_fields fuel a total chunk new_ctx hnew
              split at hstep
              · simp only [Option.some.injEq, Prod.mk.injEq] at hstep
                obtain ⟨_, rfl⟩ := hstep
                exact ih g' hg'
              · split at hstep
                · simp only [Option.some.injEq, Prod.mk.injEq] at hstep
                  obtain ⟨_, rfl⟩ := hstep
                  exact ih g' hg'
                · simp only [Option.some.injEq, Prod.mk.injEq] at hstep
                  obtain ⟨_, rfl⟩ := hstep
                  simp only [Option.some.injEq] at hg'
                  subst hg'
                  obtain ⟨b1, b2⟩ := ha a rfl
                  rw [f1, f2, f3]
                  refine ⟨⟨by omega, by omega, ?_⟩, ht, b1, b2⟩
                  simpa using c3
  | finalized s _ _ =>
    intro g hg
    simp [finalize] at hg
  | written fuel s buf len r s' _ hstep ih =>
    intro g' hg'
    obtain ⟨w1, w2⟩ := write_geometry fuel s s' buf len r hstep
    cases hs : s.GlobalCtx with
    | none =>
      rw [w1 hs] at hg'
      rw [hs] at hg'
      simp at hg'
    | some g =>
      obtain ⟨g2, h2, e1, e2, e3⟩ := w2 g hs
      rw [h2] at hg'
      simp only [Option.some.injEq] at hg'
      subst hg'
      rw [e1, e2, e3]
      exact ih g hs

/-- C10: on an initialized log, `write(b, L)` with `L > chunk_size - 16` returns false,
whatever the fuel, and the state is the one before the call: no chunk is acquired or
rotated, so the ring, the holder, the fill points and every buffer byte are unchanged. -/
theorem C10_oversize_record_rejected (fuel : Nat) (s : State) (g : GlobalContext)
    (buf : Nat → Nat) (len : Nat) (hr : s.Reachable) (hs : s.GlobalCtx = some g)
    (hl : len > g.ChunkSize - RECORD_PREFIX_SIZE) :
    write fuel s buf len = some (false, s) := by
  obtain ⟨⟨h1, h2, _⟩, h3, _, _⟩ := reachable_geometry s hr g hs
  have hsub : (g.ChunkSize + WORD - RECORD_PREFIX_SIZE) % WORD =
      g.ChunkSize - RECORD_PREFIX_SIZE := by
    simp only [RECORD_PREFIX_SIZE, WORD] at *
    omega
  simp [write, CallContext.init, hs, hsub, hl]

theorem log_256_128_initialized :
    initialize_log 1 (some (zeroed_block 4096)) false State.start 256 128 =
      some (true, log_256_128) := by
  rw [initialize_log_eq 1 _ false State.start 256 128 (Nat.le_refl 1) (by simp [WORD])]
  simp [valid_geometry, State.start, log_256_128]

theorem log_256_128_reachable : log_256_128.Reachable :=
  State.Reachable.initialized 1 (some (zeroed_block 4096)) false State.start 256 128 true
    log_256_128 State.Reachable.start (by simp [WORD]) (by simp [WORD])
    (by
      intro a ha
      simp only [Option.some.injEq] at ha
      subst ha
      simp [zeroed_block, WORD])
    log_256_128_initialized

theorem C10_oversize_record_rejected_witness :
    log_256_128.Reachable ∧
      log_256_128.GlobalCtx = some (fresh_context (zeroed_block 4096) 256 128) ∧
      128 > (fresh_context (zeroed_block 4096) 256 128).ChunkSize - RECORD_PREFIX_SIZE ∧
      write 0 log_256_128 (fun _ => 97) 128 = some (false, log_256_128) :=
  ⟨log_256_128_reachable, rfl, by decide,
    C10_oversize_record_rejected 0 log_256_128 _ (fun _ => 97) 128 log_256_128_reachable rfl
      (by decide)⟩

/-- C9: with no context installed, `write(b, L)` returns false for every buffer and
length, whatever the fuel, and the state (context slot and holder, hence every byte and
the ring) is the one before the call; this is the case at program start, before any
`initialize`, and after every `finalize`. -/
theorem C9_write_without_context (fuel : Nat) (s : State) (buf : Nat → Nat) (len : Nat)
    (h : s.GlobalCtx = none) :
    write fuel s buf len = some (false, s) ∧
      write fuel State.start buf len = some (false, State.start) ∧
      (∀ t : State, write fuel (finalize t) buf len = some (false, finalize t)) := by
  have key : ∀ u : State, u.GlobalCtx = none → write fuel u buf len = some (false, u) := by
    intro u hu
    simp [write, CallContext.init, hu]
  exact ⟨key s h, key State.start rfl, fun t => key (finalize t) rfl⟩

theorem C9_write_without_context_witness :
    State.start.GlobalCtx = none ∧
      write 0 State.start love_me 20 = some (false, State.start) ∧
      write 0 State.start love_me 20 = some (false, State.start) ∧
      (∀ t : State, write 0 (finalize t) love_me 20 = some (false, finalize t)) :=
  ⟨rfl, C9_write_without_context 0 State.start love_me 20 rfl⟩

/-! ## Writes on a log with an aligned geometry -/

theorem land_mask (x : Nat) (hx : x < 2 ^ 64) : x &&& (2 ^ 64 - 1 - 15) = x / 16 * 16 := by
  apply Nat.eq_of_testBit_eq
  intro i
  rw [Nat.testBit_land]
  have h16 : (16 : Nat) = 2 ^ 4 := by norm_num
  have hm : (2 ^ 64 - 1 - 15 : Nat) = 2 ^ 4 * (2 ^ 60 - 1) := by norm_num
  rw [hm, h16, Nat.mul_comm (x / 2 ^ 4) (2 ^ 4), Nat.testBit_mul_pow_two,
    Nat.testBit_mul_pow_two, Nat.testBit_two_pow_sub_one, ← Nat.shiftRight_eq_div_pow,
    Nat.testBit_shiftRight]
  by_cases h4 : 4 ≤ i
  · simp only [ge_iff_le, h4, decide_True, Bool.true_and]
    rw [show 4 + (i - 4) = i by omega]
    by_cases h64 : i < 64
    · simp [show i - 4 < 60 by omega]
    · have : x.testBit i = false :=
        Nat.testBit_lt_two_pow (lt_of_lt_of_le hx (Nat.pow_le_pow_right (by norm_num) (by omega)))
      simp [this]
  · simp [h4]

theorem ptr_align_up_eq (v : Nat) (hv : v + 15 < WORD) :
    ptr_align_up RECORD_ALIGNMENT v = (v + 15) / 16 * 16 := by
  unfold ptr_align_up RECORD_ALIGNMENT
  simp only [WORD] at *
  rw [show (16 - 1 : Nat) = 15 by norm_num, Nat.mod_eq_of_lt hv]
  exact land_mask _ hv

theorem load_store_ptr (m : Memory) (a v : Nat) (hv : v < WORD) :
    load_ptr (store_ptr m a v) a = v := by
  simp only [load_ptr, store_ptr, WORD] at *
  simp
  omega

theorem store_ptr_other (m : Memory) (a v x : Nat) (hx : x < a ∨ a + 8 ≤ x) :
    store_ptr m a v x = m x := by
  simp only [store_ptr]
  rw [if_neg (by omega)]

theorem memcpy_inside (m : Memory) (dst : Nat) (src : Nat → Nat) (n x : Nat)
    (h1 : dst ≤ x) (h2 : x < dst + n) : memcpy m dst src n x = src (x - dst) := by
  simp only [memcpy]
  rw [if_pos ⟨h1, h2⟩]

theorem memcpy_other (m : Memory) (dst : Nat) (src : Nat → Nat) (n x : Nat)
    (hx : x < dst ∨ dst + n ≤ x) : memcpy m dst src n x = m x := by
  simp only [memcpy]
  rw [if_neg (by omega)]

theorem load_ptr_congr (m m' : Memory) (a : Nat) (h : ∀ k, k < 8 → m' (a + k) = m (a + k)) :
    load_ptr m' a = load_ptr m a := by
  have h0 := h 0 (by omega)
  simp only [Nat.add_zero] at h0
  simp only [load_ptr, h0, h 1 (by omega), h 2 (by omega), h 3 (by omega), h 4 (by omega),
    h 5 (by omega), h 6 (by omega), h 7 (by omega)]

theorem is_chunk_facts (g : GlobalContext) (p : Nat)
    (hgeo : valid_geometry g.TotalSize g.ChunkSize)
    (hc : g.ChunkSize % RECORD_ALIGNMENT = 0) (hb : g.BigBuffer % RECORD_ALIGNMENT = 0)
    (hpos : 0 < g.BigBuffer) (hp : g.is_chunk p) :
    p % 16 = 0 ∧ 0 < p ∧ p + g.ChunkSize ≤ g.BigBuffer + g.TotalSize ∧ 32 ≤ g.ChunkSize ∧
      g.BigBuffer ≤ p := by
  obtain ⟨i, hi, rfl⟩ := hp
  obtain ⟨h1, h2, h3⟩ := hgeo
  simp only [RECORD_ALIGNMENT] at hc hb
  have hmul : g.ChunkSize * (i + 1) ≤ g.TotalSize :=
    le_trans (Nat.mul_le_mul_left _ (by omega : i + 1 ≤ g.TotalSize / g.ChunkSize))
      (Nat.mul_div_le _ _)
  rw [Nat.mul_add, Nat.mul_one] at hmul
  obtain ⟨c, hc'⟩ : 16 ∣ g.ChunkSize := Nat.dvd_of_mod_eq_zero hc
  have hci : g.ChunkSize * i = 16 * (c * i) := by rw [hc', Nat.mul_assoc]
  refine ⟨by omega, by omega, by omega, by omega, by omega⟩

theorem reset_fill_in_chunk (g : GlobalContext) (q : RingPtrQueue) (p : Nat)
    (hp16 : p % 16 = 0) (hsz : 32 ≤ g.ChunkSize) (hw : p + g.ChunkSize < WORD) :
    ({ g with Queue := q, bytes := MemoryBufferChunk.reset g.bytes p } :
      GlobalContext).fill_in_chunk p := by
  have hfp : MemoryBufferChunk.get_fill_point (MemoryBufferChunk.reset g.bytes p) p = p + 16 := by
    unfold MemoryBufferChunk.get_fill_point MemoryBufferChunk.reset sizeof_MemoryBufferChunk
    rw [ptr_align_up_eq _ (by omega), load_store_ptr _ _ _ (by omega)]
    omega
  unfold GlobalContext.fill_in_chunk
  simp only [hfp, RECORD_ALIGNMENT]
  omega

theorem is_chunk_congr (g g' : GlobalContext) (p : Nat) (h1 : g'.BigBuffer = g.BigBuffer)
    (h2 : g'.ChunkSize = g.ChunkSize) (h3 : g'.TotalSize = g.TotalSize) :
    g'.is_chunk p ↔ g.is_chunk p := by
  unfold GlobalContext.is_chunk
  rw [h1, h2, h3]

theorem take_chunk_aligned (fuel : Nat) (g : GlobalContext) (h0 : TLSChunkHolder)
    (q1 q2 : RingPtrQueue) (chunk : Nat) (hA : g.Aligned h0) (hq1 : q1.Inv)
    (hst : ∀ p ∈ q1.stored, g.is_chunk p) (hd : q1.dequeue fuel = some (chunk, q2)) :
    (chunk = 0 → ({ g with Queue := q2 } : GlobalContext).Aligned { Chunk := 0 }) ∧
    (chunk ≠ 0 →
      ({ g with Queue := q2, bytes := MemoryBufferChunk.reset g.bytes chunk } :
        GlobalContext).Aligned { Chunk := chunk }) := by
  obtain ⟨hi2, _, d3, d4, _, _⟩ := dequeue_inv fuel q1 chunk q2 hq1 hd
  constructor
  · intro h0'
    have hq := d3 h0'
    subst hq
    exact ⟨hA.geometry, hA.chunk_aligned, hA.base_aligned, hA.base_pos, hA.in_space, hi2,
      fun p hp => (is_chunk_congr g _ p rfl rfl rfl).mpr (hst p hp), fun hne => absurd rfl hne⟩
  · intro hne
    have hperm := d4 hne
    have hchunk : g.is_chunk chunk := hst chunk (hperm.symm.subset (List.mem_cons_self _ _))
    obtain ⟨c1, c2, c3, c4, _⟩ := is_chunk_facts g chunk hA.geometry hA.chunk_aligned
      hA.base_aligned hA.base_pos hchunk
    have hw := hA.in_space
    refine ⟨hA.geometry, hA.chunk_aligned, hA.base_aligned, hA.base_pos, hA.in_space, hi2,
      fun p hp => (is_chunk_congr g _ p rfl rfl rfl).mpr
        (hst p (hperm.symm.subset (List.mem_cons_of_mem _ hp))), fun _ => ⟨?_, ?_⟩⟩
    · exact (is_chunk_congr g _ chunk rfl rfl rfl).mpr hchunk
    · exact reset_fill_in_chunk g q2 chunk c1 c4 (by omega)

theorem holder_get_aligned (fuel : Nat) (h h' : TLSChunkHolder) (g g' : GlobalContext)
    (chunk : Nat) (hA : g.Aligned h) (hg : h.get fuel g = some (chunk, h', g')) :
    g'.Aligned h' ∧ h'.Chunk = chunk := by
  unfold TLSChunkHolder.get at hg
  split at hg
  · split at hg
    · simp at hg
    · rename_i chunk1 q1 hd
      obtain ⟨t0, t1⟩ := take_chunk_aligned fuel g h g.Queue q1 chunk1 hA hA.ring
        hA.ring_chunks hd
      split at hg
      · rename_i hz
        simp only [Option.some.injEq, Prod.mk.injEq] at hg
        obtain ⟨rfl, rfl, rfl⟩ := hg
        exact ⟨t0 hz, rfl⟩
      · rename_i hz
        simp only [Option.some.injEq, Prod.mk.injEq] at hg
        obtain ⟨rfl, rfl, rfl⟩ := hg
        exact ⟨t1 hz, rfl⟩
  · simp only [Option.some.injEq, Prod.mk.injEq] at hg
    obtain ⟨rfl, rfl, rfl⟩ := hg
    exact ⟨hA, rfl⟩

theorem holder_reset_aligned (fuel : Nat) (h h' : TLSChunkHolder) (g g' : GlobalContext)
    (chunk : Nat) (hA : g.Aligned h) (hg : h.reset fuel g = some (chunk, h', g')) :
    g'.Aligned h' ∧ h'.Chunk = chunk := by
  unfold TLSChunkHolder.reset at hg
  simp only at hg
  split at hg
  · simp at hg
  · rename_i q1 hput
    have hq1 : q1.Inv ∧ ∀ p ∈ q1.stored, g.is_chunk p := by
      split at hput
      · rename_i hne
        obtain ⟨hc, _⟩ := hA.held hne
        simp only [Option.map_eq_some'] at hput
        obtain ⟨⟨b, q⟩, he, rfl⟩ := hput
        obtain ⟨e1, _, e3, e4, _, _⟩ := enqueue_inv fuel g.Queue h.Chunk b q hA.ring hne he
        refine ⟨e1, fun p hp => ?_⟩
        cases b with
        | true =>
          rcases List.mem_cons.mp ((e4 rfl).subset hp) with hh | hh
          · rw [hh]; exact hc
          · exact hA.ring_chunks p hh
        | false =>
          rw [e3 rfl] at hp
          exact hA.ring_chunks p hp
      · simp only [Option.some.injEq] at hput
        subst hput
        exact ⟨hA.ring, hA.ring_chunks⟩
    split at hg
    · simp at hg
    · rename_i chunk1 q2 hd
      obtain ⟨t0, t1⟩ := take_chunk_aligned fuel g h q1 q2 chunk1 hA hq1.1 hq1.2 hd
      split at hg
      · rename_i hz
        simp only [Option.some.injEq, Prod.mk.injEq] at hg
        obtain ⟨rfl, rfl, rfl⟩ := hg
        exact ⟨t0 hz, rfl⟩
      · rename_i hz
        simp only [Option.some.injEq, Prod.mk.injEq] at hg
        obtain ⟨rfl, rfl, rfl⟩ := hg
        exact ⟨t1 hz, rfl⟩

theorem init_aligned (fuel : Nat) (s s1 : State) (len : Nat) (oc : Option CallContext)
    (g : GlobalContext) (hs : s.GlobalCtx = some g) (hA : g.Aligned s.CurrentChunk)
    (h : CallContext.init fuel s len = some (oc, s1)) :
    (oc = none → s1.Aligned) ∧
    (∀ c, oc = some c → ∃ g1 h1, g1.Aligned h1 ∧ h1.Chunk ≠ 0 ∧
      c = CallContext.place g1 h1.Chunk ∧
      s1 = { GlobalCtx := some c.GCtx, CurrentChunk := h1 } ∧
      MemoryBufferChunk.out_of_space g1.bytes h1.Chunk g1.ChunkSize len = false ∧
      len + 16 ≤ g1.ChunkSize) := by
  have hW := one_lt_WORD
  obtain ⟨hc18, hct, _⟩ := hA.geometry
  have hin := hA.in_space
  have hsub : (g.ChunkSize + WORD - RECORD_PREFIX_SIZE) % WORD = g.ChunkSize - 16 := by
    simp only [RECORD_PREFIX_SIZE, WORD] at *
    omega
  unfold CallContext.init at h
  rw [hs] at h
  simp only [hsub] at h
  split at h
  · simp only [Option.some.injEq, Prod.mk.injEq] at h
    obtain ⟨rfl, rfl⟩ := h
    refine ⟨fun _ => ?_, by simp⟩
    intro g' hg'
    rw [hs] at hg'
    simp only [Option.some.injEq] at hg'
    subst hg'
    exact hA
  · rename_i hlen
    split at h
    · simp at h
    · rename_i chunk h1 g1 hget
      obtain ⟨hA1, hch1⟩ := holder_get_aligned fuel _ _ _ _ _ hA hget
      obtain ⟨_, e2, _⟩ := holder_get_geometry fuel _ _ _ _ _ hget
      split at h
      · simp only [Option.some.injEq, Prod.mk.injEq] at h
        obtain ⟨rfl, rfl⟩ := h
        refine ⟨fun _ => ?_, by simp⟩
        intro g' hg'
        simp only [Option.some.injEq] at hg'
        subst hg'
        exact hA1
      · rename_i hne
        split at h
        · split at h
          · simp at h
          · rename_i chunk2 h2 g2 hreset
            obtain ⟨hA2, hch2⟩ := holder_reset_aligned fuel _ _ _ _ _ hA1 hreset
            obtain ⟨_, f2, _⟩ := holder_reset_geometry fuel _ _ _ _ _ hreset
            split at h
            · simp only [Option.some.injEq, Prod.mk.injEq] at h
              obtain ⟨rfl, rfl⟩ := h
              refine ⟨fun _ => ?_, by simp⟩
              intro g' hg'
              simp only [Option.some.injEq] at hg'
              subst hg'
              exact hA2
            · rename_i hne2
              split at h
              · simp only [Option.some.injEq, Prod.mk.injEq] at h
                obtain ⟨rfl, rfl⟩ := h
                refine ⟨fun _ => ?_, by simp⟩
                intro g' hg'
                simp only [Option.some.injEq] at hg'
                subst hg'
                exact hA2
              · rename_i hspace
                simp only [Option.some.injEq, Prod.mk.injEq] at h
                obtain ⟨rfl, rfl⟩ := h
                refine ⟨by simp, fun c hc => ?_⟩
                simp only [Option.some.injEq] at hc
                subst hc
                refine ⟨g2, h2, hA2, by rw [hch2]; exact hne2, by rw [hch2], rfl, ?_, ?_⟩
                · rw [hch2]
                  simpa using hspace
                · rw [f2, e2]
                  omega
        · rename_i hspace
          simp only [Option.some.injEq, Prod.mk.injEq] at h
          obtain ⟨rfl, rfl⟩ := h
          refine ⟨by simp, fun c hc => ?_⟩
          simp only [Option.some.injEq] at hc
          subst hc
          refine ⟨g1, h1, hA1, by rw [hch1]; exact hne, by rw [hch1], rfl, ?_, ?_⟩
          · rw [hch1]
            simpa using hspace
          · rw [e2]
            omega

theorem record_written (g1 : GlobalContext) (h1 : TLSChunkHolder) (buf : Nat → Nat) (len : Nat)
    (hA1 : g1.Aligned h1) (hne : h1.Chunk ≠ 0)
    (hsp : MemoryBufferChunk.out_of_space g1.bytes h1.Chunk g1.ChunkSize len = false)
    (hl : len + 16 ≤ g1.ChunkSize) :
    ({ (CallContext.place g1 h1.Chunk).GCtx with
        bytes := MemoryBufferChunk.fill_up_to
          (CallContext.write_prefix (CallContext.place g1 h1.Chunk)
            (memcpy (CallContext.place g1 h1.Chunk).GCtx.bytes
              (CallContext.place g1 h1.Chunk).RecordPlace buf len))
          (CallContext.place g1 h1.Chunk).Chunk
          ((CallContext.place g1 h1.Chunk).RecordPlace + len) } : GlobalContext).Aligned h1 ∧
    ({ (CallContext.place g1 h1.Chunk).GCtx with
        bytes := MemoryBufferChunk.fill_up_to
          (CallContext.write_prefix (CallContext.place g1 h1.Chunk)
            (memcpy (CallContext.place g1 h1.Chunk).GCtx.bytes
              (CallContext.place g1 h1.Chunk).RecordPlace buf len))
          (CallContext.place g1 h1.Chunk).Chunk
          ((CallContext.place g1 h1.Chunk).RecordPlace + len) } :
      GlobalContext).holds_record buf len := by
  obtain ⟨hchunk, hfill⟩ := hA1.held hne
  obtain ⟨c1, c2, c3, c4, c5⟩ := is_chunk_facts g1 h1.Chunk hA1.geometry hA1.chunk_aligned
    hA1.base_aligned hA1.base_pos hchunk
  have hin := hA1.in_space
  have hb := hA1.base_aligned
  have hc16 := hA1.chunk_aligned
  have hW : WORD = 18446744073709551616 := by simp [WORD]
  rw [hW] at hin
  unfold GlobalContext.fill_in_chunk at hfill
  simp only [RECORD_ALIGNMENT] at hfill hb hc16
  obtain ⟨f1, f2, f3⟩ := hfill
  unfold MemoryBufferChunk.out_of_space at hsp
  simp only [RECORD_PREFIX_SIZE, decide_eq_false_iff_not, not_lt, gt_iff_lt, hW] at hsp
  generalize hfp : MemoryBufferChunk.get_fill_point g1.bytes h1.Chunk = fp at f1 f2 f3 hsp
  have hfit : fp + 16 + len ≤ h1.Chunk + g1.ChunkSize := by omega
  have hv : fp + 16 + len + 15 < WORD := by
    rw [hW]
    omega
  simp only [CallContext.place, hfp, CallContext.write_prefix, MemoryBufferChunk.fill_up_to,
    RECORD_PREFIX_SIZE]
  rw [ptr_align_up_eq _ hv]
  constructor
  · refine ⟨hA1.geometry, hA1.chunk_aligned, hA1.base_aligned, hA1.base_pos, hA1.in_space,
      hA1.ring, fun p hp => (is_chunk_congr g1 _ p rfl rfl rfl).mpr (hA1.ring_chunks p hp),
      fun _ => ⟨(is_chunk_congr g1 _ _ rfl rfl rfl).mpr hchunk, ?_⟩⟩
    unfold GlobalContext.fill_in_chunk MemoryBufferChunk.get_fill_point
    simp only [RECORD_ALIGNMENT]
    rw [load_store_ptr _ _ _ (by rw [hW]; omega)]
    omega
  · refine ⟨fp - g1.BigBuffer, by simp only; omega, ?_, ?_, ?_, ?_⟩
    · simp only [RECORD_ALIGNMENT]
      omega
    · simp only [RECORD_PREFIX_SIZE]
      omega
    · intro i hi
      simp only [RECORD_PREFIX_SIZE] at hi
      simp only
      rw [show g1.BigBuffer + (fp - g1.BigBuffer) + i = fp + i by omega,
        store_ptr_other _ _ _ _ (by omega), memcpy_inside _ _ _ _ _ (by omega) (by omega)]
      simp
    · intro i hi
      simp only [RECORD_PREFIX_SIZE]
      rw [show g1.BigBuffer + (fp - g1.BigBuffer) + 16 + i = fp + 16 + i by omega,
        store_ptr_other _ _ _ _ (by omega), memcpy_other _ _ _ _ _ (by omega),
        memcpy_inside _ _ _ _ _ (by omega) (by omega)]
      congr 1
      omega

theorem write_aligned (fuel : Nat) (s s' : State) (buf : Nat → Nat) (len : Nat) (r : Bool)
    (hA : s.Aligned) (h : write fuel s buf len = some (r, s')) :
    s'.Aligned ∧ (r = true → s'.holds_record buf len) := by
  cases hs : s.GlobalCtx with
  | none =>
    rw [show write fuel s buf len = some (false, s) by simp [write, CallContext.init, hs]] at h
    simp only [Option.some.injEq, Prod.mk.injEq] at h
    obtain ⟨rfl, rfl⟩ := h
    exact ⟨hA, by simp⟩
  | some g =>
    unfold write at h
    split at h
    · simp at h
    · rename_i s1 hinit
      simp only [Option.some.injEq, Prod.mk.injEq] at h
      obtain ⟨rfl, rfl⟩ := h
      exact ⟨(init_aligned fuel s _ len _ g hs (hA g hs) hinit).1 rfl, by simp⟩
    · rename_i c s1 hinit
      simp only [Option.some.injEq, Prod.mk.injEq] at h
      obtain ⟨rfl, rfl⟩ := h
      obtain ⟨g1, h1, hA1, hne, hc, hs1, hsp, hl⟩ :=
        (init_aligned fuel s _ len _ g hs (hA g hs) hinit).2 c rfl
      subst hc
      subst hs1
      obtain ⟨w1, w2⟩ := record_written g1 h1 buf len hA1 hne hsp hl
      constructor
      · intro g' hg'
        simp only [Option.some.injEq] at hg'
        subst hg'
        exact w1
      · intro _
        exact w2

theorem chunk_ring_full_stored (base chunk_size N : Nat) (hb : 0 < base) :
    (chunk_ring base chunk_size N N).stored =
      (List.range N).map (fun k => base + chunk_size * k) := by
  simp only [RingPtrQueue.stored, chunk_ring, Nat.sub_self, List.replicate_zero,
    List.append_nil]
  rw [List.filter_eq_self]
  intro p hp
  obtain ⟨k, _, rfl⟩ := List.mem_map.mp hp
  simp only [ne_eq, decide_eq_true_eq]
  omega

theorem fresh_context_aligned (a : Allocation) (total_buffer_size chunk_size : Nat)
    (hgeo : valid_geometry total_buffer_size chunk_size)
    (hc : chunk_size % RECORD_ALIGNMENT = 0) (hb : a.base % RECORD_ALIGNMENT = 0)
    (hpos : 0 < a.base) (hin : a.base + total_buffer_size < WORD) :
    (fresh_context a total_buffer_size chunk_size).Aligned { Chunk := 0 } := by
  have hst := chunk_ring_full_stored a.base chunk_size (total_buffer_size / chunk_size) hpos
  refine ⟨hgeo, hc, hb, hpos, hin, ⟨?_, ?_, ?_, ?_, ?_, ?_⟩, ?_, fun hne => absurd rfl hne⟩
  · simp [fresh_context, chunk_ring]
  · exact chunks_fit _ _ (by omega) hgeo.1
  · show (total_buffer_size / chunk_size) = _
    rw [show (fresh_context a total_buffer_size chunk_size).Queue.stored =
      (chunk_ring a.base chunk_size (total_buffer_size / chunk_size)
        (total_buffer_size / chunk_size)).stored from rfl, hst]
    simp
  · simp [fresh_context, chunk_ring]
  · simp [fresh_context, chunk_ring, WORD]
  · have := chunks_fit total_buffer_size chunk_size (by omega) hgeo.1
    show total_buffer_size / chunk_size < WORD
    omega
  · intro p hp
    rw [show (fresh_context a total_buffer_size chunk_size).Queue.stored =
      (chunk_ring a.base chunk_size (total_buffer_size / chunk_size)
        (total_buffer_size / chunk_size)).stored from rfl, hst] at hp
    obtain ⟨k, hk, rfl⟩ := List.mem_map.mp hp
    exact ⟨k, List.mem_range.mp hk, rfl⟩

theorem writes_aligned (fuel : Nat) (ws : List ((Nat → Nat) × Nat)) :
    ∀ (s s' : State) (rs : List Bool), s.Aligned → writes fuel s ws = some (rs, s') →
      s'.Aligned := by
  induction ws with
  | nil =>
    intro s s' rs hA h
    simp only [writes, Option.some.injEq, Prod.mk.injEq] at h
    rw [← h.2]
    exact hA
  | cons w ws ih =>
    intro s s' rs hA h
    obtain ⟨buf, len⟩ := w
    simp only [writes] at h
    split at h
    · simp at h
    · rename_i r s1 hw
      split at h
      · simp at h
      · rename_i rs2 s2 hws
        simp only [Option.some.injEq, Prod.mk.injEq] at h
        rw [← h.2]
        exact ih s1 s2 rs2 (write_aligned fuel s s1 buf len r hA hw).1 hws

/-- On a log whose chunk size is a multiple of 16 and whose buffer is 16-byte aligned,
after any sequence of `write` calls by one thread a `write(b, L)` that returns true leaves
the magic followed by `b[0..L)` in the buffer, at a 16-byte-aligned offset. -/
theorem aligned_write_lands_in_buffer (fuel : Nat) (a : Allocation)
    (total_buffer_size chunk_size : Nat) (ws : List ((Nat → Nat) × Nat)) (rs : List Bool)
    (s1 s2 : State) (buf : Nat → Nat) (len : Nat)
    (hgeo : valid_geometry total_buffer_size chunk_size)
    (hc : chunk_size % RECORD_ALIGNMENT = 0) (hb : a.base % RECORD_ALIGNMENT = 0)
    (hpos : 0 < a.base) (hin : a.base + total_buffer_size < WORD)
    (hws : writes fuel (State.installed (fresh_context a total_buffer_size chunk_size)) ws =
      some (rs, s1))
    (hw : write fuel s1 buf len = some (true, s2)) :
    s2.holds_record buf len := by
  have h0 : (State.installed (fresh_context a total_buffer_size chunk_size)).Aligned := by
    intro g hg
    simp only [State.installed, Option.some.injEq] at hg
    subst hg
    exact fresh_context_aligned a total_buffer_size chunk_size hgeo hc hb hpos hin
  have h1 := writes_aligned fuel ws _ s1 rs h0 hws
  exact (write_aligned fuel s1 s2 buf len true h1 hw).2 rfl

/-! ## The unit tests, run on the embedding -/

/-- Test `ENQUEUE_DEQUEUE_10_ELEMS`: a ring of capacity 10 returns `1..10` in order and
then null. -/
theorem ring_unit_test_10_elems :
    ((RingPtrQueue.construct 10).calls 1
      ((List.range' 1 10).map RingCall.enqueue ++ List.replicate 11 RingCall.dequeue)).map
        (fun r => r.1.drop 10) =
      some ((List.range' 1 10).map RingReturn.dequeued ++ [RingReturn.dequeued 0]) := by
  decide

set_option maxRecDepth 100000 in
/-- Test `WRITE_ONCE`: after `initialize(256, 128)`, `write("love me or leave me\n", 20)`
returns true and the buffer holds the magic followed by the 20 bytes, at offset 16. -/
theorem write_once_unit_test :
    (writes 1 log_256_128 [(love_me, 20)]).map
      (fun w => (w.1, decide (w.2.holds_record love_me 20),
        (List.range 36).map (fun i => w.2.byte (4096 + 16 + i)))) =
      some ([true], true, RECORD_PREFIX ++ (List.range 20).map love_me) := by
  rfl

/-! ## A successful write that lands outside the buffer -/

set_option maxRecDepth 100000 in
/-- C1 (failing run): after `initialize(100, 100)` succeeded on a zero-filled, 16-byte
aligned block at address 4096, `write` of 68 bytes `'a'` returns true and the next `write`
of the one byte `'b'` returns true as well, yet the 100 bytes of the buffer do not hold
the magic followed by `'b'` at any 16-byte-aligned offset: the record was stored at
offset 112, past the end of the buffer. -/
theorem C1_successful_write_outside_buffer :
    valid_geometry 100 100 ∧
    (initialize_log 1 (some (zeroed_block 4096)) false State.start 100 100).bind
      (fun r => (writes 1 r.2 [(fun _ => 97, 68), (fun _ => 98, 1)]).map
        (fun w => (r.1, w.1, decide (w.2.holds_record (fun _ => 98) 1),
          (List.range 17).map (fun i => w.2.byte (4096 + 112 + i))))) =
      some (true, [true, true], false, RECORD_PREFIX ++ [98]) := by
  constructor
  · decide
  · rfl

/-! ## What the pre-faulting loop leaves in the buffer -/

theorem touch_pages_apply (base : Nat) (pages : Nat) :
    ∀ (i : Nat) (m : Memory) (a : Nat),
      GlobalContext.touch_pages base pages i m a =
        if ∃ k, k < pages ∧ a = base + i + PAGE_SIZE * k then 0 else m a := by
  induction pages with
  | zero =>
    intro i m a
    simp [GlobalContext.touch_pages]
  | succ n ih =>
    intro i m a
    simp only [GlobalContext.touch_pages]
    rw [ih]
    by_cases h0 : a = base + i
    · have h1 : ∃ k, k < n + 1 ∧ a = base + i + PAGE_SIZE * k := ⟨0, by omega, by simp [h0]⟩
      rw [if_pos h1]
      split
      · rfl
      · simp [h0]
    · by_cases h1 : ∃ k, k < n ∧ a = base + (i + PAGE_SIZE) + PAGE_SIZE * k
      · obtain ⟨k, hk, hak⟩ := h1
        rw [if_pos ⟨k, hk, hak⟩, if_pos ⟨k + 1, by omega, by rw [hak, Nat.mul_add]; omega⟩]
      · rw [if_neg h1, if_neg h0, if_neg]
        rintro ⟨k, hk, hak⟩
        cases k with
        | zero => exact h0 (by simpa using hak)
        | succ j => exact h1 ⟨j, by omega, by rw [hak, Nat.mul_add]; omega⟩

/-- After the constructor, a byte of the buffer is zero at the offsets that are multiples
of `PAGE_SIZE` and is the byte of the allocated block elsewhere. -/
theorem fresh_context_bytes (a : Allocation) (total_buffer_size chunk_size off : Nat)
    (hoff : off < total_buffer_size) :
    (fresh_context a total_buffer_size chunk_size).bytes (a.base + off) =
      if off % PAGE_SIZE = 0 then 0 else a.bytes (a.base + off) := by
  simp only [fresh_context, touch_pages_apply, PAGE_SIZE, Nat.add_zero]
  by_cases h : off % 4096 = 0
  · rw [if_pos h, if_pos]
    exact ⟨off / 4096, by omega, by omega⟩
  · rw [if_neg h, if_neg]
    rintro ⟨k, _, hk⟩
    omega

/-- C18 (counterexample): `initialize(256, 128)` on a block whose bytes are all `0xAA`
succeeds, and the byte at offset 1 of the buffer is still `0xAA`; only offset 0 was
zeroed. -/
theorem C18_buffer_not_zero_filled :
    (initialize_log 1 (some { base := 4096, bytes := fun _ => 170 }) false State.start
        256 128).map (fun r => (r.1, r.2.byte 4096, r.2.byte 4097)) =
      some (true, 0, 170) := by
  rw [initialize_log_eq 1 _ false State.start 256 128 (Nat.le_refl 1) (by simp [WORD])]
  decide

/-- C18 (amended): immediately after a successful `initialize(total_size, chunk_size)`,
for every accepted geometry and whatever the freshly allocated memory held, the bytes of
the buffer at the offsets that are multiples of the page size 4096 are zero and every
other byte of the buffer is the byte the allocated memory held. -/
theorem C18_only_one_byte_per_page_zeroed (fuel : Nat) (a : Allocation) (s : State)
    (total_buffer_size chunk_size : Nat) (hf : 1 ≤ fuel) (ht : total_buffer_size < WORD)
    (hs : s.GlobalCtx = none) (hv : valid_geometry total_buffer_size chunk_size) :
    ∃ s', initialize_log fuel (some a) false s total_buffer_size chunk_size = some (true, s') ∧
      ∀ off, off < total_buffer_size →
        s'.byte (a.base + off) = if off % PAGE_SIZE = 0 then 0 else a.bytes (a.base + off) := by
  rw [initialize_log_eq fuel (some a) false s total_buffer_size chunk_size hf ht]
  refine ⟨{ s with GlobalCtx := some (fresh_context a total_buffer_size chunk_size) },
    by simp [hv, hs], fun off hoff => ?_⟩
  simp only [State.byte]
  exact fresh_context_bytes a total_buffer_size chunk_size off hoff

theorem C18_only_one_byte_per_page_zeroed_witness :
    1 ≤ 1 ∧ 8192 < WORD ∧ State.start.GlobalCtx = none ∧ valid_geometry 8192 128 ∧
    ∃ s', initialize_log 1 (some { base := 4096, bytes := fun _ => 170 }) false State.start
        8192 128 = some (true, s') ∧
      ∀ off, off < 8192 →
        s'.byte (4096 + off) = if off % PAGE_SIZE = 0 then 0 else 170 :=
  ⟨Nat.le_refl 1, by simp [WORD], rfl, by decide,
    C18_only_one_byte_per_page_zeroed 1 { base := 4096, bytes := fun _ => 170 } State.start
      8192 128 (Nat.le_refl 1) (by simp [WORD]) rfl (by decide)⟩

/-! ## `TLSChunkHolder::get` -/

theorem reset_fill_point (m : Memory) (chunk : Nat)
    (hw : chunk + sizeof_MemoryBufferChunk + 15 < WORD) :
    MemoryBufferChunk.get_fill_point (MemoryBufferChunk.reset m chunk) chunk =
      (chunk + sizeof_MemoryBufferChunk + 15) / 16 * 16 := by
  unfold MemoryBufferChunk.get_fill_point MemoryBufferChunk.reset
  rw [ptr_align_up_eq _ hw, load_store_ptr _ _ _ (by omega)]

/-- C13: `TLSChunkHolder::get(ctx)`. A holder that holds a chunk returns it, and the
context (ring and memory, hence the fill point) and the holder are unchanged. A holder
that holds none (ring in sequential shape, fuel for `2 * Size` slot draws) returns null
iff the ring stores no pointer, and then nothing changes; otherwise it returns a pointer
the ring stored, the ring loses exactly that pointer, the holder records it as held, and
the fill point of that chunk is the first 16-byte-aligned address at or after the end of
the 8-byte chunk header. -/
theorem C13_holder_get (fuel : Nat) (h : TLSChunkHolder) (g : GlobalContext)
    (hq : g.Queue.Inv) (hf : 2 * g.Queue.Size ≤ fuel) :
    (h.Chunk ≠ 0 → h.get fuel g = some (h.Chunk, h, g)) ∧
    (h.Chunk = 0 → ∃ chunk h' g', h.get fuel g = some (chunk, h', g') ∧
      (chunk = 0 ↔ g.Queue.stored = []) ∧ h'.Chunk = chunk ∧
      (chunk = 0 → g' = g) ∧
      (chunk ≠ 0 → chunk ∈ g.Queue.stored ∧
        (g'.Queue.stored : Multiset Nat) = (g.Queue.stored : Multiset Nat).erase chunk ∧
        (chunk + sizeof_MemoryBufferChunk + 15 < WORD →
          MemoryBufferChunk.get_fill_point g'.bytes chunk % RECORD_ALIGNMENT = 0 ∧
          chunk + sizeof_MemoryBufferChunk ≤ MemoryBufferChunk.get_fill_point g'.bytes chunk ∧
          MemoryBufferChunk.get_fill_point g'.bytes chunk <
            chunk + sizeof_MemoryBufferChunk + RECORD_ALIGNMENT))) := by
  constructor
  · intro hne
    simp [TLSChunkHolder.get, hne]
  · intro h0
    obtain ⟨e, q', hd, _, d2, d3, d4, _⟩ := dequeue_total fuel g.Queue hq hf
    by_cases he : e = 0
    · subst he
      have hq' := d3 rfl
      subst hq'
      refine ⟨0, { Chunk := 0 }, g, by simp [TLSChunkHolder.get, h0, hd], ?_, rfl,
        fun _ => rfl, fun hne => absurd rfl hne⟩
      simp only [true_iff]
      exact List.length_eq_zero.mp (d2.mp rfl)
    · refine ⟨e, { Chunk := e },
        { g with Queue := q', bytes := MemoryBufferChunk.reset g.bytes e },
        by simp [TLSChunkHolder.get, h0, hd, he], ?_, rfl, fun h1 => absurd h1 he,
        fun _ => ⟨?_, ?_, fun hw => ?_⟩⟩
      · constructor
        · intro h1; exact absurd h1 he
        · intro h1
          exact absurd (d2.mpr (by simp [h1])) he
      · exact (d4 he).symm.subset (List.mem_cons_self _ _)
      · show (q'.stored : Multiset Nat) = _
        rw [Multiset.coe_eq_coe.mpr (d4 he), ← Multiset.cons_coe, Multiset.erase_cons_head]
      · show MemoryBufferChunk.get_fill_point (MemoryBufferChunk.reset g.bytes e) e %
            RECORD_ALIGNMENT = 0 ∧ _ ∧ _
        rw [reset_fill_point _ _ hw]
        simp only [RECORD_ALIGNMENT, sizeof_MemoryBufferChunk]
        omega

theorem C13_holder_get_witness :
    (fresh_context (zeroed_block 4096) 256 128).Queue.Inv ∧
    2 * (fresh_context (zeroed_block 4096) 256 128).Queue.Size ≤ 4 ∧
    ((({ Chunk := 0 } : TLSChunkHolder).Chunk ≠ 0 →
      ({ Chunk := 0 } : TLSChunkHolder).get 4 (fresh_context (zeroed_block 4096) 256 128) =
        some (({ Chunk := 0 } : TLSChunkHolder).Chunk, { Chunk := 0 },
          fresh_context (zeroed_block 4096) 256 128)) ∧
    (({ Chunk := 0 } : TLSChunkHolder).Chunk = 0 → ∃ chunk h' g',
      ({ Chunk := 0 } : TLSChunkHolder).get 4 (fresh_context (zeroed_block 4096) 256 128) =
        some (chunk, h', g') ∧
      (chunk = 0 ↔ (fresh_context (zeroed_block 4096) 256 128).Queue.stored = []) ∧
      h'.Chunk = chunk ∧
      (chunk = 0 → g' = fresh_context (zeroed_block 4096) 256 128) ∧
      (chunk ≠ 0 → chunk ∈ (fresh_context (zeroed_block 4096) 256 128).Queue.stored ∧
        (g'.Queue.stored : Multiset Nat) =
          ((fresh_context (zeroed_block 4096) 256 128).Queue.stored : Multiset Nat).erase chunk ∧
        (chunk + sizeof_MemoryBufferChunk + 15 < WORD →
          MemoryBufferChunk.get_fill_point g'.bytes chunk % RECORD_ALIGNMENT = 0 ∧
          chunk + sizeof_MemoryBufferChunk ≤ MemoryBufferChunk.get_fill_point g'.bytes chunk ∧
          MemoryBufferChunk.get_fill_point g'.bytes chunk <
            chunk + sizeof_MemoryBufferChunk + RECORD_ALIGNMENT)))) :=
  ⟨(fresh_context_aligned (zeroed_block 4096) 256 128 (by decide) (by decide) (by decide)
      (by decide) (by simp [zeroed_block, WORD])).ring,
    by decide,
    C13_holder_get 4 { Chunk := 0 } (fresh_context (zeroed_block 4096) 256 128)
      (fresh_context_aligned (zeroed_block 4096) 256 128 (by decide) (by decide) (by decide)
        (by decide) (by simp [zeroed_block, WORD])).ring
      (by decide)⟩

/-! ## The capacity of a freshly reset chunk -/

theorem fresh_chunk_space (m : Memory) (p chunk_size : Nat) (hp : p % 16 = 0)
    (hcs : 16 ≤ chunk_size) (hw : p + chunk_size < WORD) :
    MemoryBufferChunk.get_fill_point (MemoryBufferChunk.reset m p) p = p + 16 ∧
    MemoryBufferChunk.available_space (MemoryBufferChunk.reset m p) p chunk_size =
      chunk_size - 16 ∧
    ∀ len, len + 16 < WORD →
      (MemoryBufferChunk.out_of_space (MemoryBufferChunk.reset m p) p chunk_size len = false ↔
        len + 32 ≤ chunk_size) := by
  have hW : WORD = 18446744073709551616 := by simp [WORD]
  rw [hW] at hw
  have hfp : MemoryBufferChunk.get_fill_point (MemoryBufferChunk.reset m p) p = p + 16 := by
    rw [reset_fill_point _ _ (by rw [hW]; simp only [sizeof_MemoryBufferChunk]; omega)]
    simp only [sizeof_MemoryBufferChunk]
    omega
  refine ⟨hfp, ?_, fun len hl => ?_⟩
  · unfold MemoryBufferChunk.available_space
    rw [hfp, hW]
    omega
  · unfold MemoryBufferChunk.out_of_space
    rw [hW] at hl
    simp only [hfp, hW, RECORD_PREFIX_SIZE, decide_eq_false_iff_not, gt_iff_lt, not_lt]
    omega

theorem holder_reset_bytes (fuel : Nat) (h h' : TLSChunkHolder) (g g' : GlobalContext)
    (chunk : Nat) (hg : h.reset fuel g = some (chunk, h', g')) (hne : chunk ≠ 0) :
    g'.bytes = MemoryBufferChunk.reset g.bytes chunk := by
  unfold TLSChunkHolder.reset at hg
  simp only at hg
  split at hg
  · simp at hg
  · split at hg
    · simp at hg
    · split at hg
      · rename_i hz
        simp only [Option.some.injEq, Prod.mk.injEq] at hg
        exact absurd hg.1.symm hne
      · simp only [Option.some.injEq, Prod.mk.injEq] at hg
        obtain ⟨rfl, _, rfl⟩ := hg
        rfl

theorem init_fails_without_chunk (fuel : Nat) (s s1 : State) (len : Nat)
    (g : GlobalContext) (hs : s.GlobalCtx = some g) (hA : g.Aligned s.CurrentChunk)
    (hl : len + 32 ≤ g.ChunkSize)
    (h : CallContext.init fuel s len = some (none, s1)) : s1.CurrentChunk.Chunk = 0 := by
  have hW : WORD = 18446744073709551616 := by simp [WORD]
  have hin := hA.in_space
  obtain ⟨_, hct, _⟩ := hA.geometry
  have hsub : (g.ChunkSize + WORD - RECORD_PREFIX_SIZE) % WORD = g.ChunkSize - 16 := by
    simp only [RECORD_PREFIX_SIZE, hW] at *
    omega
  unfold CallContext.init at h
  rw [hs] at h
  simp only [hsub] at h
  split at h
  · rename_i hbig
    omega
  · split at h
    · simp at h
    · rename_i chunk h1 g1 hget
      obtain ⟨hA1, hch1⟩ := holder_get_aligned fuel _ _ _ _ _ hA hget
      obtain ⟨_, e2, _⟩ := holder_get_geometry fuel _ _ _ _ _ hget
      split at h
      · rename_i hz
        simp only [Option.some.injEq, Prod.mk.injEq, true_and] at h
        rw [← h]
        show h1.Chunk = 0
        rw [hch1]; exact hz
      · split at h
        · split at h
          · simp at h
          · rename_i chunk2 h2 g2 hreset
            obtain ⟨hA2, hch2⟩ := holder_reset_aligned fuel _ _ _ _ _ hA1 hreset
            obtain ⟨_, f2, _⟩ := holder_reset_geometry fuel _ _ _ _ _ hreset
            split at h
            · rename_i hz
              simp only [Option.some.injEq, Prod.mk.injEq, true_and] at h
              rw [← h]
              show h2.Chunk = 0
              rw [hch2]; exact hz
            · rename_i hne2
              split at h
              · rename_i hspace
                exfalso
                have hb := holder_reset_bytes fuel _ _ _ _ _ hreset hne2
                obtain ⟨hchunk, _⟩ := hA2.held (by rw [hch2]; exact hne2)
                rw [hch2] at hchunk
                obtain ⟨c1, c2, c3, c4, c5⟩ := is_chunk_facts g2 chunk2 hA2.geometry
                  hA2.chunk_aligned hA2.base_aligned hA2.base_pos hchunk
                have hin2 := hA2.in_space
                have key := (fresh_chunk_space g1.bytes chunk2 g2.ChunkSize c1 (by omega)
                  (by omega)).2.2 len (by rw [hW] at *; omega)
                rw [hb] at hspace
                have : MemoryBufferChunk.out_of_space (MemoryBufferChunk.reset g1.bytes chunk2)
                    chunk2 g2.ChunkSize len = false := key.mpr (by rw [f2, e2]; exact hl)
                rw [this] at hspace
                exact Bool.false_ne_true hspace
              · simp at h
        · simp at h

theorem write_fails_without_chunk (fuel : Nat) (s s' : State) (buf : Nat → Nat) (len : Nat)
    (g : GlobalContext) (hA : s.Aligned) (hs : s.GlobalCtx = some g)
    (hl : len + 32 ≤ g.ChunkSize)
    (h : write fuel s buf len = some (false, s')) : s'.CurrentChunk.Chunk = 0 := by
  unfold write at h
  split at h
  · simp at h
  · rename_i s1 hinit
    simp only [Option.some.injEq, Prod.mk.injEq, true_and] at h
    rw [← h]
    exact init_fails_without_chunk fuel s s1 len g hs (hA g hs) hl hinit
  · simp at h

set_option maxRecDepth 100000 in
/-- C11 (counterexample): with `chunk_size = 128` the record length `L = 112` passes the
size check (`112 ≤ 128 - 16`), yet the freshly reset chunk at address 4096 reports
`out_of_space(128, 112)`, and `write` of 112 bytes on the freshly initialized log returns
false although a chunk was obtained (the holder holds one afterwards). -/
theorem C11_fresh_chunk_reports_out_of_space :
    112 ≤ 128 - RECORD_PREFIX_SIZE ∧
    MemoryBufferChunk.out_of_space (MemoryBufferChunk.reset (fun _ => 0) 4096) 4096 128 112
      = true ∧
    (write 4 log_256_128 (fun _ => 97) 112).map
      (fun r => (r.1, decide (r.2.CurrentChunk.Chunk ≠ 0))) = some (false, true) := by
  refine ⟨by decide, by rfl, by rfl⟩

/-! ## The fill point and the bounds of the chunk -/

/-- On a log whose chunk size is a multiple of 16 and whose buffer is 16-byte aligned,
after any sequence of `write` calls by one thread the held chunk is a chunk of the buffer
and its fill point lies between 16 bytes behind the chunk start and the chunk end. -/
theorem aligned_fill_point_in_chunk (fuel : Nat) (a : Allocation)
    (total_buffer_size chunk_size : Nat) (ws : List ((Nat → Nat) × Nat)) (rs : List Bool)
    (s1 : State) (hgeo : valid_geometry total_buffer_size chunk_size)
    (hc : chunk_size % RECORD_ALIGNMENT = 0) (hb : a.base % RECORD_ALIGNMENT = 0)
    (hpos : 0 < a.base) (hin : a.base + total_buffer_size < WORD)
    (hws : writes fuel (State.installed (fresh_context a total_buffer_size chunk_size)) ws =
      some (rs, s1))
    (hheld : s1.CurrentChunk.Chunk ≠ 0) :
    a.base ≤ s1.CurrentChunk.Chunk ∧
    s1.CurrentChunk.Chunk + chunk_size ≤ a.base + total_buffer_size ∧
    s1.CurrentChunk.Chunk + 16 ≤ s1.fill_point ∧
    s1.fill_point ≤ s1.CurrentChunk.Chunk + chunk_size := by
  have h0 : (State.installed (fresh_context a total_buffer_size chunk_size)).Aligned := by
    intro g hg
    simp only [State.installed, Option.some.injEq] at hg
    subst hg
    exact fresh_context_aligned a total_buffer_size chunk_size hgeo hc hb hpos hin
  have h1 := writes_aligned fuel ws _ s1 rs h0 hws
  have hgeo0 : (State.installed (fresh_context a total_buffer_size chunk_size)).GlobalCtx =
      some (fresh_context a total_buffer_size chunk_size) := rfl
  have key : ∀ (ws : List ((Nat → Nat) × Nat)) (s s' : State) (rs : List Bool)
      (g : GlobalContext), s.GlobalCtx = some g → writes fuel s ws = some (rs, s') →
      ∃ g', s'.GlobalCtx = some g' ∧ g'.BigBuffer = g.BigBuffer ∧
        g'.ChunkSize = g.ChunkSize ∧ g'.TotalSize = g.TotalSize := by
    intro ws
    induction ws with
    | nil =>
      intro s s' rs g hg h
      simp only [writes, Option.some.injEq, Prod.mk.injEq] at h
      rw [← h.2]
      exact ⟨g, hg, rfl, rfl, rfl⟩
    | cons w ws ih =>
      intro s s' rs g hg h
      obtain ⟨buf, len⟩ := w
      simp only [writes] at h
      split at h
      · simp at h
      · rename_i r s2 hw
        split at h
        · simp at h
        · rename_i rs2 s3 hws2
          simp only [Option.some.injEq, Prod.mk.injEq] at h
          rw [← h.2]
          obtain ⟨g2, hg2, e1, e2, e3⟩ := (write_geometry fuel s s2 buf len r hw).2 g hg
          obtain ⟨g3, hg3, f1, f2, f3⟩ := ih s2 s3 rs2 g2 hg2 hws2
          exact ⟨g3, hg3, by rw [f1, e1], by rw [f2, e2], by rw [f3, e3]⟩
  obtain ⟨g', hg', e1, e2, e3⟩ := key ws _ s1 rs _ hgeo0 hws
  have hA := h1 g' hg'
  obtain ⟨hchunk, hfill⟩ := hA.held hheld
  obtain ⟨c1, c2, c3, c4, c5⟩ := is_chunk_facts g' _ hA.geometry hA.chunk_aligned
    hA.base_aligned hA.base_pos hchunk
  unfold GlobalContext.fill_in_chunk at hfill
  have hfp : s1.fill_point = MemoryBufferChunk.get_fill_point g'.bytes s1.CurrentChunk.Chunk := by
    simp only [State.fill_point, hg']
  have b1 : g'.BigBuffer = a.base := e1
  have b2 : g'.ChunkSize = chunk_size := e2
  have b3 : g'.TotalSize = total_buffer_size := e3
  rw [hfp]
  rw [b1, b2, b3] at c3
  rw [b1] at c5
  rw [b2] at hfill
  exact ⟨c5, c3, hfill.2.1, hfill.2.2⟩

set_option maxRecDepth 100000 in
/-- C15 (failing run): after `initialize(100, 100)` succeeded on a zero-filled, 16-byte
aligned block at address 4096, one `write` of 68 bytes returns true and leaves the fill
point of the held chunk (start 4096, size 100) at 4208, which is 12 bytes past the chunk
end 4196; `available_space` then wraps to `2 ^ 64 - 12`. -/
theorem C15_fill_point_past_chunk_end :
    valid_geometry 100 100 ∧
    (initialize_log 1 (some (zeroed_block 4096)) false State.start 100 100).bind
      (fun r => (writes 1 r.2 [(fun _ => 97, 68)]).map
        (fun w => (r.1, w.1, w.2.CurrentChunk.Chunk, w.2.fill_point,
          decide (w.2.fill_point ≤ w.2.CurrentChunk.Chunk + 100),
          w.2.available_space))) =
      some (true, [true], 4096, 4208, false, 2 ^ 64 - 12) := by
  constructor
  · decide
  · rfl

/-! ## The order of the stores of `write` -/

theorem holder_reset_chunk (fuel : Nat) (h h' : TLSChunkHolder) (g g' : GlobalContext)
    (chunk : Nat) (hg : h.reset fuel g = some (chunk, h', g')) : h'.Chunk = chunk := by
  unfold TLSChunkHolder.reset at hg
  simp only at hg
  split at hg
  · simp at hg
  · split at hg
    · simp at hg
    · split at hg <;>
      · simp only [Option.some.injEq, Prod.mk.injEq] at hg
        obtain ⟨rfl, rfl, _⟩ := hg
        rfl

theorem write_true_iff_trace (fuel : Nat) (s : State) (buf : Nat → Nat) (len : Nat) :
    (∃ s', write fuel s buf len = some (true, s')) ↔
      ∃ t, write_trace fuel s buf len = some t := by
  unfold write write_trace
  cases hinit : CallContext.init fuel s len with
  | none => simp
  | some p =>
    obtain ⟨oc, s1⟩ := p
    cases oc <;> simp

/-- When the held chunk has room, a successful `init` places the record at the fill point
of that chunk, in the context as it was. -/
theorem init_no_rotation (fuel : Nat) (s s1 : State) (len : Nat) (c : CallContext)
    (g : GlobalContext) (hs : s.GlobalCtx = some g) (hroom : s.has_room len)
    (h : CallContext.init fuel s len = some (some c, s1)) :
    c = CallContext.place g s.CurrentChunk.Chunk ∧
      s1 = { GlobalCtx := some c.GCtx, CurrentChunk := s.CurrentChunk } := by
  simp only [State.has_room, hs] at hroom
  obtain ⟨hne, hsp⟩ := hroom
  unfold CallContext.init at h
  rw [hs] at h
  simp only [TLSChunkHolder.get, hne, ite_false] at h
  split at h
  · simp at h
  · simp only [hsp, Bool.false_eq_true, ite_false, Option.some.injEq, Prod.mk.injEq] at h
    obtain ⟨rfl, rfl⟩ := h
    exact ⟨rfl, rfl⟩

theorem place_final_bytes (g1 : GlobalContext) (chunk : Nat) (buf : Nat → Nat) (len : Nat) :
    MemoryBufferChunk.fill_up_to
      (CallContext.write_prefix (CallContext.place g1 chunk)
        (memcpy (CallContext.place g1 chunk).GCtx.bytes
          (CallContext.place g1 chunk).RecordPlace buf len))
      (CallContext.place g1 chunk).Chunk ((CallContext.place g1 chunk).RecordPlace + len) =
    store_ptr (memcpy (memcpy
          (memset g1.bytes (MemoryBufferChunk.get_fill_point g1.bytes chunk) 0 16)
          (MemoryBufferChunk.get_fill_point g1.bytes chunk + 16) buf len)
        (MemoryBufferChunk.get_fill_point g1.bytes chunk) (fun i => RECORD_PREFIX.getD i 0) 16)
      chunk (ptr_align_up RECORD_ALIGNMENT
        (MemoryBufferChunk.get_fill_point g1.bytes chunk + 16 + len)) := by
  simp only [CallContext.place, CallContext.write_prefix,
    MemoryBufferChunk.fill_up_to, RECORD_PREFIX_SIZE]

set_option maxRecDepth 100000 in
theorem log_after_write_eq :
    write 1 log_256_128 love_me 20 = some (true, log_after_write) := by
  rfl

theorem memset_other (m : Memory) (dst val n x : Nat) (hx : x < dst ∨ dst + n ≤ x) :
    memset m dst val n x = m x := by
  simp only [memset]
  rw [if_neg (by omega)]

/-- What a successful write leaves behind on an aligned log: the record at the old fill
point `p`, inside the chunk, and the fill point moved to the 16-byte ceiling of the end of
the payload. -/
theorem write_detail (fuel : Nat) (s s' : State) (buf : Nat → Nat) (len : Nat)
    (hA : s.Aligned) (h : write fuel s buf len = some (true, s')) :
    ∃ g' p, prefix_slot fuel s len = some p ∧ s'.GlobalCtx = some g' ∧
      g'.Aligned s'.CurrentChunk ∧ s'.CurrentChunk.Chunk ≠ 0 ∧
      p % 16 = 0 ∧ s'.CurrentChunk.Chunk + 16 ≤ p ∧
      p + 16 + len ≤ s'.CurrentChunk.Chunk + g'.ChunkSize ∧
      MemoryBufferChunk.get_fill_point g'.bytes s'.CurrentChunk.Chunk =
        (p + 16 + len + 15) / 16 * 16 ∧
      (∀ i, i < 16 → g'.bytes (p + i) = RECORD_PREFIX.getD i 0) ∧
      (∀ i, i < len → g'.bytes (p + 16 + i) = buf i) := by
  have hW : WORD = 18446744073709551616 := by simp [WORD]
  cases hs : s.GlobalCtx with
  | none =>
    rw [show write fuel s buf len = some (false, s) by simp [write, CallContext.init, hs]] at h
    simp at h
  | some g =>
    have hw := h
    unfold write at h
    split at h
    · simp at h
    · simp at h
    · rename_i c s1 hinit
      simp only [Option.some.injEq, Prod.mk.injEq, true_and] at h
      obtain ⟨g1, h1, hA1, hne, hc, hs1, hsp, hl⟩ :=
        (init_aligned fuel s _ len _ g hs (hA g hs) hinit).2 c rfl
      subst hc
      subst hs1
      have hslot : prefix_slot fuel s len =
          some (MemoryBufferChunk.get_fill_point g1.bytes h1.Chunk) := by
        simp only [prefix_slot, hinit, CallContext.place]
      obtain ⟨w1, _⟩ := record_written g1 h1 buf len hA1 hne hsp hl
      rw [place_final_bytes] at h w1
      obtain ⟨hchunk, hfill⟩ := hA1.held hne
      obtain ⟨c1, c2, c3, c4, c5⟩ := is_chunk_facts g1 h1.Chunk hA1.geometry
        hA1.chunk_aligned hA1.base_aligned hA1.base_pos hchunk
      have hin := hA1.in_space
      rw [hW] at hin
      unfold GlobalContext.fill_in_chunk at hfill
      simp only [RECORD_ALIGNMENT] at hfill
      obtain ⟨f1, f2, f3⟩ := hfill
      unfold MemoryBufferChunk.out_of_space at hsp
      simp only [RECORD_PREFIX_SIZE, decide_eq_false_iff_not, not_lt, gt_iff_lt, hW] at hsp
      generalize hp : MemoryBufferChunk.get_fill_point g1.bytes h1.Chunk = p at *
      have hc16 := hA1.chunk_aligned
      simp only [RECORD_ALIGNMENT] at hc16
      have hpW : p % 18446744073709551616 = p := Nat.mod_eq_of_lt (by omega)
      have hlW : (len + 16) % 18446744073709551616 = len + 16 := Nat.mod_eq_of_lt (by omega)
      rw [hpW, hlW] at hsp
      have hfit : p + 16 + len ≤ h1.Chunk + g1.ChunkSize := by omega
      have hv : p + 16 + len + 15 < WORD := by rw [hW]; omega
      subst h
      refine ⟨_, p, hslot, rfl, w1, hne, f1, f2, ?_, ?_, ?_, ?_⟩
      · simp only [CallContext.place]
        exact hfit
      · simp only [MemoryBufferChunk.get_fill_point]
        rw [ptr_align_up_eq _ hv, load_store_ptr _ _ _ (by rw [hW]; omega)]
      · intro i hi
        simp only
        rw [store_ptr_other _ _ _ _ (by omega), memcpy_inside _ _ _ _ _ (by omega) (by omega)]
        simp
      · intro i hi
        simp only
        rw [store_ptr_other _ _ _ _ (by omega), memcpy_other _ _ _ _ _ (by omega),
          memcpy_inside _ _ _ _ _ (by omega) (by omega)]
        congr 1
        omega

/-- C20: on a log whose chunk size is a multiple of 16 (buffer 16-byte aligned), for two
consecutive successful writes `write(b1, L1)`, `write(b2, L2)` by the same thread with no
rotation in between (the held chunk has room for the second record), the prefix slot of
the second record is the smallest multiple of 16 that is at least the end of the first
payload, `p1 + 16 + L1`, hence above every byte of the first record, and the second write
leaves the 16 magic bytes and the `L1` payload bytes of the first record unchanged. -/
theorem C20_second_record_above_first (fuel : Nat) (s1 s2 s3 : State)
    (b1 b2 : Nat → Nat) (L1 L2 : Nat) (hA : s1.Aligned)
    (hw1 : write fuel s1 b1 L1 = some (true, s2)) (hroom : s2.has_room L2)
    (hw2 : write fuel s2 b2 L2 = some (true, s3)) :
    ∃ p1 p2, prefix_slot fuel s1 L1 = some p1 ∧ prefix_slot fuel s2 L2 = some p2 ∧
      p2 % 16 = 0 ∧ p1 + 16 + L1 ≤ p2 ∧ p2 < p1 + 16 + L1 + 16 ∧
      (∀ a, p1 ≤ a → a < p1 + 16 + L1 → s3.byte a = s2.byte a) ∧
      (∀ i, i < 16 → s3.byte (p1 + i) = RECORD_PREFIX.getD i 0) ∧
      (∀ i, i < L1 → s3.byte (p1 + 16 + i) = b1 i) := by
  obtain ⟨g2, p1, hslot1, hg2, hA2, hne, hp16, hlo, hhi, hfp, hmagic, hpay⟩ :=
    write_detail fuel s1 s2 b1 L1 hA hw1
  unfold write at hw2
  split at hw2
  · simp at hw2
  · simp at hw2
  · rename_i c s2' hinit
    simp only [Option.some.injEq, Prod.mk.injEq, true_and] at hw2
    obtain ⟨e1, e2⟩ := init_no_rotation fuel s2 s2' L2 c g2 hg2 hroom hinit
    subst e1
    subst e2
    have hslot2 : prefix_slot fuel s2 L2 =
        some (MemoryBufferChunk.get_fill_point g2.bytes s2.CurrentChunk.Chunk) := by
      simp only [prefix_slot, hinit, CallContext.place]
    rw [place_final_bytes] at hw2
    rw [hfp] at hslot2 hw2
    have hkeep : ∀ a, p1 ≤ a → a < p1 + 16 + L1 → s3.byte a = s2.byte a := by
      intro a ha1 ha2
      rw [← hw2]
      simp only [State.byte, hg2]
      rw [store_ptr_other _ _ _ _ (by omega), memcpy_other _ _ _ _ _ (by omega),
        memcpy_other _ _ _ _ _ (by omega), memset_other _ _ _ _ _ (by omega)]
    refine ⟨p1, _, hslot1, hslot2, by omega, by omega, by omega, hkeep, ?_, ?_⟩
    · intro i hi
      rw [hkeep _ (by omega) (by omega)]
      simp only [State.byte, hg2]
      exact hmagic i hi
    · intro i hi
      rw [hkeep _ (by omega) (by omega)]
      simp only [State.byte, hg2]
      exact hpay i hi

theorem log_256_128_aligned : log_256_128.Aligned := by
  intro g hg
  simp only [log_256_128, Option.some.injEq] at hg
  subst hg
  exact fresh_context_aligned (zeroed_block 4096) 256 128 (by decide) (by decide) (by decide)
    (by decide) (by simp [zeroed_block, WORD])

set_option maxRecDepth 100000 in
theorem log_after_two_writes_eq :
    write 1 log_after_write bye 4 = some (true, log_after_two_writes) := by
  rfl

set_option maxRecDepth 100000 in
theorem log_after_write_has_room : log_after_write.has_room 4 := by
  simp only [State.has_room]
  exact ⟨by decide, by rfl⟩

theorem C20_second_record_above_first_witness :
    log_256_128.Aligned ∧ write 1 log_256_128 love_me 20 = some (true, log_after_write) ∧
    log_after_write.has_room 4 ∧
    write 1 log_after_write bye 4 = some (true, log_after_two_writes) ∧
    ∃ p1 p2, prefix_slot 1 log_256_128 20 = some p1 ∧
      prefix_slot 1 log_after_write 4 = some p2 ∧
      p2 % 16 = 0 ∧ p1 + 16 + 20 ≤ p2 ∧ p2 < p1 + 16 + 20 + 16 ∧
      (∀ a, p1 ≤ a → a < p1 + 16 + 20 →
        log_after_two_writes.byte a = log_after_write.byte a) ∧
      (∀ i, i < 16 → log_after_two_writes.byte (p1 + i) = RECORD_PREFIX.getD i 0) ∧
      (∀ i, i < 20 → log_after_two_writes.byte (p1 + 16 + i) = love_me i) :=
  ⟨log_256_128_aligned, log_after_write_eq, log_after_write_has_room,
    log_after_two_writes_eq,
    C20_second_record_above_first 1 log_256_128 log_after_write log_after_two_writes
      love_me bye 20 4 log_256_128_aligned log_after_write_eq log_after_write_has_room
      log_after_two_writes_eq⟩

/-! ## `format_write` -/

set_option maxRecDepth 100000 in
/-- Unit test `MEMORYLOG_FORMAT_WRITE.WRITE_ONCE` on the embedding: after
`initialize(256, 128)` the call `format_write("%s or %s\n", "love me", "leave me")` returns
true and the buffer holds the magic followed by the 20 bytes of the text at offset 16. -/
theorem format_write_once :
    (format_write 1 1 log_256_128 (some love_me_text)).map
      (fun r => (r.1, r.2.bytes_at (4096 + 16) 16, r.2.bytes_at (4096 + 32) 20,
        r.2.fill_point)) =
    some (true, RECORD_PREFIX, love_me_text, 4096 + 64) := by
  rfl

set_option maxRecDepth 100000 in
/-- C12, failing run: after `initialize(256, 128)` the fresh chunk at 4096 has the budget
`cap = 128 - 16 - 16 = 96`; `format_write` of a text of `W = 96` bytes passes the test
`W > cap`, returns true and advances the fill point to `payload_slot + 96`, although the
renderer stored only the first 95 bytes of the text and a NUL: the last byte of the
committed record is 0, not the last byte `53` of the text. -/
theorem C12_format_write_commits_truncated_text :
    text_96.length = 96 ∧ text_96.getD 95 0 = 53 ∧
    (format_write 1 1 log_256_128 (some text_96)).map
      (fun r => (r.1, r.2.bytes_at (4096 + 16) 16, r.2.bytes_at (4096 + 32) 95,
        r.2.byte (4096 + 32 + 95), r.2.fill_point)) =
    some (true, RECORD_PREFIX, text_96.take 95, 0, 4096 + 32 + 96) := by
  refine ⟨rfl, rfl, ?_⟩
  rfl

set_option maxRecDepth 1000000 in
/-- Unit test `MEMORYLOG_FORMAT_WRITE.WRITE_MANY` on the embedding: after
`initialize(256, 128)` the 100 calls `format_write("%s or %s, %u\n", "love me",
"leave me", i)` all return true and the buffer holds the magic followed by
`"love me or leave me, 99\n"` (at offset 192). -/
theorem format_write_many :
    (format_writes 1 4 log_256_128
      ((List.range 100).map (fun i => some (love_me_numbered i)))).map
      (fun r => (r.1.all id, r.2.bytes_at (4096 + 192) 16, r.2.bytes_at (4096 + 208) 24)) =
    some (true, RECORD_PREFIX, love_me_numbered 99) := by
  rfl

/-! ## Threads and context lifetimes -/

set_option maxRecDepth 100000 in
/-- The first lifetime of the two failing runs below: both calls return true, thread 1
holds the chunk 4096 and the ring keeps the chunk 4224. -/
theorem first_lifetime_eq :
    (Process.run 4 (Process.start 2)
      [(0, Operation.init (some (zeroed_block 4096)) false 256 128),
       (1, Operation.write love_me 20)]).map
      (fun r => (r.1, r.2.CurrentChunk.map (fun h => h.Chunk), r.2.stored)) =
    some ([true, true], [0, 4096], [4224]) ∧
    first_lifetime.CurrentChunk.map (fun h => h.Chunk) = [0, 4096] := by
  constructor <;> rfl

set_option maxRecDepth 100000 in
/-- C17, failing run. Thread 0 runs `initialize(256, 128)` (buffer at 4096), thread 1
writes a record and holds the chunk 4096, thread 0 runs `finalize()` and then
`initialize(256, 128)` again, the new buffer being at 8192. Thread 1 still holds the
chunk 4096 of the deleted context, outside the new buffer `[8192, 8448)`; its next `write`
returns true and puts the record into that chunk (magic at 4160); and when it rotates, the
stale pointer 4096 is enqueued into the ring of the new context. -/
theorem C17_stale_chunk_survives_finalize :
    (Process.run 4 first_lifetime
      [(0, Operation.finalize),
       (0, Operation.init (some (first_lifetime.block 8192)) false 256 128)]).map
      (fun r => (r.1, r.2.CurrentChunk.map (fun h => h.Chunk), r.2.stored,
        r.2.held.map r.2.in_big_buffer)) =
    some ([true, true], [0, 4096], [8192, 8320], [false]) ∧
    (Process.run 4 first_lifetime
      [(0, Operation.finalize),
       (0, Operation.init (some (first_lifetime.block 8192)) false 256 128),
       (1, Operation.write love_me 20)]).map
      (fun r => (r.1, r.2.CurrentChunk.map (fun h => h.Chunk),
        (List.range 16).map (fun i => r.2.memory (4160 + i)),
        r.2.in_big_buffer 4160)) =
    some ([true, true, true], [0, 4096], RECORD_PREFIX, false) ∧
    (Process.run 4 first_lifetime
      [(0, Operation.finalize),
       (0, Operation.init (some (first_lifetime.block 8192)) false 256 128),
       (1, Operation.write love_me 20),
       (0, Operation.write love_me 20),
       (1, Operation.write (fun _ => 97) 96)]).map
      (fun r => (r.1, r.2.CurrentChunk.map (fun h => h.Chunk), r.2.stored,
        r.2.stored.map r.2.in_big_buffer)) =
    some ([true, true, true, true, true], [8192, 8320], [4096], [false]) := by
  refine ⟨?_, ?_, ?_⟩ <;> rfl

set_option maxRecDepth 100000 in
/-- C16, failing run. After the first lifetime, in which thread 1 came to hold the chunk
4096, thread 0 runs `finalize()` and `initialize(256, 128)`, and `new char[]` returns the
block at 4096 again. In the new lifetime the chunk 4096 of `big_buffer` is stored in the
ring and held by thread 1, and ring and holders together count 3 chunks, not
`256 / 128 = 2`; after a `write` by thread 0 the two threads hold the same chunk. -/
theorem C16_chunk_with_two_owners :
    (Process.run 4 first_lifetime
      [(0, Operation.finalize),
       (0, Operation.init (some (first_lifetime.block 4096)) false 256 128)]).map
      (fun r => (r.1, r.2.chunks, r.2.stored, r.2.held,
        r.2.stored.length + r.2.held.length)) =
    some ([true, true], [4096, 4224], [4096, 4224], [4096], 3) ∧
    (Process.run 4 first_lifetime
      [(0, Operation.finalize),
       (0, Operation.init (some (first_lifetime.block 4096)) false 256 128),
       (0, Operation.write love_me 20)]).map
      (fun r => (r.1, r.2.chunks, r.2.stored, r.2.held)) =
    some ([true, true, true], [4096, 4224], [4224], [4096, 4096]) := by
  refine ⟨?_, ?_⟩ <;> rfl

/-! ## Interleavings of concurrent calls on one ring -/

theorem filterMap_set_add {α : Type} (f : α → Option Nat) :
    ∀ (l : List α) (t : Nat) (old new : α), l[t]? = some old →
      (↑((l.set t new).filterMap f) + ↑(f old).toList : Multiset Nat) =
        ↑(l.filterMap f) + ↑(f new).toList := by
  intro l
  induction l with
  | nil => intro t old new h; simp at h
  | cons a l ih =>
    intro t old new h
    cases t with
    | zero =>
      simp only [List.getElem?_cons_zero, Option.some.injEq] at h
      subst h
      simp only [List.set_cons_zero, List.filterMap_cons]
      cases f a <;> cases f new <;>
        simp [← Multiset.cons_coe, ← Multiset.singleton_add, add_comm, add_left_comm, add_assoc]
    | succ t =>
      simp only [List.getElem?_cons_succ] at h
      have := ih t old new h
      simp only [List.set_cons_succ, List.filterMap_cons]
      cases f a with
      | none => simpa using this
      | some x =>
        simp only [← Multiset.cons_coe, Multiset.cons_add]
        rw [this]

theorem wf_set (size : Nat) (l : List Pc) (t : Nat) (new : Pc)
    (h : ∀ pc ∈ l, pc.wf size) (hn : new.wf size) : ∀ pc ∈ l.set t new, pc.wf size := by
  intro pc hpc
  rcases List.mem_or_eq_of_mem_set hpc with h1 | h1
  · exact h pc h1
  · rw [h1]; exact hn

theorem set_getD_self {α : Type} (l : List α) (i : Nat) (d : α) : l.set i (l.getD i d) = l := by
  induction l generalizing i with
  | nil => simp
  | cons a l ih =>
    cases i with
    | zero => simp
    | succ n => simpa using ih n

theorem conserve_step {A A' S S' D D' P P' T T' po pn qo qn : Multiset Nat}
    (h : A + P = S + D + T) (hP : P' + po = P + pn) (hT : T' + qo = T + qn)
    (hd : A' + pn + qo + (S + D) = A + (S' + D') + qn + po) : A' + P' = S' + D' + T' := by
  apply add_right_cancel (b := po + qo + (S + D + T))
  calc A' + P' + (po + qo + (S + D + T))
      = A' + (P' + po) + qo + (S + D + T) := by abel
    _ = A' + (P + pn) + qo + (S + D + T) := by rw [hP]
    _ = (A' + pn + qo + (S + D)) + P + T := by abel
    _ = (A + (S' + D') + qn + po) + P + T := by rw [hd]
    _ = (A + P) + (S' + D') + (T + qn) + po := by abel
    _ = (S + D + T) + (S' + D') + (T' + qo) + po := by rw [h, hT]
    _ = S' + D' + T' + (po + qo + (S + D + T)) := by abel

theorem mem_of_getElem?_eq {α : Type} (l : List α) (t : Nat) (pc : α) (h : l[t]? = some pc) :
    pc ∈ l := by
  rw [List.getElem?_eq_some] at h
  obtain ⟨h1, h2⟩ := h
  rw [← h2]
  exact List.getElem_mem h1

/-- One atomic operation keeps the invariant of the ring of positive capacity. -/
theorem act_inv (c : Concurrent) (t : Nat) (call : RingCall) (pc : Pc) (hI : c.Inv)
    (hpc : c.threads[t]? = some pc) (hcall : call ≠ RingCall.enqueue 0) :
    (c.act t call pc).Inv := by
  obtain ⟨⟨Size, S, E, H, T, B⟩, threads, history⟩ := c
  obtain ⟨hpos, hlen, hwf, hcons⟩ := hI
  simp only [Concurrent.accepted, Concurrent.delivered, Concurrent.putting, Concurrent.taking,
    RingPtrQueue.stored] at hcons
  dsimp only at hpos hlen hwf hpc
  have hold : pc.wf Size := hwf pc (mem_of_getElem?_eq _ _ _ hpc)
  have hput := fun new => filterMap_set_add Pc.putting threads t pc new hpc
  have htake := fun new => filterMap_set_add Pc.taking threads t pc new hpc
  cases pc with
  | idle =>
    cases call with
    | enqueue elem =>
      have he : elem ≠ 0 := fun h => hcall (by rw [h])
      simp only [Concurrent.act]
      split
      · refine ⟨?_, ?_, ?_, ?_⟩
        · dsimp only
          exact hpos
        · dsimp only
          exact hlen
        · dsimp only
          exact wf_set _ _ _ _ hwf he
        · simp only [Concurrent.accepted, Concurrent.delivered, Concurrent.putting, Concurrent.taking,
            RingPtrQueue.stored]
          refine conserve_step hcons (hput _) (htake _) ?_
          simp [Pc.putting, Pc.taking]
      · refine ⟨?_, ?_, ?_, ?_⟩
        · dsimp only
          exact hpos
        · dsimp only
          exact hlen
        · dsimp only
          exact wf_set _ _ _ _ hwf he
        · simp only [Concurrent.accepted, Concurrent.delivered, Concurrent.putting, Concurrent.taking,
            RingPtrQueue.stored]
          refine conserve_step hcons (hput _) (htake _) ?_
          simp [Pc.putting, Pc.taking]
    | dequeue =>
      simp only [Concurrent.act]
      split
      · refine ⟨?_, ?_, ?_, ?_⟩
        · dsimp only
          exact hpos
        · dsimp only
          exact hlen
        · dsimp only
          exact wf_set _ _ _ _ hwf trivial
        · simp only [Concurrent.accepted, Concurrent.delivered, Concurrent.putting, Concurrent.taking,
            RingPtrQueue.stored]
          refine conserve_step hcons (hput _) (htake _) ?_
          simp [Pc.putting, Pc.taking]
      · refine ⟨?_, ?_, ?_, ?_⟩
        · dsimp only
          exact hpos
        · dsimp only
          exact hlen
        · dsimp only
          exact wf_set _ _ _ _ hwf trivial
        · simp only [Concurrent.accepted, Concurrent.delivered, Concurrent.putting, Concurrent.taking,
            RingPtrQueue.stored]
          refine conserve_step hcons (hput _) (htake _) ?_
          simp [Pc.putting, Pc.taking]
  | enq_rollback elem =>
    simp only [Concurrent.act]
    refine ⟨?_, ?_, ?_, ?_⟩
    · dsimp only
      exact hpos
    · dsimp only
      exact hlen
    · dsimp only
      exact wf_set _ _ _ _ hwf trivial
    · simp only [Concurrent.accepted, Concurrent.delivered, Concurrent.putting, Concurrent.taking,
        RingPtrQueue.stored]
      refine conserve_step hcons (hput _) (htake _) ?_
      simp [Pc.putting, Pc.taking]
  | enq_draw elem =>
    simp only [Concurrent.act]
    refine ⟨?_, ?_, ?_, ?_⟩
    · dsimp only
      exact hpos
    · dsimp only
      exact hlen
    · dsimp only
      exact wf_set _ _ _ _ hwf ⟨hold, Nat.mod_lt _ hpos⟩
    · simp only [Concurrent.accepted, Concurrent.delivered, Concurrent.putting, Concurrent.taking,
        RingPtrQueue.stored]
      refine conserve_step hcons (hput _) (htake _) ?_
      simp [Pc.putting, Pc.taking]
  | enq_cas elem slot =>
    simp only [Concurrent.act]
    have hslot : slot < B.length := by rw [hlen]; exact hold.2
    split
    · rename_i h0
      have hS : (↑((B.set slot elem).filter (fun x => decide (x ≠ 0))) : Multiset Nat) =
          ↑(elem :: B.filter (fun x => decide (x ≠ 0))) :=
        Multiset.coe_eq_coe.mpr (stored_set_insert _ _ _ hslot h0 hold.1)
      refine ⟨?_, ?_, ?_, ?_⟩
      · dsimp only
        exact hpos
      · dsimp only
        rw [List.length_set]; exact hlen
      · dsimp only
        exact wf_set _ _ _ _ hwf hold.1
      · simp only [Concurrent.accepted, Concurrent.delivered, Concurrent.putting, Concurrent.taking,
          RingPtrQueue.stored]
        rw [hS]
        refine conserve_step hcons (hput _) (htake _) ?_
        simp [Pc.putting, Pc.taking, ← Multiset.cons_coe, ← Multiset.singleton_add, add_comm,
          add_left_comm, add_assoc]
    · refine ⟨?_, ?_, ?_, ?_⟩
      · dsimp only
        exact hpos
      · dsimp only
        exact hlen
      · dsimp only
        exact wf_set _ _ _ _ hwf hold.1
      · simp only [Concurrent.accepted, Concurrent.delivered, Concurrent.putting, Concurrent.taking,
          RingPtrQueue.stored]
        refine conserve_step hcons (hput _) (htake _) ?_
        simp [Pc.putting, Pc.taking]
  | enq_release elem =>
    simp only [Concurrent.act]
    refine ⟨?_, ?_, ?_, ?_⟩
    · dsimp only
      exact hpos
    · dsimp only
      exact hlen
    · dsimp only
      exact wf_set _ _ _ _ hwf trivial
    · simp only [Concurrent.accepted, Concurrent.delivered, Concurrent.putting, Concurrent.taking,
        RingPtrQueue.stored]
      refine conserve_step hcons (hput _) (htake _) ?_
      simp [Pc.putting, Pc.taking, ← Multiset.cons_coe, ← Multiset.singleton_add, add_comm,
        add_left_comm, add_assoc]
  | deq_rollback =>
    simp only [Concurrent.act]
    refine ⟨?_, ?_, ?_, ?_⟩
    · dsimp only
      exact hpos
    · dsimp only
      exact hlen
    · dsimp only
      exact wf_set _ _ _ _ hwf trivial
    · simp only [Concurrent.accepted, Concurrent.delivered, Concurrent.putting, Concurrent.taking,
        RingPtrQueue.stored]
      refine conserve_step hcons (hput _) (htake _) ?_
      simp [Pc.putting, Pc.taking]
  | deq_draw =>
    simp only [Concurrent.act]
    refine ⟨?_, ?_, ?_, ?_⟩
    · dsimp only
      exact hpos
    · dsimp only
      exact hlen
    · dsimp only
      exact wf_set _ _ _ _ hwf (Nat.mod_lt _ hpos)
    · simp only [Concurrent.accepted, Concurrent.delivered, Concurrent.putting, Concurrent.taking,
        RingPtrQueue.stored]
      refine conserve_step hcons (hput _) (htake _) ?_
      simp [Pc.putting, Pc.taking]
  | deq_xchg slot =>
    simp only [Concurrent.act]
    have hslot : slot < B.length := by rw [hlen]; exact hold
    split
    · rename_i h0
      have hS : (↑(B.filter (fun x => decide (x ≠ 0))) : Multiset Nat) =
          ↑(B.getD slot 0 :: (B.set slot 0).filter (fun x => decide (x ≠ 0))) :=
        Multiset.coe_eq_coe.mpr (stored_set_remove _ _ _ hslot rfl h0)
      refine ⟨?_, ?_, ?_, ?_⟩
      · dsimp only
        exact hpos
      · dsimp only
        rw [List.length_set]; exact hlen
      · dsimp only
        exact wf_set _ _ _ _ hwf h0
      · simp only [Concurrent.accepted, Concurrent.delivered, Concurrent.putting, Concurrent.taking,
          RingPtrQueue.stored]
        rw [hS] at hcons
        refine conserve_step hcons (hput _) (htake _) ?_
        simp only [Pc.putting, Pc.taking, Option.toList, ← Multiset.cons_coe,
          ← Multiset.singleton_add, Multiset.coe_nil]
        abel
    · rename_i h0
      have h0 : B.getD slot 0 = 0 := by simpa using h0
      have hB : B.set slot 0 = B := by
        have := set_getD_self B slot 0
        rwa [h0] at this
      rw [hB]
      refine ⟨?_, ?_, ?_, ?_⟩
      · dsimp only
        exact hpos
      · dsimp only
        exact hlen
      · dsimp only
        exact wf_set _ _ _ _ hwf trivial
      · simp only [Concurrent.accepted, Concurrent.delivered, Concurrent.putting, Concurrent.taking,
          RingPtrQueue.stored]
        refine conserve_step hcons (hput _) (htake _) ?_
        simp [Pc.putting, Pc.taking]
  | deq_release elem =>
    simp only [Concurrent.act]
    have he : elem ≠ 0 := hold
    refine ⟨?_, ?_, ?_, ?_⟩
    · dsimp only
      exact hpos
    · dsimp only
      exact hlen
    · dsimp only
      exact wf_set _ _ _ _ hwf trivial
    · simp only [Concurrent.accepted, Concurrent.delivered, Concurrent.putting, Concurrent.taking,
        RingPtrQueue.stored]
      refine conserve_step hcons (hput _) (htake _) ?_
      simp [Pc.putting, Pc.taking, he, ← Multiset.cons_coe, ← Multiset.singleton_add, add_comm,
        add_left_comm, add_assoc]

theorem filterMap_set_length (f : Pc → Option Nat) (l : List Pc) (t : Nat) (old new : Pc)
    (h : l[t]? = some old) :
    ((l.set t new).filterMap f).length + (f old).toList.length =
      (l.filterMap f).length + (f new).toList.length := by
  have := congrArg Multiset.card (filterMap_set_add f l t old new h)
  simpa using this

theorem pcs_set (l : List Pc) (t : Nat) (new : Pc)
    (h : ∀ pc ∈ l, pc = Pc.idle ∨ (∃ elem, pc = Pc.enq_rollback elem) ∨ pc = Pc.deq_rollback)
    (hn : new = Pc.idle ∨ (∃ elem, new = Pc.enq_rollback elem) ∨ new = Pc.deq_rollback) :
    ∀ pc ∈ l.set t new,
      pc = Pc.idle ∨ (∃ elem, pc = Pc.enq_rollback elem) ∨ pc = Pc.deq_rollback := by
  intro pc hpc
  rcases List.mem_or_eq_of_mem_set hpc with h1 | h1
  · exact h pc h1
  · rw [h1]; exact hn

/-- One atomic operation keeps the invariant of the ring of capacity 0. -/
theorem act_inv0 (c : Concurrent) (t : Nat) (call : RingCall) (pc : Pc) (hI : c.Inv0)
    (hpc : c.threads[t]? = some pc) : (c.act t call pc).Inv0 := by
  obtain ⟨⟨Size, S, E, H, T, B⟩, threads, history⟩ := c
  obtain ⟨hfew, hsize, hbuf, hpcs, hS, hE, hacc, hdel⟩ := hI
  simp only [Concurrent.accepted, Concurrent.delivered] at hacc hdel
  dsimp only at hfew hsize hbuf hpcs hS hE hpc
  have hW : WORD = 18446744073709551616 := by simp [WORD]
  have hold := hpcs pc (mem_of_getElem?_eq _ _ _ hpc)
  have hsp := fun new => filterMap_set_length Pc.space_booked threads t pc new hpc
  have hel := fun new => filterMap_set_length Pc.elem_booked threads t pc new hpc
  have hle1 : (threads.filterMap Pc.space_booked).length ≤ threads.length :=
    List.length_filterMap_le _ _
  have hle2 : (threads.filterMap Pc.elem_booked).length ≤ threads.length :=
    List.length_filterMap_le _ _
  subst hsize
  rcases hold with h | ⟨elem, h⟩ | h
  · subst h
    cases call with
    | enqueue elem =>
      have h1 := hsp (Pc.enq_rollback elem)
      have h2 := hel (Pc.enq_rollback elem)
      simp only [Pc.space_booked, Pc.elem_booked, Option.toList, List.length_nil,
        List.length_singleton] at h1 h2
      have hlmp : ¬ (S + 1) % WORD ≤ 0 := by
        rw [hW] at hfew ⊢
        omega
      simp only [Concurrent.act, hlmp, if_false]
      refine ⟨?_, ?_, ?_, ?_, ?_, ?_, ?_, ?_⟩
      · dsimp only
        rw [List.length_set]; exact hfew
      · rfl
      · exact hbuf
      · dsimp only
        exact pcs_set _ _ _ hpcs (Or.inr (Or.inl ⟨elem, rfl⟩))
      · dsimp only
        simp only [fetch_add]
        rw [hW] at hfew ⊢
        omega
      · dsimp only
        omega
      · simp only [Concurrent.accepted]
        exact hacc
      · simp only [Concurrent.delivered]
        exact hdel
    | dequeue =>
      have h1 := hsp Pc.deq_rollback
      have h2 := hel Pc.deq_rollback
      simp only [Pc.space_booked, Pc.elem_booked, Option.toList, List.length_nil,
        List.length_singleton] at h1 h2
      have hlmp : ¬ (E + 1) % WORD ≤ 0 := by
        rw [hW] at hfew ⊢
        omega
      simp only [Concurrent.act, hlmp, if_false]
      refine ⟨?_, ?_, ?_, ?_, ?_, ?_, ?_, ?_⟩
      · dsimp only
        rw [List.length_set]; exact hfew
      · rfl
      · exact hbuf
      · dsimp only
        exact pcs_set _ _ _ hpcs (Or.inr (Or.inr rfl))
      · dsimp only
        omega
      · dsimp only
        simp only [fetch_add]
        rw [hW] at hfew ⊢
        omega
      · simp only [Concurrent.accepted]
        exact hacc
      · simp only [Concurrent.delivered]
        exact hdel
  · subst h
    have h1 := hsp Pc.idle
    have h2 := hel Pc.idle
    simp only [Pc.space_booked, Pc.elem_booked, Option.toList, List.length_nil,
      List.length_singleton] at h1 h2
    simp only [Concurrent.act]
    refine ⟨?_, ?_, ?_, ?_, ?_, ?_, ?_, ?_⟩
    · dsimp only
      rw [List.length_set]; exact hfew
    · rfl
    · exact hbuf
    · dsimp only
      exact pcs_set _ _ _ hpcs (Or.inl rfl)
    · dsimp only
      simp only [fetch_sub]
      rw [hW] at hfew ⊢
      omega
    · dsimp only
      omega
    · simp only [Concurrent.accepted, List.filterMap_cons]
      exact hacc
    · simp only [Concurrent.delivered, List.filterMap_cons]
      exact hdel
  · subst h
    have h1 := hsp Pc.idle
    have h2 := hel Pc.idle
    simp only [Pc.space_booked, Pc.elem_booked, Option.toList, List.length_nil,
      List.length_singleton] at h1 h2
    simp only [Concurrent.act]
    refine ⟨?_, ?_, ?_, ?_, ?_, ?_, ?_, ?_⟩
    · dsimp only
      rw [List.length_set]; exact hfew
    · rfl
    · exact hbuf
    · dsimp only
      exact pcs_set _ _ _ hpcs (Or.inl rfl)
    · dsimp only
      omega
    · dsimp only
      simp only [fetch_sub]
      rw [hW] at hfew ⊢
      omega
    · simp only [Concurrent.accepted, List.filterMap_cons]
      exact hacc
    · simp only [Concurrent.delivered, List.filterMap_cons]
      simpa using hdel

theorem run_inv (schedule : List (Nat × RingCall)) :
    ∀ c : Concurrent, c.Inv → (∀ e ∈ schedule, e.2 ≠ RingCall.enqueue 0) →
      (c.run schedule).Inv := by
  induction schedule with
  | nil => intro c h _; exact h
  | cons e rest ih =>
    intro c h hnn
    have hstep : (c.step e).Inv := by
      unfold Concurrent.step
      cases hpc : c.threads[e.1]? with
      | none => exact h
      | some pc => exact act_inv c e.1 e.2 pc h hpc (hnn e (List.mem_cons_self _ _))
    exact ih (c.step e) hstep (fun x hx => hnn x (List.mem_cons_of_mem _ hx))

theorem run_inv0 (schedule : List (Nat × RingCall)) :
    ∀ c : Concurrent, c.Inv0 → (c.run schedule).Inv0 := by
  induction schedule with
  | nil => intro c h; exact h
  | cons e rest ih =>
    intro c h
    have hstep : (c.step e).Inv0 := by
      unfold Concurrent.step
      cases hpc : c.threads[e.1]? with
      | none => exact h
      | some pc => exact act_inv0 c e.1 e.2 pc h hpc
    exact ih (c.step e) hstep

theorem filterMap_replicate_idle (f : Pc → Option Nat) (hf : f Pc.idle = none) (n : Nat) :
    (List.replicate n Pc.idle).filterMap f = [] := by
  induction n with
  | zero => rfl
  | succ n ih => simp [List.replicate_succ, List.filterMap_cons, hf, ih]

theorem filterMap_idle (f : Pc → Option Nat) (hf : f Pc.idle = none) (l : List Pc)
    (h : ∀ pc ∈ l, pc = Pc.idle) : l.filterMap f = [] := by
  induction l with
  | nil => rfl
  | cons a l ih =>
    have ha : a = Pc.idle := h a (List.mem_cons_self _ _)
    subst ha
    simp only [List.filterMap_cons, hf]
    exact ih (fun pc hpc => h pc (List.mem_cons_of_mem _ hpc))

theorem start_inv (size n : Nat) (h : 0 < size) : (Concurrent.start size n).Inv := by
  refine ⟨h, by simp [Concurrent.start, RingPtrQueue.construct], ?_, ?_⟩
  · intro pc hpc
    simp only [Concurrent.start] at hpc
    rw [List.eq_of_mem_replicate hpc]
    trivial
  · simp only [Concurrent.accepted, Concurrent.delivered, Concurrent.putting, Concurrent.taking,
      Concurrent.start, RingPtrQueue.stored, RingPtrQueue.construct, List.filterMap_nil]
    rw [filterMap_replicate_idle _ rfl, filterMap_replicate_idle _ rfl]
    simp

theorem start_inv0 (n : Nat) (h : n + 1 < WORD) : (Concurrent.start 0 n).Inv0 := by
  refine ⟨by simpa [Concurrent.start] using h, rfl, rfl, ?_, ?_, ?_, rfl, rfl⟩
  · intro pc hpc
    simp only [Concurrent.start] at hpc
    exact Or.inl (List.eq_of_mem_replicate hpc)
  · simp only [Concurrent.start, RingPtrQueue.construct]
    rw [filterMap_replicate_idle _ rfl]
    rfl
  · simp only [Concurrent.start, RingPtrQueue.construct]
    rw [filterMap_replicate_idle _ rfl]
    rfl

theorem inv0_conserved (c : Concurrent) (h : c.Inv0) :
    (↑c.accepted + ↑c.putting : Multiset Nat) = ↑c.ring.stored + ↑c.delivered + ↑c.taking := by
  have hp : c.putting = [] := by
    unfold Concurrent.putting
    rw [List.filterMap_eq_nil_iff]
    intro pc hpc
    rcases h.pcs pc hpc with h1 | ⟨e, h1⟩ | h1 <;> rw [h1] <;> rfl
  have ht : c.taking = [] := by
    unfold Concurrent.taking
    rw [List.filterMap_eq_nil_iff]
    intro pc hpc
    rcases h.pcs pc hpc with h1 | ⟨e, h1⟩ | h1 <;> rw [h1] <;> rfl
  have hs : c.ring.stored = [] := by
    unfold RingPtrQueue.stored
    rw [h.buffer]
    rfl
  rw [hp, ht, hs, h.accepted, h.delivered]
  simp

/-- In every interleaving on a fresh ring the pointers accepted or being put are the
pointers stored, delivered or being taken. -/
theorem run_conserved (size n : Nat) (schedule : List (Nat × RingCall))
    (h0 : size = 0 → n + 1 < WORD) (hnn : ∀ e ∈ schedule, e.2 ≠ RingCall.enqueue 0) :
    (↑((Concurrent.start size n).run schedule).accepted +
      ↑((Concurrent.start size n).run schedule).putting : Multiset Nat) =
    ↑((Concurrent.start size n).run schedule).ring.stored +
      ↑((Concurrent.start size n).run schedule).delivered +
      ↑((Concurrent.start size n).run schedule).taking := by
  rcases Nat.eq_zero_or_pos size with hs | hs
  · subst hs
    exact inv0_conserved _ (run_inv0 schedule _ (start_inv0 n (h0 rfl)))
  · exact (run_inv schedule _ (start_inv size n hs) hnn).conserved

theorem filterMap_sublist_of (f g : α → Option β) (hfg : ∀ x, f x = none ∨ f x = g x) :
    ∀ l : List α, (l.filterMap f).Sublist (l.filterMap g) := by
  intro l
  induction l with
  | nil => exact List.Sublist.slnil
  | cons a l ih =>
    simp only [List.filterMap_cons]
    rcases hfg a with h | h
    · rw [h]
      cases g a with
      | none => exact ih
      | some y => exact List.Sublist.cons y ih
    · rw [h]
      cases g a with
      | none => exact ih
      | some y => exact List.Sublist.cons₂ y ih

theorem accepted_putting_sublist_offered (c : Concurrent) :
    (c.accepted ++ c.putting).Sublist c.offered := by
  unfold Concurrent.accepted Concurrent.putting Concurrent.offered
  apply List.Sublist.append
  · apply filterMap_sublist_of
    rintro ⟨call, ret⟩
    cases call with
    | dequeue => exact Or.inl rfl
    | enqueue e =>
      cases ret with
      | dequeued x => exact Or.inl rfl
      | enqueued b =>
        cases b with
        | false => exact Or.inl rfl
        | true => exact Or.inr rfl
  · apply filterMap_sublist_of
    intro pc
    cases pc <;> first | exact Or.inl rfl | exact Or.inr rfl

theorem sum_range'_twice (n : Nat) :
    ∀ s : Nat, 2 * (List.range' s n).sum + n = n * (2 * s + n) := by
  induction n with
  | zero => intro s; simp
  | succ n ih =>
    intro s
    have h := ih (s + 1)
    simp only [List.range'_succ, List.sum_cons]
    nlinarith [h]

theorem sum_range'_5000 : (List.range' 1 5000).sum = 12502500 := by
  have h := sum_range'_twice 5000 1
  omega

/-- C14: for every interleaving (`schedule`) of the atomic operations of `enqueue` and
`dequeue` calls that `n` threads make on one fresh ring of capacity `size`, with non-null
pointers (and fewer than `2 ^ 64 - 1` threads on the ring of capacity 0): the pointers
whose `enqueue` returned true or has put them into a slot are, as a multiset, the
pointers stored in the ring, returned by a `dequeue`, or taken from a slot by a `dequeue`
that has not returned; if the pointers passed to `enqueue` are distinct, no pointer is
stored, returned or taken twice. So when no call is in progress every accepted pointer
is either stored or was returned by exactly one `dequeue`, and when the ring is also
drained the dequeued pointers are the accepted ones: for the accepted pointers
`1 .. 5000` their sum is 12502500. -/
theorem C14_interleavings_conserve_pointers (size n : Nat) (schedule : List (Nat × RingCall))
    (c : Concurrent) (h0 : size = 0 → n + 1 < WORD)
    (hnn : ∀ e ∈ schedule, e.2 ≠ RingCall.enqueue 0)
    (hc : c = (Concurrent.start size n).run schedule) :
    (c.accepted ++ c.putting).Perm (c.ring.stored ++ c.delivered ++ c.taking) ∧
    (c.offered.Nodup → (c.ring.stored ++ c.delivered ++ c.taking).Nodup) ∧
    (c.quiescent → c.accepted.Perm (c.ring.stored ++ c.delivered)) ∧
    (c.quiescent → c.ring.stored = [] → c.delivered.Perm c.accepted) ∧
    (c.quiescent → c.ring.stored = [] → c.accepted.Perm (List.range' 1 5000) →
      c.delivered.sum = 12502500) := by
  have hcons := run_conserved size n schedule h0 hnn
  rw [← hc] at hcons
  have hperm : (c.accepted ++ c.putting).Perm (c.ring.stored ++ c.delivered ++ c.taking) := by
    apply Multiset.coe_eq_coe.mp
    rw [← Multiset.coe_add, ← Multiset.coe_add, ← Multiset.coe_add]
    exact hcons
  have hq : c.quiescent → c.accepted.Perm (c.ring.stored ++ c.delivered) := by
    intro hquiet
    have hp : c.putting = [] := filterMap_idle _ rfl _ hquiet
    have ht : c.taking = [] := filterMap_idle _ rfl _ hquiet
    rw [hp, ht] at hperm
    simpa using hperm
  have hd : c.quiescent → c.ring.stored = [] → c.delivered.Perm c.accepted := by
    intro hquiet hs
    have := hq hquiet
    rw [hs] at this
    simpa using this.symm
  refine ⟨hperm, ?_, hq, hd, ?_⟩
  · intro hnd
    exact (List.Perm.nodup_iff hperm).mp
      (List.Nodup.sublist (accepted_putting_sublist_offered c) hnd)
  · intro hquiet hs hacc
    rw [List.Perm.sum_eq ((hd hquiet hs).trans hacc)]
    exact sum_range'_5000

set_option maxRecDepth 100000 in
theorem C14_interleavings_conserve_pointers_witness :
    (2 = 0 → 2 + 1 < WORD) ∧
    (∀ e ∈ two_threads_schedule, e.2 ≠ RingCall.enqueue 0) ∧
    (((Concurrent.start 2 2).run two_threads_schedule).accepted = [9, 7] ∧
      ((Concurrent.start 2 2).run two_threads_schedule).delivered = [7] ∧
      ((Concurrent.start 2 2).run two_threads_schedule).ring.stored = [9] ∧
      ((Concurrent.start 2 2).run two_threads_schedule).quiescent) ∧
    ((((Concurrent.start 2 2).run two_threads_schedule).accepted ++
        ((Concurrent.start 2 2).run two_threads_schedule).putting).Perm
      (((Concurrent.start 2 2).run two_threads_schedule).ring.stored ++
        ((Concurrent.start 2 2).run two_threads_schedule).delivered ++
        ((Concurrent.start 2 2).run two_threads_schedule).taking) ∧
    (((Concurrent.start 2 2).run two_threads_schedule).offered.Nodup →
      (((Concurrent.start 2 2).run two_threads_schedule).ring.stored ++
        ((Concurrent.start 2 2).run two_threads_schedule).delivered ++
        ((Concurrent.start 2 2).run two_threads_schedule).taking).Nodup) ∧
    (((Concurrent.start 2 2).run two_threads_schedule).quiescent →
      ((Concurrent.start 2 2).run two_threads_schedule).accepted.Perm
        (((Concurrent.start 2 2).run two_threads_schedule).ring.stored ++
          ((Concurrent.start 2 2).run two_threads_schedule).delivered)) ∧
    (((Concurrent.start 2 2).run two_threads_schedule).quiescent →
      ((Concurrent.start 2 2).run two_threads_schedule).ring.stored = [] →
      ((Concurrent.start 2 2).run two_threads_schedule).delivered.Perm
        ((Concurrent.start 2 2).run two_threads_schedule).accepted) ∧
    (((Concurrent.start 2 2).run two_threads_schedule).quiescent →
      ((Concurrent.start 2 2).run two_threads_schedule).ring.stored = [] →
      ((Concurrent.start 2 2).run two_threads_schedule).accepted.Perm (List.range' 1 5000) →
      ((Concurrent.start 2 2).run two_threads_schedule).delivered.sum = 12502500)) :=
  ⟨fun h => absurd h (by decide), by decide, ⟨by rfl, by rfl, by rfl, by decide⟩,
    C14_interleavings_conserve_pointers 2 2 two_threads_schedule _
      (fun h => absurd h (by decide)) (by decide) rfl⟩

set_option maxRecDepth 100000 in
/-- The atomic operations of one thread running alone compose to the calls of the
sequential embedding: on a fresh ring of capacity 2 the calls `enqueue(7)`, `enqueue(9)`,
`enqueue(11)` (refused, the ring is full) and `dequeue()` return the same results and
leave the same ring in both. -/
theorem solo_thread_agrees_with_calls :
    (RingPtrQueue.calls 2 (RingPtrQueue.construct 2)
      [RingCall.enqueue 7, RingCall.enqueue 9, RingCall.enqueue 11, RingCall.dequeue]) =
    some ((((Concurrent.start 2 1).run solo_schedule).history.reverse.map (fun r => r.2)),
      ((Concurrent.start 2 1).run solo_schedule).ring) ∧
    ((Concurrent.start 2 1).run solo_schedule).history.reverse.map (fun r => r.2) =
      [RingReturn.enqueued true, RingReturn.enqueued true, RingReturn.enqueued false,
        RingReturn.dequeued 7] := by
  constructor <;> rfl

/-! ## Ownership of the chunks within a context lifetime -/

theorem balanced_refl (g : GlobalContext) (h : TLSChunkHolder) (hq : g.Queue.Inv) :
    g.Balanced g h h := ⟨hq, rfl, rfl⟩

theorem balanced_trans (g g1 g2 : GlobalContext) (h h1 h2 : TLSChunkHolder)
    (h01 : g.Balanced g1 h h1) (h12 : g1.Balanced g2 h1 h2) : g.Balanced g2 h h2 :=
  ⟨h12.1, h12.2.1.trans h01.2.1, h12.2.2.trans h01.2.2⟩

theorem balanced_room (g g1 : GlobalContext) (h h1 : TLSChunkHolder) (hb : g.Balanced g1 h h1)
    (hc : g.Queue.stored.length + h.held.toList.length ≤ g.Queue.Size) :
    g1.Queue.stored.length + h1.held.toList.length ≤ g1.Queue.Size := by
  have := congrArg Multiset.card hb.2.2
  simp only [Multiset.card_add, Multiset.coe_card] at this
  rw [hb.2.1]
  omega

theorem get_balanced (fuel : Nat) (h h1 : TLSChunkHolder) (g g1 : GlobalContext) (chunk : Nat)
    (hq : g.Queue.Inv) (hg : h.get fuel g = some (chunk, h1, g1)) : g.Balanced g1 h h1 := by
  unfold TLSChunkHolder.get at hg
  split at hg
  · rename_i h0
    split at hg
    · simp at hg
    · rename_i e q1 hdq
      obtain ⟨hi1, _, hz, hnz, hsz, _⟩ := dequeue_inv fuel g.Queue e q1 hq hdq
      split at hg
      · rename_i he
        simp only [Option.some.injEq, Prod.mk.injEq] at hg
        obtain ⟨_, rfl, rfl⟩ := hg
        refine ⟨hi1, hsz, ?_⟩
        simp only [TLSChunkHolder.held, h0, if_true]
        rw [hz he]
      · rename_i he
        simp only [Option.some.injEq, Prod.mk.injEq] at hg
        obtain ⟨_, rfl, rfl⟩ := hg
        refine ⟨hi1, hsz, ?_⟩
        simp only [TLSChunkHolder.held, h0, he, if_true, if_false, Option.toList]
        rw [Multiset.coe_eq_coe.mpr (hnz he)]
        simp only [← Multiset.cons_coe, ← Multiset.singleton_add, Multiset.coe_nil]
        abel
  · simp only [Option.some.injEq, Prod.mk.injEq] at hg
    obtain ⟨_, rfl, rfl⟩ := hg
    exact balanced_refl _ _ hq

theorem reset_balanced (fuel : Nat) (h h1 : TLSChunkHolder) (g g1 : GlobalContext)
    (chunk : Nat) (hq : g.Queue.Inv)
    (hc : g.Queue.stored.length + h.held.toList.length ≤ g.Queue.Size)
    (hg : h.reset fuel g = some (chunk, h1, g1)) : g.Balanced g1 h h1 := by
  unfold TLSChunkHolder.reset at hg
  -- the ring after the held chunk was put back
  have hput : ∀ q1, (if h.Chunk ≠ 0 then (g.Queue.enqueue fuel h.Chunk).map (fun r => r.2)
      else some g.Queue) = some q1 →
      q1.Inv ∧ q1.Size = g.Queue.Size ∧
        (↑q1.stored : Multiset Nat) = ↑g.Queue.stored + ↑h.held.toList := by
    intro q1 hq1
    by_cases h0 : h.Chunk = 0
    · simp only [h0, ne_eq, not_true_eq_false, if_false, Option.some.injEq] at hq1
      subst hq1
      simp [TLSChunkHolder.held, h0, hq]
    · simp only [ne_eq, h0, not_false_eq_true, if_true, Option.map_eq_some'] at hq1
      obtain ⟨⟨b, q⟩, henq, rfl⟩ := hq1
      obtain ⟨hi1, hb, _, hst, hsz, _⟩ := enqueue_inv fuel g.Queue h.Chunk b q hq h0 henq
      have hlt : g.Queue.stored.length < g.Queue.Size := by
        simp only [TLSChunkHolder.held, h0, if_false, Option.toList,
          List.length_singleton] at hc
        omega
      refine ⟨hi1, hsz, ?_⟩
      simp only [TLSChunkHolder.held, h0, if_false, Option.toList]
      rw [Multiset.coe_eq_coe.mpr (hst (hb.mpr hlt))]
      simp only [← Multiset.cons_coe, ← Multiset.singleton_add, Multiset.coe_nil]
      abel
  dsimp only at hg
  cases hq1 : (if h.Chunk ≠ 0 then (g.Queue.enqueue fuel h.Chunk).map (fun r => r.2)
      else some g.Queue) with
  | none =>
    rw [hq1] at hg
    simp at hg
  | some q1 =>
    rw [hq1] at hg
    dsimp only at hg
    obtain ⟨hi1, hs1, hst1⟩ := hput q1 hq1
    split at hg
    · simp at hg
    · rename_i e q2 hdq
      obtain ⟨hi2, _, hz, hnz, hsz, _⟩ := dequeue_inv fuel q1 e q2 hi1 hdq
      split at hg
      · rename_i he
        simp only [Option.some.injEq, Prod.mk.injEq] at hg
        obtain ⟨_, rfl, rfl⟩ := hg
        refine ⟨hi2, hsz.trans hs1, ?_⟩
        rw [hz he, hst1]
        simp only [TLSChunkHolder.held, if_true, Option.toList, Multiset.coe_nil, add_zero]
      · rename_i he
        simp only [Option.some.injEq, Prod.mk.injEq] at hg
        obtain ⟨_, rfl, rfl⟩ := hg
        refine ⟨hi2, hsz.trans hs1, ?_⟩
        rw [← hst1, Multiset.coe_eq_coe.mpr (hnz he)]
        simp only [TLSChunkHolder.held, he, if_false, Option.toList, ← Multiset.cons_coe,
          ← Multiset.singleton_add, Multiset.coe_nil]
        abel

theorem balanced_queue (g g1 g2 : GlobalContext) (h h1 : TLSChunkHolder)
    (hb : g.Balanced g1 h h1) (hq : g2.Queue = g1.Queue) : g.Balanced g2 h h1 := by
  unfold GlobalContext.Balanced at hb ⊢
  rw [hq]
  exact hb

theorem balanced_queue_left (g g0 g1 : GlobalContext) (h h1 : TLSChunkHolder)
    (hb : g.Balanced g1 h h1) (hq : g0.Queue = g.Queue) : g0.Balanced g1 h h1 := by
  unfold GlobalContext.Balanced at hb ⊢
  rw [hq]
  exact hb

theorem init_balanced (fuel : Nat) (s s1 : State) (len : Nat) (oc : Option CallContext)
    (g : GlobalContext) (hs : s.GlobalCtx = some g) (hq : g.Queue.Inv)
    (hc : g.Queue.stored.length + s.CurrentChunk.held.toList.length ≤ g.Queue.Size)
    (h : CallContext.init fuel s len = some (oc, s1)) :
    ∃ g1, s1.GlobalCtx = some g1 ∧ g.Balanced g1 s.CurrentChunk s1.CurrentChunk ∧
      (∀ c, oc = some c → c.GCtx = g1) := by
  unfold CallContext.init at h
  rw [hs] at h
  simp only at h
  split at h
  · simp only [Option.some.injEq, Prod.mk.injEq] at h
    obtain ⟨rfl, rfl⟩ := h
    exact ⟨g, hs, balanced_refl _ _ hq, by simp⟩
  · split at h
    · simp at h
    · rename_i chunk h1 g1 hget
      have b1 := get_balanced fuel _ _ _ _ _ hq hget
      split at h
      · simp only [Option.some.injEq, Prod.mk.injEq] at h
        obtain ⟨rfl, rfl⟩ := h
        exact ⟨g1, rfl, b1, by simp⟩
      · split at h
        · split at h
          · simp at h
          · rename_i chunk2 h2 g2 hreset
            have b2 := reset_balanced fuel _ _ _ _ _ b1.1 (balanced_room _ _ _ _ b1 hc) hreset
            have b := balanced_trans _ _ _ _ _ _ b1 b2
            split at h
            · simp only [Option.some.injEq, Prod.mk.injEq] at h
              obtain ⟨rfl, rfl⟩ := h
              exact ⟨g2, rfl, b, by simp⟩
            · split at h
              · simp only [Option.some.injEq, Prod.mk.injEq] at h
                obtain ⟨rfl, rfl⟩ := h
                exact ⟨g2, rfl, b, by simp⟩
              · simp only [Option.some.injEq, Prod.mk.injEq] at h
                obtain ⟨rfl, rfl⟩ := h
                refine ⟨_, rfl, balanced_queue _ _ _ _ _ b ?_, ?_⟩
                · simp only [CallContext.place]
                · intro c hc
                  simp only [Option.some.injEq] at hc
                  rw [← hc]
        · simp only [Option.some.injEq, Prod.mk.injEq] at h
          obtain ⟨rfl, rfl⟩ := h
          refine ⟨_, rfl, balanced_queue _ _ _ _ _ b1 ?_, ?_⟩
          · simp only [CallContext.place]
          · intro c hc
            simp only [Option.some.injEq] at hc
            rw [← hc]

theorem write_balanced (fuel : Nat) (s s' : State) (buf : Nat → Nat) (len : Nat) (r : Bool)
    (g : GlobalContext) (hs : s.GlobalCtx = some g) (hq : g.Queue.Inv)
    (hc : g.Queue.stored.length + s.CurrentChunk.held.toList.length ≤ g.Queue.Size)
    (h : write fuel s buf len = some (r, s')) :
    ∃ g', s'.GlobalCtx = some g' ∧ g.Balanced g' s.CurrentChunk s'.CurrentChunk := by
  unfold write at h
  split at h
  · simp at h
  · rename_i s1 hinit
    simp only [Option.some.injEq, Prod.mk.injEq] at h
    obtain ⟨_, rfl⟩ := h
    obtain ⟨g1, h1, b, _⟩ := init_balanced fuel s _ len _ g hs hq hc hinit
    exact ⟨g1, h1, b⟩
  · rename_i c s1 hinit
    simp only [Option.some.injEq, Prod.mk.injEq] at h
    obtain ⟨_, rfl⟩ := h
    obtain ⟨g1, h1, b, e⟩ := init_balanced fuel s _ len _ g hs hq hc hinit
    refine ⟨_, rfl, balanced_queue _ _ _ _ _ b ?_⟩
    show c.GCtx.Queue = g1.Queue
    rw [e c rfl]

theorem reset_chunk_balanced (fuel : Nat) (c : CallContext) (h : TLSChunkHolder)
    (record_size : Nat) (oc : Option CallContext) (s1 : State) (hq : c.GCtx.Queue.Inv)
    (hc : c.GCtx.Queue.stored.length + h.held.toList.length ≤ c.GCtx.Queue.Size)
    (hr : c.reset_chunk fuel h record_size = some (oc, s1)) :
    ∃ g1, s1.GlobalCtx = some g1 ∧ c.GCtx.Balanced g1 h s1.CurrentChunk ∧
      (∀ c1, oc = some c1 → c1.GCtx = g1) := by
  unfold CallContext.reset_chunk at hr
  split at hr
  · simp at hr
  · rename_i chunk h2 g2 hreset
    have b := reset_balanced fuel _ _ _ _ _ hq hc hreset
    split at hr
    · simp only [Option.some.injEq, Prod.mk.injEq] at hr
      obtain ⟨rfl, rfl⟩ := hr
      exact ⟨g2, rfl, b, by simp⟩
    · split at hr
      · simp only [Option.some.injEq, Prod.mk.injEq] at hr
        obtain ⟨rfl, rfl⟩ := hr
        exact ⟨g2, rfl, b, by simp⟩
      · simp only [Option.some.injEq, Prod.mk.injEq] at hr
        obtain ⟨rfl, rfl⟩ := hr
        refine ⟨_, rfl, balanced_queue _ _ _ _ _ b ?_, ?_⟩
        · simp only [CallContext.place]
        · intro c1 hc1
          simp only [Option.some.injEq] at hc1
          rw [← hc1]

theorem format_write_again_balanced (fuel : Nat) (rendering : Option (List Nat)) :
    ∀ (rounds : Nat) (ctx : CallContext) (h : TLSChunkHolder) (r : Bool) (s' : State),
      ctx.GCtx.Queue.Inv →
      ctx.GCtx.Queue.stored.length + h.held.toList.length ≤ ctx.GCtx.Queue.Size →
      format_write_again rounds fuel ctx h rendering = some (r, s') →
      ∃ g', s'.GlobalCtx = some g' ∧ ctx.GCtx.Balanced g' h s'.CurrentChunk := by
  intro rounds
  induction rounds with
  | zero =>
    intro ctx h r s' _ _ hf
    simp [format_write_again] at hf
  | succ rounds ih =>
    intro ctx h r s' hq hc hf
    unfold format_write_again at hf
    simp only at hf
    split at hf
    · simp only [Option.some.injEq, Prod.mk.injEq] at hf
      obtain ⟨_, rfl⟩ := hf
      exact ⟨_, rfl, balanced_queue _ _ _ _ _ (balanced_refl _ _ hq) rfl⟩
    · split at hf
      · split at hf
        · simp at hf
        · rename_i s1 hreset
          simp only [Option.some.injEq, Prod.mk.injEq] at hf
          obtain ⟨_, rfl⟩ := hf
          obtain ⟨g1, h1, b, _⟩ := reset_chunk_balanced fuel _ h _ _ _ (by exact hq) (by exact hc) hreset
          exact ⟨g1, h1, balanced_queue_left _ _ _ _ _ b rfl⟩
        · rename_i ctx1 s1 hreset
          obtain ⟨g1, h1, b, e⟩ := reset_chunk_balanced fuel _ h _ _ _ (by exact hq) (by exact hc) hreset
          have b0 : ctx.GCtx.Balanced g1 h s1.CurrentChunk :=
            balanced_queue_left _ _ _ _ _ b rfl
          have e1 := e ctx1 rfl
          obtain ⟨g', h', b'⟩ := ih ctx1 s1.CurrentChunk r s' (by rw [e1]; exact b.1)
            (by rw [e1]; exact balanced_room _ _ _ _ b0 hc) hf
          rw [e1] at b'
          exact ⟨g', h', balanced_trans _ _ _ _ _ _ b0 b'⟩
      · simp only [Option.some.injEq, Prod.mk.injEq] at hf
        obtain ⟨_, rfl⟩ := hf
        exact ⟨_, rfl, balanced_queue _ _ _ _ _ (balanced_refl _ _ hq) rfl⟩

theorem format_write_balanced (rounds fuel : Nat) (s s' : State)
    (rendering : Option (List Nat)) (r : Bool)
    (g : GlobalContext) (hs : s.GlobalCtx = some g) (hq : g.Queue.Inv)
    (hc : g.Queue.stored.length + s.CurrentChunk.held.toList.length ≤ g.Queue.Size)
    (h : format_write rounds fuel s rendering = some (r, s')) :
    ∃ g', s'.GlobalCtx = some g' ∧ g.Balanced g' s.CurrentChunk s'.CurrentChunk := by
  unfold format_write at h
  split at h
  · simp at h
  · rename_i s1 hinit
    simp only [Option.some.injEq, Prod.mk.injEq] at h
    obtain ⟨_, rfl⟩ := h
    obtain ⟨g1, h1, b, _⟩ := init_balanced fuel s _ 2 _ g hs hq hc hinit
    exact ⟨g1, h1, b⟩
  · rename_i c s1 hinit
    obtain ⟨g1, h1, b, e⟩ := init_balanced fuel s _ 2 _ g hs hq hc hinit
    have e1 := e c rfl
    obtain ⟨g', h', b'⟩ := format_write_again_balanced fuel rendering rounds c
      s1.CurrentChunk r s' (by rw [e1]; exact b.1)
      (by rw [e1]; exact balanced_room _ _ _ _ b hc) h
    rw [e1] at b'
    exact ⟨g', h', balanced_trans _ _ _ _ _ _ b b'⟩

theorem destroy_balanced (fuel : Nat) (h : TLSChunkHolder) (g : GlobalContext)
    (og : Option GlobalContext) (hq : g.Queue.Inv)
    (hc : g.Queue.stored.length + h.held.toList.length ≤ g.Queue.Size)
    (hd : h.destroy fuel (some g) = some og) :
    ∃ g', og = some g' ∧ g.Balanced g' h { Chunk := 0 } := by
  unfold TLSChunkHolder.destroy at hd
  simp only at hd
  by_cases h0 : h.Chunk = 0
  · simp only [h0, ne_eq, not_true_eq_false, if_false, Option.some.injEq] at hd
    subst hd
    refine ⟨g, rfl, hq, rfl, ?_⟩
    simp [TLSChunkHolder.held, h0]
  · simp only [ne_eq, h0, not_false_eq_true, if_true, Option.map_eq_some'] at hd
    obtain ⟨⟨b, q⟩, henq, rfl⟩ := hd
    obtain ⟨hi1, hb, _, hst, hsz, _⟩ := enqueue_inv fuel g.Queue h.Chunk b q hq h0 henq
    have hlt : g.Queue.stored.length < g.Queue.Size := by
      simp only [TLSChunkHolder.held, h0, if_false, Option.toList,
        List.length_singleton] at hc
      omega
    refine ⟨_, rfl, hi1, hsz, ?_⟩
    show (↑q.stored + ↑(TLSChunkHolder.held { Chunk := 0 }).toList : Multiset Nat) = _
    rw [Multiset.coe_eq_coe.mpr (hst (hb.mpr hlt))]
    simp only [TLSChunkHolder.held, h0, if_true, if_false, Option.toList,
      ← Multiset.cons_coe, ← Multiset.singleton_add, Multiset.coe_nil]
    abel

theorem held_set (l : List TLSChunkHolder) (t : Nat) (h h1 : TLSChunkHolder)
    (ht : l[t]? = some h) :
    (↑((l.set t h1).filterMap TLSChunkHolder.held) + ↑h.held.toList : Multiset Nat) =
      ↑(l.filterMap TLSChunkHolder.held) + ↑h1.held.toList :=
  filterMap_set_add TLSChunkHolder.held l t h h1 ht

/-- A call that is balanced for the calling thread keeps every chunk with one owner. -/
theorem owned_of_balanced (p : Process) (t : Nat) (h h1 : TLSChunkHolder)
    (g g1 : GlobalContext) (all : List Nat)
    (ht : p.CurrentChunk[t]? = some h) (hsz : g.Queue.Size = all.length)
    (hperm : (g.Queue.stored ++ p.held).Perm all) (b : g.Balanced g1 h h1) :
    Process.Owned { GlobalCtx := some g1, CurrentChunk := p.CurrentChunk.set t h1 } all := by
  refine ⟨g1, rfl, b.1, b.2.1.trans hsz, ?_⟩
  have hs := held_set p.CurrentChunk t h h1 ht
  have hp : (↑g.Queue.stored + ↑p.held : Multiset Nat) = ↑all := by
    rw [Multiset.coe_add]
    exact Multiset.coe_eq_coe.mpr hperm
  apply Multiset.coe_eq_coe.mp
  rw [← hp, ← Multiset.coe_add]
  simp only [Process.held] at hs ⊢
  apply add_right_cancel (b := (↑h.held.toList + ↑h1.held.toList : Multiset Nat))
  calc (↑g1.Queue.stored + ↑((p.CurrentChunk.set t h1).filterMap TLSChunkHolder.held) +
        (↑h.held.toList + ↑h1.held.toList) : Multiset Nat)
      = (↑g1.Queue.stored + ↑h1.held.toList) +
          (↑((p.CurrentChunk.set t h1).filterMap TLSChunkHolder.held) + ↑h.held.toList) := by
        abel
    _ = (↑g.Queue.stored + ↑h.held.toList) +
          (↑(p.CurrentChunk.filterMap TLSChunkHolder.held) + ↑h1.held.toList) := by
        rw [b.2.2, hs]
    _ = ↑g.Queue.stored + ↑(p.CurrentChunk.filterMap TLSChunkHolder.held) +
          (↑h.held.toList + ↑h1.held.toList) := by abel

theorem owned_room (p : Process) (t : Nat) (h : TLSChunkHolder) (g : GlobalContext)
    (all : List Nat) (ht : p.CurrentChunk[t]? = some h) (hsz : g.Queue.Size = all.length)
    (hperm : (g.Queue.stored ++ p.held).Perm all) :
    g.Queue.stored.length + h.held.toList.length ≤ g.Queue.Size := by
  have hs := congrArg Multiset.card (held_set p.CurrentChunk t h { Chunk := 0 } ht)
  simp only [Multiset.card_add, Multiset.coe_card] at hs
  have hl := hperm.length_eq
  simp only [List.length_append, Process.held] at hl
  have h0 : (TLSChunkHolder.held { Chunk := 0 }).toList.length = 0 := rfl
  omega

theorem view_eq (p : Process) (t : Nat) (ht : t < p.CurrentChunk.length) :
    ∃ h, p.CurrentChunk[t]? = some h ∧
      p.view t = { GlobalCtx := p.GlobalCtx, CurrentChunk := h } := by
  refine ⟨p.CurrentChunk[t], List.getElem?_eq_getElem ht, ?_⟩
  simp [Process.view, List.getD_eq_getElem?_getD, List.getElem?_eq_getElem ht]

/-- One of the operations `write`, `format_write`, thread exit keeps every chunk with
exactly one owner. -/
theorem step_owned (fuel : Nat) (p p' : Process) (t : Nat) (op : Operation) (r : Bool)
    (all : List Nat) (ho : p.Owned all) (hop : op.in_lifetime)
    (hs : p.step fuel t op = some (r, p')) : p'.Owned all := by
  obtain ⟨g, hg, hq, hsz, hperm⟩ := ho
  by_cases ht : t < p.CurrentChunk.length
  · obtain ⟨h, hh, hv⟩ := view_eq p t ht
    have hroom := owned_room p t h g all hh hsz hperm
    cases op with
    | init a b c d => exact absurd hop (by simp [Operation.in_lifetime])
    | finalize => exact absurd hop (by simp [Operation.in_lifetime])
    | write buf len =>
      simp only [Process.step, ht, if_true, Option.map_eq_some'] at hs
      obtain ⟨⟨r1, s1⟩, hw, hp'⟩ := hs
      simp only [Prod.mk.injEq] at hp'
      obtain ⟨_, rfl⟩ := hp'
      rw [hv] at hw
      obtain ⟨g1, hg1, b⟩ := write_balanced fuel _ s1 buf len r1 g hg hq hroom hw
      have := owned_of_balanced p t h s1.CurrentChunk g g1 all hh hsz hperm b
      simpa [Process.commit, hg1] using this
    | format_write rendering =>
      simp only [Process.step, ht, if_true, Option.map_eq_some'] at hs
      obtain ⟨⟨r1, s1⟩, hw, hp'⟩ := hs
      simp only [Prod.mk.injEq] at hp'
      obtain ⟨_, rfl⟩ := hp'
      rw [hv] at hw
      obtain ⟨g1, hg1, b⟩ := format_write_balanced fuel fuel _ s1 rendering r1 g hg hq hroom hw
      have := owned_of_balanced p t h s1.CurrentChunk g g1 all hh hsz hperm b
      simpa [Process.commit, hg1] using this
    | thread_exit =>
      simp only [Process.step, ht, if_true, Option.map_eq_some'] at hs
      obtain ⟨og, hd, hp'⟩ := hs
      simp only [Prod.mk.injEq] at hp'
      obtain ⟨_, rfl⟩ := hp'
      rw [hv, hg] at hd
      obtain ⟨g1, rfl, b⟩ := destroy_balanced fuel h g og hq hroom hd
      exact owned_of_balanced p t h { Chunk := 0 } g g1 all hh hsz hperm b
  · have : p' = p := by
      cases op <;> simp only [Process.step, ht, if_false, Option.some.injEq,
        Prod.mk.injEq] at hs <;> exact hs.2.symm
    rw [this]
    exact ⟨g, hg, hq, hsz, hperm⟩

theorem run_owned (fuel : Nat) (all : List Nat) (ops : List (Nat × Operation)) :
    ∀ (p p' : Process) (rs : List Bool), p.Owned all → (∀ e ∈ ops, e.2.in_lifetime) →
      Process.run fuel p ops = some (rs, p') → p'.Owned all := by
  induction ops with
  | nil =>
    intro p p' rs ho _ h
    simp only [Process.run, Option.some.injEq, Prod.mk.injEq] at h
    rw [← h.2]
    exact ho
  | cons e rest ih =>
    intro p p' rs ho hops h
    obtain ⟨t, op⟩ := e
    simp only [Process.run] at h
    split at h
    · simp at h
    · rename_i r p1 hstep
      split at h
      · simp at h
      · rename_i rs1 p2 hrest
        simp only [Option.some.injEq, Prod.mk.injEq] at h
        rw [← h.2]
        exact ih p1 p2 rs1
          (step_owned fuel p p1 t op r all ho (hops (t, op) (List.mem_cons_self _ _)) hstep)
          (fun x hx => hops x (List.mem_cons_of_mem _ hx)) hrest

theorem chunk_ring_full_inv (base chunk_size N : Nat) (hb : 0 < base) (hN : 8 * N < WORD) :
    (chunk_ring base chunk_size N N).Inv := by
  have hst := chunk_ring_full_stored base chunk_size N hb
  have hW : WORD = 18446744073709551616 := by simp [WORD]
  refine ⟨?_, ?_, ?_, ?_, ?_, ?_⟩
  · simp [chunk_ring]
  · exact hN
  · rw [hst]
    simp [chunk_ring]
  · simp [chunk_ring]
  · simp [chunk_ring, WORD]
  · simp only [chunk_ring]
    omega

/-- In a context lifetime that starts with no holder holding a chunk (so in the first
lifetime of a process), after any sequence of `write`, `format_write` and thread-exit steps
by any threads, the ring and the holders together reference every chunk of `big_buffer`
exactly once, so stored and held chunks number `total_size / chunk_size`. -/
theorem clean_lifetime_ownership (fuel t0 : Nat) (p0 : Process) (a : Allocation)
    (total_buffer_size chunk_size : Nat) (ops : List (Nat × Operation)) (rs : List Bool)
    (p : Process) (hf : 1 ≤ fuel) (ht : total_buffer_size < WORD) (hb : 0 < a.base)
    (hheld : p0.held = []) (hops : ∀ e ∈ ops, e.2.in_lifetime)
    (hrun : Process.run fuel p0
      ((t0, Operation.init (some a) false total_buffer_size chunk_size) :: ops) =
        some (true :: rs, p)) :
    (p.stored ++ p.held).Perm
      ((List.range (total_buffer_size / chunk_size)).map (fun k => a.base + chunk_size * k)) ∧
    ((List.range (total_buffer_size / chunk_size)).map
      (fun k => a.base + chunk_size * k)).Nodup ∧
    p.stored.length + p.held.length = total_buffer_size / chunk_size := by
  simp only [Process.run] at hrun
  split at hrun
  · simp at hrun
  · rename_i r p1 hstep
    split at hrun
    · simp at hrun
    · rename_i rs1 p2 hrest
      simp only [Option.some.injEq, Prod.mk.injEq, List.cons.injEq] at hrun
      obtain ⟨⟨rfl, rfl⟩, rfl⟩ := hrun
      by_cases htn : t0 < p0.CurrentChunk.length
      · simp only [Process.step, htn, if_true, Option.map_eq_some'] at hstep
        obtain ⟨⟨r1, s1⟩, hinit, hp1⟩ := hstep
        simp only [Prod.mk.injEq] at hp1
        obtain ⟨rfl, rfl⟩ := hp1
        rw [initialize_log_eq fuel (some a) false _ total_buffer_size chunk_size hf ht] at hinit
        simp only at hinit
        split at hinit
        · rename_i hcond
          simp only [Option.some.injEq, Prod.mk.injEq, true_and] at hinit
          subst hinit
          have hgeo := hcond.1
          have hcs : 0 < chunk_size := by
            have := hgeo.1
            omega
          have hN : 8 * (total_buffer_size / chunk_size) < WORD := by
            have h1 : total_buffer_size / chunk_size * 19 ≤ total_buffer_size :=
              Nat.le_trans (Nat.mul_le_mul_left _ (by have := hgeo.1; omega))
                (Nat.div_mul_le_self _ _)
            omega
          have hp1 : Process.commit p0 t0
              { p0.view t0 with
                GlobalCtx := some (fresh_context a total_buffer_size chunk_size) } =
              { p0 with GlobalCtx := some (fresh_context a total_buffer_size chunk_size) } := by
            simp only [Process.commit, Process.view]
            rw [set_getD_self]
          rw [hp1] at hrest
          have ho : Process.Owned
              { p0 with GlobalCtx := some (fresh_context a total_buffer_size chunk_size) }
              ((List.range (total_buffer_size / chunk_size)).map
                (fun k => a.base + chunk_size * k)) := by
            refine ⟨fresh_context a total_buffer_size chunk_size, rfl,
              chunk_ring_full_inv _ _ _ hb hN, by simp [fresh_context, chunk_ring], ?_⟩
            have hh : Process.held
                { p0 with GlobalCtx := some (fresh_context a total_buffer_size chunk_size) } =
                [] := hheld
            rw [hh, List.append_nil]
            show (chunk_ring a.base chunk_size (total_buffer_size / chunk_size)
              (total_buffer_size / chunk_size)).stored.Perm _
            rw [chunk_ring_full_stored _ _ _ hb]
          obtain ⟨g, hg, _, _, hperm⟩ := run_owned fuel _ ops _ p2 _ ho hops hrest
          have hst : p2.stored = g.Queue.stored := by simp [Process.stored, hg]
          rw [hst]
          refine ⟨hperm, ?_, ?_⟩
          · apply List.Nodup.map _ (List.nodup_range _)
            intro x y hxy
            simp only at hxy
            exact Nat.eq_of_mul_eq_mul_left hcs (Nat.add_left_cancel hxy)
          · have := hperm.length_eq
            simpa using this
        · simp at hinit
      · simp only [Process.step, htn, if_false, Option.some.injEq, Prod.mk.injEq] at hstep
        exact absurd hstep.1 (by simp)

/-! ## Termination of the slot-search loops -/

theorem enqueue_loop_fuel (k : Nat) : ∀ (f : Nat) (q : RingPtrQueue) (elem : Nat)
    (r : RingPtrQueue), q.enqueue_loop f elem = some r →
      q.enqueue_loop (f + k) elem = some r := by
  intro f
  induction f with
  | zero => intro q elem r h; simp [RingPtrQueue.enqueue_loop] at h
  | succ f ih =>
    intro q elem r h
    rw [Nat.add_right_comm]
    unfold RingPtrQueue.enqueue_loop at h ⊢
    simp only at h ⊢
    split
    · rename_i h0
      rw [if_pos h0] at h
      exact h
    · rename_i h0
      rw [if_neg h0] at h
      exact ih _ _ _ h

theorem dequeue_loop_fuel (k : Nat) : ∀ (f : Nat) (q : RingPtrQueue)
    (r : Nat × RingPtrQueue), q.dequeue_loop f = some r → q.dequeue_loop (f + k) = some r := by
  intro f
  induction f with
  | zero => intro q r h; simp [RingPtrQueue.dequeue_loop] at h
  | succ f ih =>
    intro q r h
    rw [Nat.add_right_comm]
    unfold RingPtrQueue.dequeue_loop at h ⊢
    simp only at h ⊢
    split
    · rename_i h0
      rw [if_pos h0] at h
      exact h
    · rename_i h0
      rw [if_neg h0] at h
      exact ih _ _ h

theorem call_fuel (f k : Nat) (q : RingPtrQueue) (c : RingCall) (r : RingReturn × RingPtrQueue)
    (h : q.call f c = some r) : q.call (f + k) c = some r := by
  cases c with
  | enqueue elem =>
    simp only [RingPtrQueue.call, RingPtrQueue.enqueue, Option.map_eq_some'] at h ⊢
    obtain ⟨a, ha, rfl⟩ := h
    refine ⟨a, ?_, rfl⟩
    split at ha
    · rename_i hb
      rw [if_pos hb]
      exact ha
    · rename_i hb
      rw [if_neg hb]
      simp only [Option.map_eq_some'] at ha ⊢
      obtain ⟨q2, hq2, rfl⟩ := ha
      exact ⟨q2, enqueue_loop_fuel k f _ _ _ hq2, rfl⟩
  | dequeue =>
    simp only [RingPtrQueue.call, RingPtrQueue.dequeue, Option.map_eq_some'] at h ⊢
    obtain ⟨a, ha, rfl⟩ := h
    refine ⟨a, ?_, rfl⟩
    split at ha
    · rename_i hb
      rw [if_pos hb]
      exact ha
    · rename_i hb
      rw [if_neg hb]
      exact dequeue_loop_fuel k f _ _ ha

theorem calls_fuel (f k : Nat) (cs : List RingCall) :
    ∀ (q : RingPtrQueue) (r : List RingReturn × RingPtrQueue),
      q.calls f cs = some r → q.calls (f + k) cs = some r := by
  induction cs with
  | nil => intro q r h; exact h
  | cons c cs ih =>
    intro q r h
    simp only [RingPtrQueue.calls] at h ⊢
    split at h
    · simp at h
    · rename_i r1 q1 hc
      rw [call_fuel f k q c _ hc]
      simp only
      split at h
      · simp at h
      · rename_i rs q2 hrest
        rw [ih q1 _ hrest]
        exact h

/-- On a ring that represents a list (sequential use, cursors not wrapped), the first slot
an `enqueue` draws after `book_space` passed is null, and the first slot a `dequeue` draws
after `book_elem` passed holds a pointer. -/
theorem fifo_first_slot (q : RingPtrQueue) (l : List Nat) (hF : q.Fifo l) :
    (q.book_space.1 = true → q.Buffer.getD (q.Tail % q.Size) 0 = 0) ∧
    (q.book_elem.1 = true → q.Buffer.getD (q.Head % q.Size) 0 ≠ 0) := by
  obtain ⟨hlen, hsz, hle, hsp, hel, htl, hbuf, hnz⟩ := hF
  have hW : WORD = 18446744073709551616 := by simp [WORD]
  constructor
  · intro hb
    have hmod : (q.SpaceSemaphore + 1) % WORD = q.SpaceSemaphore + 1 :=
      Nat.mod_eq_of_lt (by omega)
    have hlt : l.length < q.Size := by
      unfold RingPtrQueue.book_space at hb
      simp only [hmod] at hb
      by_cases hp : q.SpaceSemaphore + 1 ≤ q.Size
      · omega
      · simp [hp] at hb
    have := hbuf l.length hlt
    rw [htl, this]
    simp only [List.getD_eq_getElem?_getD]
    rw [List.getElem?_eq_none (Nat.le_refl _)]
    rfl
  · intro hb
    have hmod : (q.ElemSemaphore + 1) % WORD = q.ElemSemaphore + 1 :=
      Nat.mod_eq_of_lt (by omega)
    have hpos : 0 < l.length := by
      unfold RingPtrQueue.book_elem at hb
      simp only [hmod] at hb
      by_cases hp : q.ElemSemaphore + 1 ≤ q.Size
      · omega
      · simp [hp] at hb
    cases l with
    | nil => simp at hpos
    | cons x t =>
      have := hbuf 0 (by simp only [List.length_cons] at hle; omega)
      simp only [Nat.add_zero, List.getD_cons_zero] at this
      rw [this]
      exact hnz x (List.mem_cons_self _ _)

/-- On the ring of capacity 0 every call fails before its loop (no fuel is used) and
leaves the ring as it was. -/
theorem capacity_zero_calls (cs : List RingCall) :
    ∃ rs, (RingPtrQueue.construct 0).calls 0 cs = some (rs, RingPtrQueue.construct 0) ∧
      ∀ r ∈ rs, r = RingReturn.enqueued false ∨ r = RingReturn.dequeued 0 := by
  induction cs with
  | nil => exact ⟨[], rfl, by simp⟩
  | cons c cs ih =>
    obtain ⟨rs, h, hall⟩ := ih
    cases c with
    | enqueue elem =>
      have hc : (RingPtrQueue.construct 0).call 0 (RingCall.enqueue elem) =
          some (RingReturn.enqueued false, RingPtrQueue.construct 0) := rfl
      refine ⟨RingReturn.enqueued false :: rs, ?_, ?_⟩
      · simp only [RingPtrQueue.calls, hc, h]
      · intro r hr
        rcases List.mem_cons.mp hr with h1 | h1
        · exact Or.inl h1
        · exact hall r h1
    | dequeue =>
      have hc : (RingPtrQueue.construct 0).call 0 RingCall.dequeue =
          some (RingReturn.dequeued 0, RingPtrQueue.construct 0) := rfl
      refine ⟨RingReturn.dequeued 0 :: rs, ?_, ?_⟩
      · simp only [RingPtrQueue.calls, hc, h]
      · intro r hr
        rcases List.mem_cons.mp hr with h1 | h1
        · exact Or.inr h1
        · exact hall r h1

/-- C21: in sequential use of a fresh ring of capacity `N` with non-null pointers, for
every sequence of fewer than `2 ^ 64` calls (the cursors do not wrap): the whole sequence
runs to its end when every slot-search loop may draw one slot only (fuel 1), with the
results and the final ring of any larger bound; in the ring reached, for `N ≥ 1`, an
`enqueue` that passes `book_space` finds `Buffer[Tail % N]` null and a `dequeue` that passes
`book_elem` finds `Buffer[Head % N]` non-null; and for `N = 0` the sequence runs with no
slot drawn at all (fuel 0), every call returns failure and the ring is unchanged. -/
theorem C21_slot_search_succeeds_at_first_draw (N : Nat) (cs : List RingCall)
    (hN : 8 * N < WORD) (hw : cs.length < WORD)
    (hnz : ∀ p, RingCall.enqueue p ∈ cs → p ≠ 0) :
    ∃ rs q, (RingPtrQueue.construct N).calls 1 cs = some (rs, q) ∧
      (∀ fuel, 1 ≤ fuel → (RingPtrQueue.construct N).calls fuel cs = some (rs, q)) ∧
      (1 ≤ N → (q.book_space.1 = true → q.Buffer.getD (q.Tail % N) 0 = 0) ∧
        (q.book_elem.1 = true → q.Buffer.getD (q.Head % N) 0 ≠ 0)) ∧
      (N = 0 → (RingPtrQueue.construct N).calls 0 cs = some (rs, q) ∧
        q = RingPtrQueue.construct N ∧
        ∀ r ∈ rs, r = RingReturn.enqueued false ∨ r = RingReturn.dequeued 0) := by
  obtain ⟨q, hq, hF, hsize⟩ := calls_refine 1 (Nat.le_refl 1) cs (RingPtrQueue.construct N) []
    (construct_fifo N hN) (by simpa [RingPtrQueue.construct] using hw) hnz
  have hsz : q.Size = N := hsize
  refine ⟨_, q, hq, ?_, ?_, ?_⟩
  · intro fuel hf
    have := calls_fuel 1 (fuel - 1) cs _ _ hq
    rwa [show 1 + (fuel - 1) = fuel by omega] at this
  · intro _
    have := fifo_first_slot q _ hF
    rwa [hsz] at this
  · intro h0
    subst h0
    obtain ⟨rs, h, hall⟩ := capacity_zero_calls cs
    have h1 := calls_fuel 0 1 cs _ _ h
    rw [Nat.zero_add] at h1
    rw [hq] at h1
    simp only [Option.some.injEq, Prod.mk.injEq] at h1
    obtain ⟨e1, e2⟩ := h1
    rw [e1, e2]
    exact ⟨h, rfl, hall⟩

theorem C21_slot_search_succeeds_at_first_draw_witness :
    8 * 2 < WORD ∧
    [RingCall.enqueue 7, RingCall.enqueue 9, RingCall.enqueue 11, RingCall.dequeue].length <
      WORD ∧
    (∀ p, RingCall.enqueue p ∈
      [RingCall.enqueue 7, RingCall.enqueue 9, RingCall.enqueue 11, RingCall.dequeue] → p ≠ 0) ∧
    ∃ rs q, (RingPtrQueue.construct 2).calls 1
        [RingCall.enqueue 7, RingCall.enqueue 9, RingCall.enqueue 11, RingCall.dequeue] =
          some (rs, q) ∧
      (∀ fuel, 1 ≤ fuel → (RingPtrQueue.construct 2).calls fuel
        [RingCall.enqueue 7, RingCall.enqueue 9, RingCall.enqueue 11, RingCall.dequeue] =
          some (rs, q)) ∧
      (1 ≤ 2 → (q.book_space.1 = true → q.Buffer.getD (q.Tail % 2) 0 = 0) ∧
        (q.book_elem.1 = true → q.Buffer.getD (q.Head % 2) 0 ≠ 0)) ∧
      (2 = 0 → (RingPtrQueue.construct 2).calls 0
        [RingCall.enqueue 7, RingCall.enqueue 9, RingCall.enqueue 11, RingCall.dequeue] =
          some (rs, q) ∧
        q = RingPtrQueue.construct 2 ∧
        ∀ r ∈ rs, r = RingReturn.enqueued false ∨ r = RingReturn.dequeued 0) :=
  have hnz : ∀ p, RingCall.enqueue p ∈
      [RingCall.enqueue 7, RingCall.enqueue 9, RingCall.enqueue 11, RingCall.dequeue] →
      p ≠ 0 := by
    intro p hp
    simp only [List.mem_cons, RingCall.enqueue.injEq, List.mem_singleton] at hp
    rcases hp with h | h | h | h
    · omega
    · omega
    · omega
    · exact absurd h (by simp)
  ⟨by simp [WORD], by simp [WORD], hnz,
    C21_slot_search_succeeds_at_first_draw 2 _ (by simp [WORD]) (by simp [WORD]) hnz⟩

/-! ## The exact size limit of `write` -/

theorem get_total (fuel : Nat) (h : TLSChunkHolder) (g : GlobalContext) (hq : g.Queue.Inv)
    (hf : 2 * g.Queue.Size ≤ fuel) : ∃ chunk h1 g1, h.get fuel g = some (chunk, h1, g1) := by
  unfold TLSChunkHolder.get
  by_cases h0 : h.Chunk = 0
  · obtain ⟨e, q1, hd, _⟩ := dequeue_total fuel g.Queue hq hf
    simp only [h0, if_true, hd]
    by_cases he : e = 0
    · simp [he]
    · simp [he]
  · simp [h0]

theorem reset_total (fuel : Nat) (h : TLSChunkHolder) (g : GlobalContext) (hq : g.Queue.Inv)
    (hf : 2 * g.Queue.Size ≤ fuel) : ∃ chunk h1 g1, h.reset fuel g = some (chunk, h1, g1) := by
  unfold TLSChunkHolder.reset
  have hput : ∃ q1, (if h.Chunk ≠ 0 then (g.Queue.enqueue fuel h.Chunk).map (fun r => r.2)
      else some g.Queue) = some q1 ∧ q1.Inv ∧ q1.Size = g.Queue.Size := by
    by_cases h0 : h.Chunk = 0
    · exact ⟨g.Queue, by simp [h0], hq, rfl⟩
    · obtain ⟨b, q1, he, hi, _, _, _, hs⟩ := enqueue_total fuel g.Queue h.Chunk hq h0 hf
      exact ⟨q1, by simp [h0, he], hi, hs⟩
  obtain ⟨q1, hq1, hi1, hs1⟩ := hput
  obtain ⟨e, q2, hd, _⟩ := dequeue_total fuel q1 hi1 (by rw [hs1]; exact hf)
  dsimp only
  rw [hq1]
  dsimp only
  rw [hd]
  by_cases he : e = 0
  · simp [he]
  · simp [he]

theorem get_null_empty (fuel : Nat) (h h1 : TLSChunkHolder) (g g1 : GlobalContext)
    (chunk : Nat) (hq : g.Queue.Inv) (hg : h.get fuel g = some (chunk, h1, g1))
    (hz : chunk = 0) : g.Queue.stored.length + h.held.toList.length = 0 := by
  unfold TLSChunkHolder.get at hg
  split at hg
  · rename_i h0
    split at hg
    · simp at hg
    · rename_i e q1 hdq
      obtain ⟨_, hiff, _⟩ := dequeue_inv fuel g.Queue e q1 hq hdq
      have he : e = 0 := by
        split at hg <;>
        · simp only [Option.some.injEq, Prod.mk.injEq] at hg
          omega
      simp only [TLSChunkHolder.held, h0, if_true, Option.toList, List.length_nil]
      have := hiff.mp he
      omega
  · rename_i h0
    simp only [Option.some.injEq, Prod.mk.injEq] at hg
    exact absurd (hg.1.trans hz) h0

theorem reset_null_empty (fuel : Nat) (h h1 : TLSChunkHolder) (g g1 : GlobalContext)
    (chunk : Nat) (hq : g.Queue.Inv)
    (hc : g.Queue.stored.length + h.held.toList.length ≤ g.Queue.Size)
    (hg : h.reset fuel g = some (chunk, h1, g1)) (hz : chunk = 0) :
    g.Queue.stored.length + h.held.toList.length = 0 := by
  have hb := reset_balanced fuel h h1 g g1 chunk hq hc hg
  have hch := holder_reset_chunk fuel h h1 g g1 chunk hg
  have hcard := congrArg Multiset.card hb.2.2
  simp only [Multiset.card_add, Multiset.coe_card] at hcard
  have h1z : h1.held.toList.length = 0 := by
    simp [TLSChunkHolder.held, hch, hz]
  -- the ring after the call stores nothing: its last `dequeue` returned null
  have hst : g1.Queue.stored.length = 0 := by
    unfold TLSChunkHolder.reset at hg
    dsimp only at hg
    cases hq1 : (if h.Chunk ≠ 0 then (g.Queue.enqueue fuel h.Chunk).map (fun r => r.2)
        else some g.Queue) with
    | none =>
      rw [hq1] at hg
      simp at hg
    | some q1 =>
      rw [hq1] at hg
      dsimp only at hg
      have hi1 : q1.Inv := by
        by_cases h0 : h.Chunk = 0
        · simp only [h0, ne_eq, not_true_eq_false, if_false, Option.some.injEq] at hq1
          rw [← hq1]; exact hq
        · simp only [ne_eq, h0, not_false_eq_true, if_true, Option.map_eq_some'] at hq1
          obtain ⟨⟨b, q⟩, henq, rfl⟩ := hq1
          exact (enqueue_inv fuel g.Queue h.Chunk b q hq h0 henq).1
      split at hg
      · simp at hg
      · rename_i e q2 hdq
        obtain ⟨_, hiff, hsame, _⟩ := dequeue_inv fuel q1 e q2 hi1 hdq
        split at hg
        · rename_i he
          simp only [Option.some.injEq, Prod.mk.injEq] at hg
          obtain ⟨_, _, rfl⟩ := hg
          show q2.stored.length = 0
          rw [hsame he]
          exact hiff.mp he
        · rename_i he
          simp only [Option.some.injEq, Prod.mk.injEq] at hg
          exact absurd (hg.1.trans hz) he
  omega

/-- C23: on a log whose chunk size is a multiple of 16 (buffer 16-byte aligned, 8-byte
chunk header) that one thread uses alone, in every state the invariants of such a log
hold in and for every `L`, `write(b, L)` returns, and returns true iff
`L + 32 ≤ chunk_size`. A record with `chunk_size - 32 < L ≤ chunk_size - 16` passes the
size check of `init`, finds the held chunk out of space, is rejected by the second
`out_of_space` test on the chunk that `TLSChunkHolder::reset` acquired, and the call
leaves the thread holding that freshly reset chunk: it is rejected only after the
rotation. -/
theorem C23_exact_size_limit (fuel : Nat) (s : State) (g : GlobalContext) (buf : Nat → Nat)
    (L : Nat) (hg : s.GlobalCtx = some g) (hA : g.Aligned s.CurrentChunk)
    (hsole : g.sole_user s.CurrentChunk) (hf : 2 * g.Queue.Size ≤ fuel) :
    ∃ r s', write fuel s buf L = some (r, s') ∧ (r = true ↔ L + 32 ≤ g.ChunkSize) ∧
      (g.ChunkSize - 32 < L → L ≤ g.ChunkSize - 16 →
        ¬ L > (g.ChunkSize + WORD - RECORD_PREFIX_SIZE) % WORD ∧
        ∃ chunk1 h1 g1 chunk2 h2 g2,
          s.CurrentChunk.get fuel g = some (chunk1, h1, g1) ∧ chunk1 ≠ 0 ∧
          MemoryBufferChunk.out_of_space g1.bytes chunk1 g1.ChunkSize L = true ∧
          h1.reset fuel g1 = some (chunk2, h2, g2) ∧ chunk2 ≠ 0 ∧
          MemoryBufferChunk.get_fill_point g2.bytes chunk2 = chunk2 + 16 ∧
          MemoryBufferChunk.out_of_space g2.bytes chunk2 g2.ChunkSize L = true ∧
          s' = { GlobalCtx := some g2, CurrentChunk := h2 } ∧ h2.Chunk = chunk2) := by
  have hW : WORD = 18446744073709551616 := by simp [WORD]
  have hin := hA.in_space
  obtain ⟨hcs, hct, _⟩ := hA.geometry
  have hc16 := hA.chunk_aligned
  simp only [RECORD_ALIGNMENT] at hc16
  have hsub : (g.ChunkSize + WORD - RECORD_PREFIX_SIZE) % WORD = g.ChunkSize - 16 := by
    simp only [RECORD_PREFIX_SIZE, hW] at *
    omega
  obtain ⟨hN, hcount⟩ := hsole
  by_cases hbig : L > g.ChunkSize - 16
  · refine ⟨false, s, ?_, ?_, ?_⟩
    · simp only [write, CallContext.init, hg, hsub, hbig, if_true]
    · constructor
      · intro h; exact absurd h (by simp)
      · intro h; omega
    · intro _ h2; omega
  · obtain ⟨chunk1, h1, g1, hget⟩ := get_total fuel s.CurrentChunk g hA.ring hf
    obtain ⟨hA1, hch1⟩ := holder_get_aligned fuel _ _ _ _ _ hA hget
    obtain ⟨_, e2, _⟩ := holder_get_geometry fuel _ _ _ _ _ hget
    have b1 := get_balanced fuel _ _ _ _ _ hA.ring hget
    have hroom1 := balanced_room _ _ _ _ b1 (Nat.le_of_eq hcount)
    have hne1 : chunk1 ≠ 0 := by
      intro hz
      have := get_null_empty fuel _ _ _ _ _ hA.ring hget hz
      omega
    have hcard1 := congrArg Multiset.card b1.2.2
    simp only [Multiset.card_add, Multiset.coe_card] at hcard1
    obtain ⟨hchunk1, hfill1, hfill2, hfill3⟩ := hA1.held (by rw [hch1]; exact hne1)
    rw [hch1] at hchunk1 hfill1 hfill2 hfill3
    obtain ⟨c1, c2, c3, c4, c5⟩ := is_chunk_facts g1 chunk1 hA1.geometry
      hA1.chunk_aligned hA1.base_aligned hA1.base_pos hchunk1
    have hin1 := hA1.in_space
    cases hos : MemoryBufferChunk.out_of_space g1.bytes chunk1 g1.ChunkSize L with
    | false =>
      have hfit : L + 32 ≤ g.ChunkSize := by
        have hfp : MemoryBufferChunk.get_fill_point g1.bytes chunk1 % WORD =
            MemoryBufferChunk.get_fill_point g1.bytes chunk1 :=
          Nat.mod_eq_of_lt (by omega)
        simp only [MemoryBufferChunk.out_of_space, RECORD_PREFIX_SIZE, hfp,
          decide_eq_false_iff_not, not_lt] at hos
        rw [hW] at hos hin1
        omega
      have hw : ∃ s', write fuel s buf L = some (true, s') := by
        simp only [write, CallContext.init, hg, hsub, hbig, if_false, hget, hne1, hos,
          Bool.false_eq_true]
        exact ⟨_, rfl⟩
      obtain ⟨s', hw⟩ := hw
      refine ⟨true, s', hw, by simp [hfit], ?_⟩
      intro h1' _; omega
    | true =>
      obtain ⟨chunk2, h2, g2, hreset⟩ := reset_total fuel h1 g1 b1.1 (by rw [b1.2.1]; exact hf)
      obtain ⟨hA2, hch2⟩ := holder_reset_aligned fuel _ _ _ _ _ hA1 hreset
      obtain ⟨_, f2, _⟩ := holder_reset_geometry fuel _ _ _ _ _ hreset
      have hne2 : chunk2 ≠ 0 := by
        intro hz
        have := reset_null_empty fuel _ _ _ _ _ b1.1 hroom1 hreset hz
        omega
      have hb := holder_reset_bytes fuel _ _ _ _ _ hreset hne2
      obtain ⟨hchunk2, _⟩ := hA2.held (by rw [hch2]; exact hne2)
      rw [hch2] at hchunk2
      obtain ⟨d1, d2, d3, d4, d5⟩ := is_chunk_facts g2 chunk2 hA2.geometry
        hA2.chunk_aligned hA2.base_aligned hA2.base_pos hchunk2
      have hin2 := hA2.in_space
      obtain ⟨k1, _, k3⟩ := fresh_chunk_space g1.bytes chunk2 g2.ChunkSize d1 (by omega)
        (by omega)
      rw [← hb] at k1 k3
      have key := k3 L (by rw [hW] at *; omega)
      by_cases hfit : L + 32 ≤ g.ChunkSize
      · have hos2 : MemoryBufferChunk.out_of_space g2.bytes chunk2 g2.ChunkSize L = false :=
          key.mpr (by rw [f2, e2]; exact hfit)
        have hw : ∃ s', write fuel s buf L = some (true, s') := by
          simp only [write, CallContext.init, hg, hsub, hbig, if_false, hget, hne1, hos,
            if_true, hreset, hne2, hos2, Bool.false_eq_true]
          exact ⟨_, rfl⟩
        obtain ⟨s', hw⟩ := hw
        refine ⟨true, s', hw, by simp [hfit], ?_⟩
        intro h1' _; omega
      · have hos2 : MemoryBufferChunk.out_of_space g2.bytes chunk2 g2.ChunkSize L = true := by
          cases hx : MemoryBufferChunk.out_of_space g2.bytes chunk2 g2.ChunkSize L with
          | true => rfl
          | false =>
            have := key.mp hx
            rw [f2, e2] at this
            exact absurd this hfit
        refine ⟨false, { GlobalCtx := some g2, CurrentChunk := h2 }, ?_, ?_, ?_⟩
        · simp only [write, CallContext.init, hg, hsub, hbig, if_false, hget, hne1, hos,
            if_true, hreset, hne2, hos2]
        · constructor
          · intro h; exact absurd h (by simp)
          · intro h; exact absurd h hfit
        · intro _ _
          refine ⟨by rw [hsub]; exact hbig, chunk1, h1, g1, chunk2, h2, g2, hget, hne1, hos,
            hreset, hne2, k1, hos2, rfl, hch2⟩

/-! ## Termination of `format_write` -/

theorem get_inv (fuel : Nat) (h h1 : TLSChunkHolder) (g g1 : GlobalContext) (chunk : Nat)
    (hq : g.Queue.Inv) (hg : h.get fuel g = some (chunk, h1, g1)) :
    g1.Queue.Inv ∧ g1.Queue.Size = g.Queue.Size := by
  have b := get_balanced fuel h h1 g g1 chunk hq hg
  exact ⟨b.1, b.2.1⟩

theorem reset_inv (fuel : Nat) (h h1 : TLSChunkHolder) (g g1 : GlobalContext) (chunk : Nat)
    (hq : g.Queue.Inv) (hg : h.reset fuel g = some (chunk, h1, g1)) :
    g1.Queue.Inv ∧ g1.Queue.Size = g.Queue.Size := by
  unfold TLSChunkHolder.reset at hg
  dsimp only at hg
  cases hq1 : (if h.Chunk ≠ 0 then (g.Queue.enqueue fuel h.Chunk).map (fun r => r.2)
      else some g.Queue) with
  | none =>
    rw [hq1] at hg
    simp at hg
  | some q1 =>
    rw [hq1] at hg
    dsimp only at hg
    have hput : q1.Inv ∧ q1.Size = g.Queue.Size := by
      by_cases h0 : h.Chunk = 0
      · simp only [h0, ne_eq, not_true_eq_false, if_false, Option.some.injEq] at hq1
        rw [← hq1]
        exact ⟨hq, rfl⟩
      · simp only [ne_eq, h0, not_false_eq_true, if_true, Option.map_eq_some'] at hq1
        obtain ⟨⟨b, q⟩, henq, rfl⟩ := hq1
        obtain ⟨hi1, _, _, _, hsz, _⟩ := enqueue_inv fuel g.Queue h.Chunk b q hq h0 henq
        exact ⟨hi1, hsz⟩
    obtain ⟨hi1, hs1⟩ := hput
    split at hg
    · simp at hg
    · rename_i e q2 hdq
      obtain ⟨hi2, _, _, _, hsz, _⟩ := dequeue_inv fuel q1 e q2 hi1 hdq
      split at hg <;>
      · simp only [Option.some.injEq, Prod.mk.injEq] at hg
        obtain ⟨_, _, rfl⟩ := hg
        exact ⟨hi2, hsz.trans hs1⟩

theorem init_inv (fuel : Nat) (s s1 : State) (len : Nat) (oc : Option CallContext)
    (g : GlobalContext) (hs : s.GlobalCtx = some g) (hq : g.Queue.Inv)
    (h : CallContext.init fuel s len = some (oc, s1)) :
    ∃ g1, s1.GlobalCtx = some g1 ∧ g1.Queue.Inv ∧
      g1.Queue.Size = g.Queue.Size ∧ (∀ c, oc = some c → c.GCtx = g1) := by
  unfold CallContext.init at h
  rw [hs] at h
  simp only at h
  split at h
  · simp only [Option.some.injEq, Prod.mk.injEq] at h
    obtain ⟨rfl, rfl⟩ := h
    exact ⟨g, hs, hq, rfl, by simp⟩
  · split at h
    · simp at h
    · rename_i chunk h1 g1 hget
      obtain ⟨t1, z1⟩ := get_inv fuel _ _ _ _ _ hq hget
      split at h
      · simp only [Option.some.injEq, Prod.mk.injEq] at h
        obtain ⟨rfl, rfl⟩ := h
        exact ⟨g1, rfl, t1, z1, by simp⟩
      · split at h
        · split at h
          · simp at h
          · rename_i chunk2 h2 g2 hreset
            obtain ⟨t2, z2⟩ := reset_inv fuel _ _ _ _ _ t1 hreset
            split at h
            · simp only [Option.some.injEq, Prod.mk.injEq] at h
              obtain ⟨rfl, rfl⟩ := h
              exact ⟨g2, rfl, t2, z2.trans z1, by simp⟩
            · split at h
              · simp only [Option.some.injEq, Prod.mk.injEq] at h
                obtain ⟨rfl, rfl⟩ := h
                exact ⟨g2, rfl, t2, z2.trans z1, by simp⟩
              · simp only [Option.some.injEq, Prod.mk.injEq] at h
                obtain ⟨rfl, rfl⟩ := h
                refine ⟨_, rfl, ?_, ?_, ?_⟩
                · simp only [CallContext.place]
                  exact t2
                · simp only [CallContext.place]
                  exact z2.trans z1
                · intro c hc
                  simp only [Option.some.injEq] at hc
                  rw [← hc]
        · simp only [Option.some.injEq, Prod.mk.injEq] at h
          obtain ⟨rfl, rfl⟩ := h
          refine ⟨_, rfl, ?_, ?_, ?_⟩
          · simp only [CallContext.place]
            exact t1
          · simp only [CallContext.place]
            exact z1
          · intro c hc
            simp only [Option.some.injEq] at hc
            rw [← hc]

theorem init_total (fuel : Nat) (s : State) (len : Nat) (g : GlobalContext)
    (hs : s.GlobalCtx = some g) (hq : g.Queue.Inv) (hf : 2 * g.Queue.Size ≤ fuel) :
    ∃ oc s1, CallContext.init fuel s len = some (oc, s1) := by
  unfold CallContext.init
  rw [hs]
  dsimp only
  split
  · exact ⟨_, _, rfl⟩
  · obtain ⟨chunk, h1, g1, hget⟩ := get_total fuel s.CurrentChunk g hq hf
    obtain ⟨t1, z1⟩ := get_inv fuel _ _ _ _ _ hq hget
    rw [hget]
    dsimp only
    split
    · exact ⟨_, _, rfl⟩
    · split
      · obtain ⟨chunk2, h2, g2, hreset⟩ := reset_total fuel h1 g1 t1 (by rw [z1]; exact hf)
        rw [hreset]
        dsimp only
        split
        · exact ⟨_, _, rfl⟩
        · split
          · exact ⟨_, _, rfl⟩
          · exact ⟨_, _, rfl⟩
      · exact ⟨_, _, rfl⟩

theorem ptr_align_up_mod (v : Nat) :
    ptr_align_up RECORD_ALIGNMENT v = (v + 15) % WORD / 16 * 16 := by
  unfold ptr_align_up RECORD_ALIGNMENT
  simp only [WORD] at *
  rw [show (16 - 1 : Nat) = 15 by norm_num]
  exact land_mask _ (Nat.mod_lt _ (by norm_num))

/-- Zeroing the prefix slot of a freshly reset chunk leaves its header, hence its fill
point, as `reset` stored it. -/
theorem fresh_fill_point_kept (m : Memory) (chunk : Nat) :
    MemoryBufferChunk.get_fill_point
      (memset (MemoryBufferChunk.reset m chunk)
        (MemoryBufferChunk.get_fill_point (MemoryBufferChunk.reset m chunk) chunk) 0 16) chunk =
      MemoryBufferChunk.get_fill_point (MemoryBufferChunk.reset m chunk) chunk := by
  have hW : WORD = 18446744073709551616 := by simp [WORD]
  have hv : ptr_align_up RECORD_ALIGNMENT (chunk + sizeof_MemoryBufferChunk) < WORD := by
    rw [ptr_align_up_mod, hW]
    omega
  have hfp : MemoryBufferChunk.get_fill_point (MemoryBufferChunk.reset m chunk) chunk =
      ptr_align_up RECORD_ALIGNMENT (chunk + sizeof_MemoryBufferChunk) := by
    unfold MemoryBufferChunk.get_fill_point MemoryBufferChunk.reset
    exact load_store_ptr _ _ _ hv
  have key : MemoryBufferChunk.get_fill_point
      (memset (MemoryBufferChunk.reset m chunk)
        (ptr_align_up RECORD_ALIGNMENT (chunk + sizeof_MemoryBufferChunk)) 0 16) chunk =
      MemoryBufferChunk.get_fill_point (MemoryBufferChunk.reset m chunk) chunk := by
    unfold MemoryBufferChunk.get_fill_point
    apply load_ptr_congr
    intro k hk
    apply memset_other
    rw [ptr_align_up_mod, hW]
    simp only [sizeof_MemoryBufferChunk]
    omega
  rw [hfp, key]
  exact hfp

/-- After a successful `reset_chunk(W)` the budget of the chunk acquired is at least `W`. -/
theorem reset_chunk_cap (fuel : Nat) (c c1 : CallContext) (h : TLSChunkHolder) (W : Nat)
    (s1 : State) (hq : c.GCtx.Queue.Inv) (hW16 : W + 16 < WORD)
    (hr : c.reset_chunk fuel h W = some (some c1, s1)) :
    W ≤ c1.space_available_for_record ∧ c1.GCtx.Queue.Inv ∧
      c1.GCtx.Queue.Size = c.GCtx.Queue.Size := by
  have hW : WORD = 18446744073709551616 := by simp [WORD]
  unfold CallContext.reset_chunk at hr
  split at hr
  · simp at hr
  · rename_i chunk h2 g2 hreset
    obtain ⟨t2, z2⟩ := reset_inv fuel _ _ _ _ _ hq hreset
    split at hr
    · simp at hr
    · rename_i hne
      have hb := holder_reset_bytes fuel _ _ _ _ _ hreset hne
      split at hr
      · simp at hr
      · rename_i hos
        simp only [Option.some.injEq, Prod.mk.injEq] at hr
        obtain ⟨rfl, rfl⟩ := hr
        refine ⟨?_, by simp only [CallContext.place]; exact t2, ?_⟩
        · have hkeep := fresh_fill_point_kept c.GCtx.bytes chunk
          rw [← hb] at hkeep
          simp only [CallContext.space_available_for_record, CallContext.place,
            MemoryBufferChunk.available_space, hkeep, RECORD_PREFIX_SIZE]
          simp only [MemoryBufferChunk.out_of_space, RECORD_PREFIX_SIZE, Bool.not_eq_true,
            decide_eq_false_iff_not, not_lt, gt_iff_lt] at hos
          rw [Nat.mod_eq_of_lt hW16] at hos
          have hA : (g2.ChunkSize + chunk + WORD -
              MemoryBufferChunk.get_fill_point g2.bytes chunk % WORD) % WORD < WORD :=
            Nat.mod_lt _ (by simp [WORD])
          generalize (g2.ChunkSize + chunk + WORD -
            MemoryBufferChunk.get_fill_point g2.bytes chunk % WORD) % WORD = A at hos hA ⊢
          rw [hW] at hA hW16 ⊢
          omega
        · simp only [CallContext.place]
          exact z2

theorem reset_chunk_total (fuel : Nat) (c : CallContext) (h : TLSChunkHolder) (W : Nat)
    (hq : c.GCtx.Queue.Inv) (hf : 2 * c.GCtx.Queue.Size ≤ fuel) :
    ∃ oc s1, c.reset_chunk fuel h W = some (oc, s1) := by
  unfold CallContext.reset_chunk
  obtain ⟨chunk2, h2, g2, hreset⟩ := reset_total fuel h c.GCtx hq hf
  rw [hreset]
  dsimp only
  split
  · exact ⟨_, _, rfl⟩
  · split
    · exact ⟨_, _, rfl⟩
    · exact ⟨_, _, rfl⟩

theorem again_unfold (rounds fuel : Nat) (ctx : CallContext) (h : TLSChunkHolder)
    (rendering : Option (List Nat)) :
    format_write_again (rounds + 1) fuel ctx h rendering =
      if (vsnprintf ctx.GCtx.bytes ctx.RecordPlace ctx.space_available_for_record
          rendering).2 < 0 then
        some (false, { GlobalCtx := some { ctx.GCtx with bytes :=
          (vsnprintf ctx.GCtx.bytes ctx.RecordPlace ctx.space_available_for_record
            rendering).1 }, CurrentChunk := h })
      else if (vsnprintf ctx.GCtx.bytes ctx.RecordPlace ctx.space_available_for_record
          rendering).2.toNat > ctx.space_available_for_record then
        (match CallContext.reset_chunk fuel
            { ctx with GCtx := { ctx.GCtx with bytes :=
              (vsnprintf ctx.GCtx.bytes ctx.RecordPlace ctx.space_available_for_record
                rendering).1 } } h
            (vsnprintf ctx.GCtx.bytes ctx.RecordPlace ctx.space_available_for_record
              rendering).2.toNat with
        | none => none
        | some (none, s1) => some (false, s1)
        | some (some ctx1, s1) => format_write_again rounds fuel ctx1 s1.CurrentChunk rendering)
      else
        some (true, { GlobalCtx := some { ctx.GCtx with bytes :=
          (MemoryBufferChunk.fill_up_to
            (CallContext.write_prefix ctx
              (vsnprintf ctx.GCtx.bytes ctx.RecordPlace ctx.space_available_for_record
                rendering).1)
            ctx.Chunk
            (ctx.RecordPlace +
              (vsnprintf ctx.GCtx.bytes ctx.RecordPlace ctx.space_available_for_record
                rendering).2.toNat)) }, CurrentChunk := h }) := by
  rfl

/-- The renderer is deterministic: the length `vsnprintf` returns depends on the format
and its arguments only, and is an `int`. -/
theorem vsnprintf_length (m m1 : Memory) (str str1 size size1 : Nat)
    (rendering : Option (List Nat)) :
    (vsnprintf m str size rendering).2 = (vsnprintf m1 str1 size1 rendering).2 ∧
    (vsnprintf m str size rendering).2.toNat ≤ INT_MAX := by
  unfold vsnprintf
  cases rendering with
  | none => exact ⟨rfl, by simp [INT_MAX]⟩
  | some text =>
    dsimp only
    by_cases hl : text.length > INT_MAX
    · rw [if_pos hl, if_pos hl]
      exact ⟨rfl, by simp [INT_MAX]⟩
    · have hle : text.length ≤ INT_MAX := by omega
      rw [if_neg hl, if_neg hl]
      constructor
      · split <;> split <;> rfl
      · split <;> simpa using hle

/-- From the label `again`, `format_write` ends within two passes: the second pass, made
after a successful `reset_chunk`, commits. -/
theorem again_within_two (fuel : Nat) (rendering : Option (List Nat)) (ctx : CallContext)
    (h : TLSChunkHolder) (hq : ctx.GCtx.Queue.Inv) (hf : 2 * ctx.GCtx.Queue.Size ≤ fuel) :
    (∃ res, format_write_again 2 fuel ctx h rendering = some res) ∧
    ∀ k, format_write_again (k + 2) fuel ctx h rendering =
      format_write_again 2 fuel ctx h rendering := by
  have hW : WORD = 18446744073709551616 := by simp [WORD]
  have hint : INT_MAX = 2147483647 := rfl
  have hlen := vsnprintf_length ctx.GCtx.bytes ctx.GCtx.bytes ctx.RecordPlace ctx.RecordPlace
    ctx.space_available_for_record ctx.space_available_for_record rendering
  have key : ∀ j, format_write_again (j + 2) fuel ctx h rendering =
      format_write_again (0 + 2) fuel ctx h rendering ∧
      ∃ res, format_write_again (j + 2) fuel ctx h rendering = some res := by
    intro j
    rw [again_unfold (j + 1), again_unfold (0 + 1)]
    by_cases hneg : (vsnprintf ctx.GCtx.bytes ctx.RecordPlace ctx.space_available_for_record
        rendering).2 < 0
    · rw [if_pos hneg, if_pos hneg]
      exact ⟨rfl, _, rfl⟩
    · rw [if_neg hneg, if_neg hneg]
      by_cases hbig : (vsnprintf ctx.GCtx.bytes ctx.RecordPlace
          ctx.space_available_for_record rendering).2.toNat > ctx.space_available_for_record
      · rw [if_pos hbig, if_pos hbig]
        obtain ⟨oc, s1, hr⟩ := reset_chunk_total fuel
          { ctx with GCtx := { ctx.GCtx with bytes :=
            (vsnprintf ctx.GCtx.bytes ctx.RecordPlace ctx.space_available_for_record
              rendering).1 } } h
          (vsnprintf ctx.GCtx.bytes ctx.RecordPlace ctx.space_available_for_record
            rendering).2.toNat (by exact hq) (by exact hf)
        rw [hr]
        cases oc with
        | none => exact ⟨rfl, _, rfl⟩
        | some ctx1 =>
          dsimp only
          obtain ⟨hcap, _, _⟩ := reset_chunk_cap fuel _ ctx1 h _ s1 (by exact hq)
            (by rw [hW]; have := hlen.2; rw [hint] at this; omega) hr
          have hsame := (vsnprintf_length ctx1.GCtx.bytes ctx.GCtx.bytes ctx1.RecordPlace
            ctx.RecordPlace ctx1.space_available_for_record ctx.space_available_for_record
            rendering).1
          have hcommit : ∀ i, ∃ res, format_write_again (i + 1) fuel ctx1 s1.CurrentChunk
              rendering = some res ∧ format_write_again (0 + 1) fuel ctx1 s1.CurrentChunk
              rendering = some res := by
            intro i
            rw [again_unfold i, again_unfold 0]
            rw [if_neg (by rw [hsame]; exact hneg), if_neg (by rw [hsame]; omega),
              if_neg (by rw [hsame]; exact hneg), if_neg (by rw [hsame]; omega)]
            exact ⟨_, rfl, rfl⟩
          obtain ⟨res, e1, e2⟩ := hcommit j
          rw [e1, e2]
          exact ⟨rfl, _, rfl⟩
      · rw [if_neg hbig, if_neg hbig]
        exact ⟨rfl, _, rfl⟩
  exact ⟨(key 0).2, fun k => (key k).1⟩

/-- A render attempt whose text fits the budget commits, whatever the number of passes
still allowed. -/
theorem attempt_commits (fuel : Nat) (c : CallContext) (h : TLSChunkHolder) (text : List Nat)
    (hl : text.length ≤ INT_MAX) (hcap : text.length ≤ c.space_available_for_record) :
    ∃ s2, ∀ k, format_write_again (k + 1) fuel c h (some text) = some (true, s2) := by
  have hv : (vsnprintf c.GCtx.bytes c.RecordPlace c.space_available_for_record
      (some text)).2 = (text.length : Int) := by
    unfold vsnprintf
    dsimp only
    rw [if_neg (by omega)]
    split <;> rfl
  have h0 : ∃ s2, format_write_again (0 + 1) fuel c h (some text) = some (true, s2) := by
    rw [again_unfold 0, if_neg (by rw [hv]; omega), if_neg (by rw [hv]; simpa using hcap)]
    exact ⟨_, rfl⟩
  obtain ⟨s2, h0⟩ := h0
  refine ⟨s2, fun k => ?_⟩
  rw [again_unfold 0, if_neg (by rw [hv]; omega), if_neg (by rw [hv]; simpa using hcap)] at h0
  rw [again_unfold k, if_neg (by rw [hv]; omega), if_neg (by rw [hv]; simpa using hcap)]
  exact h0

set_option maxRecDepth 100000 in
/-- C22, counterexample: two chunk rotations in one call. After `initialize(384, 128)`
and two writes of 20 bytes the thread holds the chunk 4096 with 16 bytes left.
`format_write` of a text of 100 bytes: `init(2)` finds the chunk out of space and rotates
to the chunk 4224 (first rotation), the render attempt returns `W = 100 > cap = 96`, and
`reset_chunk(100)` rotates again, to the chunk 4352 (second rotation), before it rejects
the record; the call returns false after one render attempt, the ring has enqueued two
chunks (`Tail` went from 3 to 5) and the holder holds the third chunk. -/
theorem C22_two_rotations_in_one_call :
    text_100.length = 100 ∧
    (log_384_128_chunk_used.CurrentChunk.Chunk, log_384_128_chunk_used.fill_point,
      log_384_128_chunk_used.GlobalCtx.map (fun g => (g.Queue.Tail, g.Queue.stored))) =
      (4096, 4096 + 112, some (3, [4224, 4352])) ∧
    (CallContext.init 6 log_384_128_chunk_used 2).map
      (fun r => (r.1.map (fun c => (c.Chunk, c.space_available_for_record)),
        r.2.CurrentChunk.Chunk)) = some (some (4224, 96), 4224) ∧
    (format_write 1 6 log_384_128_chunk_used (some text_100)).map
      (fun r => (r.1, r.2.CurrentChunk.Chunk,
        r.2.GlobalCtx.map (fun g => (g.Queue.Tail, g.Queue.stored)))) =
      some (false, 4352, some (5, [4096, 4224])) := by
  refine ⟨rfl, rfl, rfl, rfl⟩

/-- C22 (amended): for a deterministic renderer (the rendered text, hence its length `W`,
is the same at every attempt) and a ring in sequential use, every `format_write` call
returns after at most two render attempts: two passes through the label `again` give the
result, and allowing more passes changes nothing. `reset_chunk`, the rotation of the
`again` loop, runs only between the two attempts, hence at most once (the rotation that
`init(2)` may make before the first attempt comes on top); and if `reset_chunk(W)`
succeeds, the budget `cap = available - 16` of the chunk acquired satisfies `W ≤ cap`,
so the second attempt commits and never jumps back to `again`. -/
theorem C22_format_write_within_two_attempts (fuel : Nat) (s : State)
    (rendering : Option (List Nat))
    (hq : ∀ g, s.GlobalCtx = some g → g.Queue.Inv ∧ 2 * g.Queue.Size ≤ fuel) :
    (∃ r s', format_write 2 fuel s rendering = some (r, s')) ∧
    (∀ k, format_write (k + 2) fuel s rendering = format_write 2 fuel s rendering) ∧
    (∀ (c c1 : CallContext) (h : TLSChunkHolder) (text : List Nat) (s1 : State),
      c.GCtx.Queue.Inv → text.length ≤ INT_MAX →
      c.reset_chunk fuel h text.length = some (some c1, s1) →
      text.length ≤ c1.space_available_for_record ∧
      ∃ s2, ∀ k, format_write_again (k + 1) fuel c1 s1.CurrentChunk (some text) =
        some (true, s2)) := by
  have hW : WORD = 18446744073709551616 := by simp [WORD]
  have hint : INT_MAX = 2147483647 := rfl
  refine ⟨?_, ?_, ?_⟩
  · cases hs : s.GlobalCtx with
    | none => exact ⟨false, s, by simp [format_write, CallContext.init, hs]⟩
    | some g =>
      obtain ⟨hi, hf⟩ := hq g hs
      obtain ⟨oc, s1, hinit⟩ := init_total fuel s 2 g hs hi hf
      obtain ⟨g1, _, hi1, hz1, hc⟩ := init_inv fuel s s1 2 oc g hs hi hinit
      cases oc with
      | none => exact ⟨false, s1, by simp only [format_write, hinit]⟩
      | some ctx =>
        have e := hc ctx rfl
        obtain ⟨⟨r, s'⟩, hres⟩ := (again_within_two fuel rendering ctx s1.CurrentChunk
          (by rw [e]; exact hi1) (by rw [e, hz1]; exact hf)).1
        exact ⟨r, s', by simp only [format_write, hinit, hres]⟩
  · intro k
    cases hs : s.GlobalCtx with
    | none => simp [format_write, CallContext.init, hs]
    | some g =>
      obtain ⟨hi, hf⟩ := hq g hs
      obtain ⟨oc, s1, hinit⟩ := init_total fuel s 2 g hs hi hf
      obtain ⟨g1, _, hi1, hz1, hc⟩ := init_inv fuel s s1 2 oc g hs hi hinit
      cases oc with
      | none => simp only [format_write, hinit]
      | some ctx =>
        have e := hc ctx rfl
        simp only [format_write, hinit]
        exact (again_within_two fuel rendering ctx s1.CurrentChunk
          (by rw [e]; exact hi1) (by rw [e, hz1]; exact hf)).2 k
  · intro c c1 h text s1 hi hl hr
    obtain ⟨hcap, _, _⟩ := reset_chunk_cap fuel c c1 h text.length s1 hi
      (by rw [hW]; rw [hint] at hl; omega) hr
    exact ⟨hcap, attempt_commits fuel c1 s1.CurrentChunk text hl hcap⟩

theorem C22_format_write_within_two_attempts_witness :
    (∀ g, log_256_128.GlobalCtx = some g → g.Queue.Inv ∧ 2 * g.Queue.Size ≤ 4) ∧
    ((∃ r s', format_write 2 4 log_256_128 (some love_me_text) = some (r, s')) ∧
    (∀ k, format_write (k + 2) 4 log_256_128 (some love_me_text) =
      format_write 2 4 log_256_128 (some love_me_text)) ∧
    (∀ (c c1 : CallContext) (h : TLSChunkHolder) (text : List Nat) (s1 : State),
      c.GCtx.Queue.Inv → text.length ≤ INT_MAX →
      c.reset_chunk 4 h text.length = some (some c1, s1) →
      text.length ≤ c1.space_available_for_record ∧
      ∃ s2, ∀ k, format_write_again (k + 1) 4 c1 s1.CurrentChunk (some text) =
        some (true, s2))) :=
  have hq : ∀ g, log_256_128.GlobalCtx = some g → g.Queue.Inv ∧ 2 * g.Queue.Size ≤ 4 := by
    intro g hg
    have hA := log_256_128_aligned g hg
    refine ⟨hA.ring, ?_⟩
    simp only [log_256_128, Option.some.injEq] at hg
    subst hg
    decide
  ⟨hq, C22_format_write_within_two_attempts 4 log_256_128 (some love_me_text) hq⟩

/-! ## The states one thread reaches on a log with an aligned geometry -/

theorem fresh_context_sole_user (a : Allocation) (total_buffer_size chunk_size : Nat)
    (hgeo : valid_geometry total_buffer_size chunk_size) (hb : 0 < a.base) :
    (fresh_context a total_buffer_size chunk_size).sole_user { Chunk := 0 } := by
  obtain ⟨h1, h2, _⟩ := hgeo
  have hN : 0 < total_buffer_size / chunk_size :=
    Nat.div_pos h2 (by omega)
  refine ⟨by simpa [fresh_context, chunk_ring] using hN, ?_⟩
  show (chunk_ring a.base chunk_size (total_buffer_size / chunk_size)
    (total_buffer_size / chunk_size)).stored.length + 0 = total_buffer_size / chunk_size
  rw [chunk_ring_full_stored _ _ _ hb]
  simp

theorem write_sole_user (fuel : Nat) (s s' : State) (buf : Nat → Nat) (len : Nat) (r : Bool)
    (g : GlobalContext) (hs : s.GlobalCtx = some g) (hq : g.Queue.Inv)
    (hu : g.sole_user s.CurrentChunk) (h : write fuel s buf len = some (r, s')) :
    ∃ g', s'.GlobalCtx = some g' ∧ g'.sole_user s'.CurrentChunk := by
  obtain ⟨g', hg', b⟩ := write_balanced fuel s s' buf len r g hs hq (Nat.le_of_eq hu.2) h
  have hcard := congrArg Multiset.card b.2.2
  simp only [Multiset.card_add, Multiset.coe_card] at hcard
  exact ⟨g', hg', by rw [b.2.1]; exact hu.1, by rw [b.2.1, hcard]; exact hu.2⟩

/-- Every state that one thread reaches by `write` calls on a freshly initialized log with
an aligned geometry satisfies the invariants of such a log. -/
theorem writes_keep_invariants (fuel : Nat) (ws : List ((Nat → Nat) × Nat)) :
    ∀ (s s' : State) (rs : List Bool) (g : GlobalContext), s.GlobalCtx = some g →
      g.Aligned s.CurrentChunk → g.sole_user s.CurrentChunk →
      writes fuel s ws = some (rs, s') →
      ∃ g', s'.GlobalCtx = some g' ∧ g'.Aligned s'.CurrentChunk ∧
        g'.sole_user s'.CurrentChunk ∧ g'.ChunkSize = g.ChunkSize ∧
        g'.Queue.Size = g.Queue.Size := by
  induction ws with
  | nil =>
    intro s s' rs g hg hA hu h
    simp only [writes, Option.some.injEq, Prod.mk.injEq] at h
    rw [← h.2]
    exact ⟨g, hg, hA, hu, rfl, rfl⟩
  | cons w ws ih =>
    intro s s' rs g hg hA hu h
    obtain ⟨buf, len⟩ := w
    simp only [writes] at h
    split at h
    · simp at h
    · rename_i r s1 hw
      split at h
      · simp at h
      · rename_i rs2 s2 hws
        simp only [Option.some.injEq, Prod.mk.injEq] at h
        rw [← h.2]
        have hSA : s.Aligned := by
          intro g0 hg0
          rw [hg] at hg0
          simp only [Option.some.injEq] at hg0
          rw [← hg0]
          exact hA
        obtain ⟨g1, hg1, b⟩ := write_balanced fuel s s1 buf len r g hg hA.ring
          (Nat.le_of_eq hu.2) hw
        obtain ⟨_, hu1⟩ := write_sole_user fuel s s1 buf len r g hg hA.ring hu hw
        obtain ⟨g1', hg1', hu1'⟩ := write_sole_user fuel s s1 buf len r g hg hA.ring hu hw
        rw [hg1] at hg1'
        simp only [Option.some.injEq] at hg1'
        subst hg1'
        have hA1 := (write_aligned fuel s s1 buf len r hSA hw).1 g1 hg1
        obtain ⟨_, hgeo⟩ := write_geometry fuel s s1 buf len r hw
        obtain ⟨g1'', hg1'', _, e2, _⟩ := hgeo g hg
        rw [hg1] at hg1''
        simp only [Option.some.injEq] at hg1''
        subst hg1''
        obtain ⟨g', hg', hA', hu', e', z'⟩ := ih s1 s2 rs2 g1 hg1 hA1 hu1' hws
        exact ⟨g', hg', hA', hu', e'.trans e2, z'.trans b.2.1⟩

theorem C23_exact_size_limit_witness :
    log_256_128.GlobalCtx = some (fresh_context (zeroed_block 4096) 256 128) ∧
    (fresh_context (zeroed_block 4096) 256 128).Aligned log_256_128.CurrentChunk ∧
    (fresh_context (zeroed_block 4096) 256 128).sole_user log_256_128.CurrentChunk ∧
    2 * (fresh_context (zeroed_block 4096) 256 128).Queue.Size ≤ 4 ∧
    ∃ r s', write 4 log_256_128 (fun _ => 97) 112 = some (r, s') ∧
      (r = true ↔ 112 + 32 ≤ (fresh_context (zeroed_block 4096) 256 128).ChunkSize) ∧
      ((fresh_context (zeroed_block 4096) 256 128).ChunkSize - 32 < 112 →
        112 ≤ (fresh_context (zeroed_block 4096) 256 128).ChunkSize - 16 →
        ¬ 112 > ((fresh_context (zeroed_block 4096) 256 128).ChunkSize + WORD -
          RECORD_PREFIX_SIZE) % WORD ∧
        ∃ chunk1 h1 g1 chunk2 h2 g2,
          log_256_128.CurrentChunk.get 4 (fresh_context (zeroed_block 4096) 256 128) =
            some (chunk1, h1, g1) ∧ chunk1 ≠ 0 ∧
          MemoryBufferChunk.out_of_space g1.bytes chunk1 g1.ChunkSize 112 = true ∧
          h1.reset 4 g1 = some (chunk2, h2, g2) ∧ chunk2 ≠ 0 ∧
          MemoryBufferChunk.get_fill_point g2.bytes chunk2 = chunk2 + 16 ∧
          MemoryBufferChunk.out_of_space g2.bytes chunk2 g2.ChunkSize 112 = true ∧
          s' = { GlobalCtx := some g2, CurrentChunk := h2 } ∧ h2.Chunk = chunk2) :=
  have hA := log_256_128_aligned (fresh_context (zeroed_block 4096) 256 128) rfl
  have hu : (fresh_context (zeroed_block 4096) 256 128).sole_user log_256_128.CurrentChunk :=
    fresh_context_sole_user (zeroed_block 4096) 256 128 (by decide) (by decide)
  ⟨rfl, hA, hu, by decide,
    C23_exact_size_limit 4 log_256_128 (fresh_context (zeroed_block 4096) 256 128)
      (fun _ => 97) 112 rfl hA hu (by decide)⟩

theorem aligned_of_header (g : GlobalContext) (h : TLSChunkHolder) (m : Memory)
    (hA : g.Aligned h)
    (hm : h.Chunk ≠ 0 → ∀ k, k < 8 → m (h.Chunk + k) = g.bytes (h.Chunk + k)) :
    ({ g with bytes := m } : GlobalContext).Aligned h := by
  refine ⟨hA.geometry, hA.chunk_aligned, hA.base_aligned, hA.base_pos, hA.in_space, hA.ring,
    fun p hp => (is_chunk_congr g _ p rfl rfl rfl).mpr (hA.ring_chunks p hp), fun hne => ?_⟩
  obtain ⟨hc, hf⟩ := hA.held hne
  refine ⟨(is_chunk_congr g _ _ rfl rfl rfl).mpr hc, ?_⟩
  unfold GlobalContext.fill_in_chunk MemoryBufferChunk.get_fill_point at hf ⊢
  simp only
  rw [load_ptr_congr g.bytes m h.Chunk (hm hne)]
  exact hf

theorem vsnprintf_other (m : Memory) (str size : Nat) (rendering : Option (List Nat)) (a : Nat)
    (ha : a < str ∨ str + size ≤ a) : (vsnprintf m str size rendering).1 a = m a := by
  unfold vsnprintf
  cases rendering with
  | none => rfl
  | some text =>
    dsimp only
    split
    · rfl
    · split
      · rfl
      · rename_i hz
        dsimp only
        rw [memset_other _ _ _ _ _ (by omega), memcpy_other _ _ _ _ _ (by omega)]

theorem reset_chunk_aligned (fuel : Nat) (c : CallContext) (h : TLSChunkHolder) (W : Nat)
    (oc : Option CallContext) (s1 : State) (hA : c.GCtx.Aligned h) (hW16 : W + 16 < WORD)
    (hr : c.reset_chunk fuel h W = some (oc, s1)) :
    (oc = none → s1.Aligned) ∧
    (∀ c1, oc = some c1 → ∃ g2, g2.Aligned s1.CurrentChunk ∧ s1.CurrentChunk.Chunk ≠ 0 ∧
      c1 = CallContext.place g2 s1.CurrentChunk.Chunk ∧
      MemoryBufferChunk.get_fill_point g2.bytes s1.CurrentChunk.Chunk + 16 ≤
        s1.CurrentChunk.Chunk + g2.ChunkSize) := by
  have hW : WORD = 18446744073709551616 := by simp [WORD]
  unfold CallContext.reset_chunk at hr
  split at hr
  · simp at hr
  · rename_i chunk h2 g2 hreset
    obtain ⟨hA2, hch2⟩ := holder_reset_aligned fuel _ _ _ _ _ hA hreset
    split at hr
    · simp only [Option.some.injEq, Prod.mk.injEq] at hr
      obtain ⟨rfl, rfl⟩ := hr
      refine ⟨fun _ => ?_, by simp⟩
      intro g' hg'
      simp only [Option.some.injEq] at hg'
      subst hg'
      exact hA2
    · rename_i hne
      split at hr
      · simp only [Option.some.injEq, Prod.mk.injEq] at hr
        obtain ⟨rfl, rfl⟩ := hr
        refine ⟨fun _ => ?_, by simp⟩
        intro g' hg'
        simp only [Option.some.injEq] at hg'
        subst hg'
        exact hA2
      · rename_i hos
        simp only [Option.some.injEq, Prod.mk.injEq] at hr
        obtain ⟨rfl, rfl⟩ := hr
        refine ⟨by simp, fun c1 hc1 => ?_⟩
        simp only [Option.some.injEq] at hc1
        subst hc1
        have hne2 : h2.Chunk ≠ 0 := by rw [hch2]; exact hne
        refine ⟨g2, hA2, hne2, by rw [hch2], ?_⟩
        obtain ⟨hchunk, hfill⟩ := hA2.held hne2
        obtain ⟨c1, c2, c3, c4, c5⟩ := is_chunk_facts g2 h2.Chunk hA2.geometry
          hA2.chunk_aligned hA2.base_aligned hA2.base_pos hchunk
        have hin := hA2.in_space
        unfold GlobalContext.fill_in_chunk at hfill
        obtain ⟨f1, f2, f3⟩ := hfill
        simp only [MemoryBufferChunk.out_of_space, RECORD_PREFIX_SIZE, Bool.not_eq_true,
          decide_eq_false_iff_not, not_lt, gt_iff_lt] at hos
        rw [Nat.mod_eq_of_lt hW16, ← hch2] at hos
        dsimp only
        generalize MemoryBufferChunk.get_fill_point g2.bytes h2.Chunk = fp at f1 f2 f3 hos ⊢
        rw [hW] at hin hW16 hos
        omega

theorem fill_up_to_aligned (g : GlobalContext) (h : TLSChunkHolder) (m : Memory) (v : Nat)
    (hA : g.Aligned h) (hne : h.Chunk ≠ 0) (hv1 : h.Chunk + 16 ≤ v)
    (hv2 : v ≤ h.Chunk + g.ChunkSize) :
    ({ g with bytes := MemoryBufferChunk.fill_up_to m h.Chunk v } : GlobalContext).Aligned h := by
  have hW : WORD = 18446744073709551616 := by simp [WORD]
  obtain ⟨hchunk, _⟩ := hA.held hne
  obtain ⟨c1, c2, c3, c4, c5⟩ := is_chunk_facts g h.Chunk hA.geometry hA.chunk_aligned
    hA.base_aligned hA.base_pos hchunk
  have hin := hA.in_space
  have hc16 := hA.chunk_aligned
  simp only [RECORD_ALIGNMENT] at hc16
  rw [hW] at hin
  have hv : v + 15 < WORD := by
    rw [hW]
    omega
  simp only [MemoryBufferChunk.fill_up_to]
  rw [ptr_align_up_eq _ hv]
  refine ⟨hA.geometry, hA.chunk_aligned, hA.base_aligned, hA.base_pos, hA.in_space,
    hA.ring, fun p hp => (is_chunk_congr g _ p rfl rfl rfl).mpr (hA.ring_chunks p hp),
    fun _ => ⟨(is_chunk_congr g _ _ rfl rfl rfl).mpr hchunk, ?_⟩⟩
  unfold GlobalContext.fill_in_chunk MemoryBufferChunk.get_fill_point
  simp only [RECORD_ALIGNMENT]
  rw [load_store_ptr _ _ _ (by rw [hW]; omega)]
  omega

theorem again_aligned (fuel : Nat) (rendering : Option (List Nat)) :
    ∀ (rounds : Nat) (g1 : GlobalContext) (h : TLSChunkHolder) (r : Bool) (s' : State),
      g1.Aligned h → h.Chunk ≠ 0 →
      MemoryBufferChunk.get_fill_point g1.bytes h.Chunk + 16 ≤ h.Chunk + g1.ChunkSize →
      format_write_again rounds fuel (CallContext.place g1 h.Chunk) h rendering =
        some (r, s') →
      s'.Aligned := by
  have hW : WORD = 18446744073709551616 := by simp [WORD]
  have hint : INT_MAX = 2147483647 := rfl
  intro rounds
  induction rounds with
  | zero =>
    intro g1 h r s' _ _ _ hfw
    simp [format_write_again] at hfw
  | succ n ih =>
    intro g1 h r s' hA hne hroom hfw
    obtain ⟨hchunk, hfill⟩ := hA.held hne
    obtain ⟨c1, c2, c3, c4, c5⟩ := is_chunk_facts g1 h.Chunk hA.geometry hA.chunk_aligned
      hA.base_aligned hA.base_pos hchunk
    have hin := hA.in_space
    have hc16 := hA.chunk_aligned
    unfold GlobalContext.fill_in_chunk at hfill
    simp only [RECORD_ALIGNMENT] at hfill hc16
    obtain ⟨f1, f2, f3⟩ := hfill
    have hkeep : MemoryBufferChunk.get_fill_point
        (memset g1.bytes (MemoryBufferChunk.get_fill_point g1.bytes h.Chunk) 0 16) h.Chunk =
        MemoryBufferChunk.get_fill_point g1.bytes h.Chunk := by
      unfold MemoryBufferChunk.get_fill_point
      apply load_ptr_congr
      intro k hk
      exact memset_other _ _ _ _ _ (Or.inl (by
        unfold MemoryBufferChunk.get_fill_point at f2
        omega))
    have hsp : (CallContext.place g1 h.Chunk).space_available_for_record =
        h.Chunk + g1.ChunkSize - MemoryBufferChunk.get_fill_point g1.bytes h.Chunk - 16 := by
      simp only [CallContext.space_available_for_record, CallContext.place,
        MemoryBufferChunk.available_space, RECORD_PREFIX_SIZE, hkeep]
      generalize MemoryBufferChunk.get_fill_point g1.bytes h.Chunk = fp at f1 f2 f3 hroom
      rw [hW] at hin ⊢
      omega
    have hrp : (CallContext.place g1 h.Chunk).RecordPlace =
        MemoryBufferChunk.get_fill_point g1.bytes h.Chunk + 16 := by
      simp only [CallContext.place, RECORD_PREFIX_SIZE]
    have hck : (CallContext.place g1 h.Chunk).Chunk = h.Chunk := by
      simp only [CallContext.place]
    have hcs : (CallContext.place g1 h.Chunk).GCtx.ChunkSize = g1.ChunkSize := by
      simp only [CallContext.place]
    have hAc : (CallContext.place g1 h.Chunk).GCtx.Aligned h := by
      simp only [CallContext.place, RECORD_PREFIX_SIZE]
      exact aligned_of_header g1 h _ hA
        (fun _ k hk => memset_other _ _ _ _ _ (Or.inl (by omega)))
    have hlen := (vsnprintf_length (CallContext.place g1 h.Chunk).GCtx.bytes
      (CallContext.place g1 h.Chunk).GCtx.bytes (CallContext.place g1 h.Chunk).RecordPlace
      (CallContext.place g1 h.Chunk).RecordPlace
      (CallContext.place g1 h.Chunk).space_available_for_record
      (CallContext.place g1 h.Chunk).space_available_for_record rendering).2
    have hhead : ∀ k, k < 8 →
        (vsnprintf (CallContext.place g1 h.Chunk).GCtx.bytes
          (CallContext.place g1 h.Chunk).RecordPlace
          (CallContext.place g1 h.Chunk).space_available_for_record rendering).1
          (h.Chunk + k) = (CallContext.place g1 h.Chunk).GCtx.bytes (h.Chunk + k) := by
      intro k hk
      rw [vsnprintf_other _ _ _ _ _ (Or.inl (by rw [hrp]; omega))]
    rw [again_unfold] at hfw
    generalize CallContext.place g1 h.Chunk = ctx at hfw hsp hrp hck hcs hAc hlen hhead
    generalize vsnprintf ctx.GCtx.bytes ctx.RecordPlace ctx.space_available_for_record
      rendering = out at hfw hlen hhead
    have hA1 : ({ ctx.GCtx with bytes := out.1 } : GlobalContext).Aligned h :=
      aligned_of_header ctx.GCtx h out.1 hAc (fun _ => hhead)
    by_cases hneg : out.2 < 0
    · rw [if_pos hneg] at hfw
      simp only [Option.some.injEq, Prod.mk.injEq] at hfw
      obtain ⟨_, rfl⟩ := hfw
      intro g' hg'
      simp only [Option.some.injEq] at hg'
      subst hg'
      exact hA1
    · rw [if_neg hneg] at hfw
      by_cases hbig : out.2.toNat > ctx.space_available_for_record
      · rw [if_pos hbig] at hfw
        cases hreset : CallContext.reset_chunk fuel
            { ctx with GCtx := { ctx.GCtx with bytes := out.1 } } h out.2.toNat with
        | none =>
          rw [hreset] at hfw
          simp at hfw
        | some res =>
          obtain ⟨oc, s1⟩ := res
          rw [hreset] at hfw
          have hra := reset_chunk_aligned fuel _ h _ _ _ (by exact hA1)
            (by rw [hW]; omega) hreset
          cases oc with
          | none =>
            simp only [Option.some.injEq, Prod.mk.injEq] at hfw
            obtain ⟨_, rfl⟩ := hfw
            exact hra.1 rfl
          | some ctx1 =>
            obtain ⟨g2, hA2, hne2, hc2, hroom2⟩ := hra.2 ctx1 rfl
            simp only at hfw
            rw [hc2] at hfw
            exact ih g2 s1.CurrentChunk r s' hA2 hne2 hroom2 hfw
      · rw [if_neg hbig] at hfw
        simp only [Option.some.injEq, Prod.mk.injEq] at hfw
        obtain ⟨_, rfl⟩ := hfw
        rw [hsp] at hbig
        intro g' hg'
        simp only [Option.some.injEq] at hg'
        subst hg'
        rw [hck, hrp]
        refine fill_up_to_aligned ctx.GCtx h _ _ hAc hne ?_ ?_
        · omega
        · rw [hcs]
          omega

/-- On a log with an aligned geometry `format_write` keeps the invariant of such a log,
whatever it returns. -/
theorem format_write_aligned (rounds fuel : Nat) (s s' : State)
    (rendering : Option (List Nat)) (r : Bool) (hA : s.Aligned)
    (h : format_write rounds fuel s rendering = some (r, s')) : s'.Aligned := by
  have hW : WORD = 18446744073709551616 := by simp [WORD]
  cases hs : s.GlobalCtx with
  | none =>
    rw [show format_write rounds fuel s rendering = some (false, s) by
      simp [format_write, CallContext.init, hs]] at h
    simp only [Option.some.injEq, Prod.mk.injEq] at h
    obtain ⟨_, rfl⟩ := h
    exact hA
  | some g =>
    unfold format_write at h
    split at h
    · simp at h
    · rename_i s1 hinit
      simp only [Option.some.injEq, Prod.mk.injEq] at h
      obtain ⟨_, rfl⟩ := h
      exact (init_aligned fuel s _ 2 _ g hs (hA g hs) hinit).1 rfl
    · rename_i c s1 hinit
      obtain ⟨g1, h1, hA1, hne, hc, hs1, hsp, hl⟩ :=
        (init_aligned fuel s _ 2 _ g hs (hA g hs) hinit).2 c rfl
      subst hc
      subst hs1
      refine again_aligned fuel rendering rounds g1 h1 r s' hA1 hne ?_ h
      obtain ⟨hchunk, hfill⟩ := hA1.held hne
      obtain ⟨c1, c2, c3, c4, c5⟩ := is_chunk_facts g1 h1.Chunk hA1.geometry
        hA1.chunk_aligned hA1.base_aligned hA1.base_pos hchunk
      have hin := hA1.in_space
      unfold GlobalContext.fill_in_chunk at hfill
      obtain ⟨f1, f2, f3⟩ := hfill
      simp only [MemoryBufferChunk.out_of_space, RECORD_PREFIX_SIZE, decide_eq_false_iff_not,
        not_lt, gt_iff_lt] at hsp
      generalize MemoryBufferChunk.get_fill_point g1.bytes h1.Chunk = fp at f1 f2 f3 hsp ⊢
      rw [hW] at hin hsp
      omega

theorem reset_chunk_geometry (fuel : Nat) (c : CallContext) (h : TLSChunkHolder) (W : Nat)
    (oc : Option CallContext) (s1 : State)
    (hr : c.reset_chunk fuel h W = some (oc, s1)) :
    ∃ g2, s1.GlobalCtx = some g2 ∧ g2.ChunkSize = c.GCtx.ChunkSize ∧
      ∀ c1, oc = some c1 → c1.GCtx = g2 := by
  unfold CallContext.reset_chunk at hr
  split at hr
  · simp at hr
  · rename_i chunk h2 g2 hreset
    obtain ⟨_, e2, _⟩ := holder_reset_geometry fuel _ _ _ _ _ hreset
    split at hr
    · simp only [Option.some.injEq, Prod.mk.injEq] at hr
      obtain ⟨rfl, rfl⟩ := hr
      exact ⟨g2, rfl, e2, by simp⟩
    · split at hr
      · simp only [Option.some.injEq, Prod.mk.injEq] at hr
        obtain ⟨rfl, rfl⟩ := hr
        exact ⟨g2, rfl, e2, by simp⟩
      · simp only [Option.some.injEq, Prod.mk.injEq] at hr
        obtain ⟨rfl, rfl⟩ := hr
        refine ⟨_, rfl, ?_, ?_⟩
        · simp only [CallContext.place]
          exact e2
        · intro c1 hc1
          simp only [Option.some.injEq] at hc1
          rw [← hc1]

theorem again_geometry (fuel : Nat) (rendering : Option (List Nat)) :
    ∀ (rounds : Nat) (ctx : CallContext) (h : TLSChunkHolder) (r : Bool) (s' : State),
      format_write_again rounds fuel ctx h rendering = some (r, s') →
      ∃ g', s'.GlobalCtx = some g' ∧ g'.ChunkSize = ctx.GCtx.ChunkSize := by
  intro rounds
  induction rounds with
  | zero =>
    intro ctx h r s' hfw
    simp [format_write_again] at hfw
  | succ n ih =>
    intro ctx h r s' hfw
    rw [again_unfold] at hfw
    generalize vsnprintf ctx.GCtx.bytes ctx.RecordPlace ctx.space_available_for_record
      rendering = out at hfw
    by_cases hneg : out.2 < 0
    · rw [if_pos hneg] at hfw
      simp only [Option.some.injEq, Prod.mk.injEq] at hfw
      obtain ⟨_, rfl⟩ := hfw
      exact ⟨_, rfl, rfl⟩
    · rw [if_neg hneg] at hfw
      by_cases hbig : out.2.toNat > ctx.space_available_for_record
      · rw [if_pos hbig] at hfw
        cases hreset : CallContext.reset_chunk fuel
            { ctx with GCtx := { ctx.GCtx with bytes := out.1 } } h out.2.toNat with
        | none =>
          rw [hreset] at hfw
          simp at hfw
        | some res =>
          obtain ⟨oc, s1⟩ := res
          rw [hreset] at hfw
          obtain ⟨g2, hg2, e2, hc2⟩ := reset_chunk_geometry fuel _ h _ _ _ hreset
          cases oc with
          | none =>
            simp only [Option.some.injEq, Prod.mk.injEq] at hfw
            obtain ⟨_, rfl⟩ := hfw
            exact ⟨g2, hg2, e2⟩
          | some ctx1 =>
            simp only at hfw
            obtain ⟨g', hg', e'⟩ := ih ctx1 s1.CurrentChunk r s' hfw
            exact ⟨g', hg', by rw [e', hc2 ctx1 rfl]; exact e2⟩
      · rw [if_neg hbig] at hfw
        simp only [Option.some.injEq, Prod.mk.injEq] at hfw
        obtain ⟨_, rfl⟩ := hfw
        exact ⟨_, rfl, rfl⟩

theorem format_write_geometry (rounds fuel : Nat) (s s' : State)
    (rendering : Option (List Nat)) (r : Bool) (g : GlobalContext) (hs : s.GlobalCtx = some g)
    (h : format_write rounds fuel s rendering = some (r, s')) :
    ∃ g', s'.GlobalCtx = some g' ∧ g'.ChunkSize = g.ChunkSize := by
  unfold format_write at h
  split at h
  · simp at h
  · rename_i s1 hinit
    simp only [Option.some.injEq, Prod.mk.injEq] at h
    obtain ⟨_, rfl⟩ := h
    obtain ⟨g1, hg1, _, e2, _⟩ := init_geometry fuel s _ 2 _ g hs hinit
    exact ⟨g1, hg1, e2⟩
  · rename_i c s1 hinit
    obtain ⟨g1, hg1, _, e2, _, hc⟩ := init_geometry fuel s _ 2 _ g hs hinit
    obtain ⟨g', hg', e'⟩ := again_geometry fuel rendering rounds c s1.CurrentChunk r s' h
    exact ⟨g', hg', by rw [e', hc c rfl]; exact e2⟩

/-- On a log with an aligned geometry that one thread uses alone, a `format_write` call
keeps the invariants of such a log, the chunk size and the capacity of the ring. -/
theorem format_write_keeps_invariants (rounds fuel : Nat) (s s' : State)
    (rendering : Option (List Nat)) (r : Bool) (g : GlobalContext) (hs : s.GlobalCtx = some g)
    (hA : g.Aligned s.CurrentChunk) (hu : g.sole_user s.CurrentChunk)
    (h : format_write rounds fuel s rendering = some (r, s')) :
    ∃ g', s'.GlobalCtx = some g' ∧ g'.Aligned s'.CurrentChunk ∧
      g'.sole_user s'.CurrentChunk ∧ g'.ChunkSize = g.ChunkSize ∧
      g'.Queue.Size = g.Queue.Size := by
  have hSA : s.Aligned := by
    intro g0 hg0
    rw [hs] at hg0
    simp only [Option.some.injEq] at hg0
    rw [← hg0]
    exact hA
  obtain ⟨g', hg', b⟩ := format_write_balanced rounds fuel s s' rendering r g hs hA.ring
    (Nat.le_of_eq hu.2) h
  obtain ⟨g'', hg'', e2⟩ := format_write_geometry rounds fuel s s' rendering r g hs h
  rw [hg'] at hg''
  simp only [Option.some.injEq] at hg''
  subst hg''
  have hcard := congrArg Multiset.card b.2.2
  simp only [Multiset.card_add, Multiset.coe_card] at hcard
  exact ⟨g', hg', format_write_aligned rounds fuel s s' rendering r hSA h g' hg',
    ⟨by rw [b.2.1]; exact hu.1, by rw [b.2.1, hcard]; exact hu.2⟩, e2, b.2.1⟩

/-! ## Records between the budget of a fresh chunk and the size check -/

/-- On a log with an aligned geometry, in any state of any thread, a `write` with
`chunk_size - 32 < L ≤ chunk_size - 16` passes the size check of `init` and returns false:
either `get` returns no chunk, or the held chunk is out of space and `reset` is called,
which returns no chunk or a freshly reset chunk that the second `out_of_space` test
refuses. -/
theorem band_write_refused (fuel : Nat) (s : State) (g : GlobalContext) (buf : Nat → Nat)
    (L : Nat) (hg : s.GlobalCtx = some g) (hA : g.Aligned s.CurrentChunk)
    (hf : 2 * g.Queue.Size ≤ fuel) (hl1 : g.ChunkSize - 32 < L)
    (hl2 : L ≤ g.ChunkSize - 16) :
    ¬ L > (g.ChunkSize + WORD - RECORD_PREFIX_SIZE) % WORD ∧
    ∃ chunk1 h1 g1, s.CurrentChunk.get fuel g = some (chunk1, h1, g1) ∧
      ((chunk1 = 0 ∧
          write fuel s buf L =
            some (false, ({ GlobalCtx := some g1, CurrentChunk := h1 } : State))) ∨
        (chunk1 ≠ 0 ∧
          MemoryBufferChunk.out_of_space g1.bytes chunk1 g1.ChunkSize L = true ∧
          ∃ chunk2 h2 g2, h1.reset fuel g1 = some (chunk2, h2, g2) ∧
            write fuel s buf L =
              some (false, ({ GlobalCtx := some g2, CurrentChunk := h2 } : State)) ∧
            (chunk2 ≠ 0 →
              MemoryBufferChunk.get_fill_point g2.bytes chunk2 = chunk2 + 16 ∧
              MemoryBufferChunk.out_of_space g2.bytes chunk2 g2.ChunkSize L = true))) := by
  have hW : WORD = 18446744073709551616 := by simp [WORD]
  have hin := hA.in_space
  obtain ⟨hcs, hct, _⟩ := hA.geometry
  have hc16 := hA.chunk_aligned
  simp only [RECORD_ALIGNMENT] at hc16
  have hsub : (g.ChunkSize + WORD - RECORD_PREFIX_SIZE) % WORD = g.ChunkSize - 16 := by
    simp only [RECORD_PREFIX_SIZE, hW] at *
    omega
  have hbig : ¬ L > g.ChunkSize - 16 := by omega
  refine ⟨by rw [hsub]; exact hbig, ?_⟩
  obtain ⟨chunk1, h1, g1, hget⟩ := get_total fuel s.CurrentChunk g hA.ring hf
  refine ⟨chunk1, h1, g1, hget, ?_⟩
  by_cases hz1 : chunk1 = 0
  · left
    refine ⟨hz1, ?_⟩
    subst hz1
    simp only [write, CallContext.init, hg, hsub, hbig, if_false, hget, if_true]
  · right
    obtain ⟨hA1, hch1⟩ := holder_get_aligned fuel _ _ _ _ _ hA hget
    obtain ⟨_, e2, _⟩ := holder_get_geometry fuel _ _ _ _ _ hget
    have b1 := get_balanced fuel _ _ _ _ _ hA.ring hget
    obtain ⟨hchunk1, hfill1, hfill2, hfill3⟩ := hA1.held (by rw [hch1]; exact hz1)
    rw [hch1] at hchunk1 hfill1 hfill2 hfill3
    obtain ⟨c1, c2, c3, c4, c5⟩ := is_chunk_facts g1 chunk1 hA1.geometry
      hA1.chunk_aligned hA1.base_aligned hA1.base_pos hchunk1
    have hin1 := hA1.in_space
    have hos : MemoryBufferChunk.out_of_space g1.bytes chunk1 g1.ChunkSize L = true := by
      have hfp : MemoryBufferChunk.get_fill_point g1.bytes chunk1 % WORD =
          MemoryBufferChunk.get_fill_point g1.bytes chunk1 :=
        Nat.mod_eq_of_lt (by omega)
      simp only [MemoryBufferChunk.out_of_space, RECORD_PREFIX_SIZE, hfp, decide_eq_true_eq]
      rw [hW] at hin1 ⊢
      omega
    obtain ⟨chunk2, h2, g2, hreset⟩ := reset_total fuel h1 g1 b1.1 (by rw [b1.2.1]; exact hf)
    obtain ⟨hA2, hch2⟩ := holder_reset_aligned fuel _ _ _ _ _ hA1 hreset
    obtain ⟨_, f2, _⟩ := holder_reset_geometry fuel _ _ _ _ _ hreset
    have hfresh : chunk2 ≠ 0 →
        MemoryBufferChunk.get_fill_point g2.bytes chunk2 = chunk2 + 16 ∧
        MemoryBufferChunk.out_of_space g2.bytes chunk2 g2.ChunkSize L = true := by
      intro hne2
      have hb := holder_reset_bytes fuel _ _ _ _ _ hreset hne2
      obtain ⟨hchunk2, _⟩ := hA2.held (by rw [hch2]; exact hne2)
      rw [hch2] at hchunk2
      obtain ⟨d1, d2, d3, d4, d5⟩ := is_chunk_facts g2 chunk2 hA2.geometry
        hA2.chunk_aligned hA2.base_aligned hA2.base_pos hchunk2
      have hin2 := hA2.in_space
      obtain ⟨k1, _, k3⟩ := fresh_chunk_space g1.bytes chunk2 g2.ChunkSize d1 (by omega)
        (by omega)
      rw [← hb] at k1 k3
      have key := k3 L (by rw [hW] at *; omega)
      refine ⟨k1, ?_⟩
      cases hx : MemoryBufferChunk.out_of_space g2.bytes chunk2 g2.ChunkSize L with
      | true => rfl
      | false =>
        have := key.mp hx
        rw [f2, e2] at this
        omega
    refine ⟨hz1, hos, chunk2, h2, g2, hreset, ?_, hfresh⟩
    by_cases hz2 : chunk2 = 0
    · subst hz2
      simp only [write, CallContext.init, hg, hsub, hbig, if_false, hget, hz1, hos, if_true,
        hreset]
    · simp only [write, CallContext.init, hg, hsub, hbig, if_false, hget, hz1, hos, if_true,
        hreset, hz2, (hfresh hz2).2]

set_option maxRecDepth 100000 in
/-- The case where no chunk can be obtained, for a record between the two limits: threads 0
and 1 hold the two chunks of the log and the ring is empty; a `write` of 112 bytes by
thread 2 passes the size check (`112 ≤ 128 - 16`), `get` returns null, and the call
returns false with no `out_of_space` test made: the holder of thread 2 stays empty and no
chunk is rotated. -/
theorem band_write_without_chunk :
    both_chunks_held.CurrentChunk.map (fun h => h.Chunk) = [4096, 4224, 0] ∧
    both_chunks_held.GlobalCtx.map (fun g => g.Queue.stored) = some [] ∧
    (both_chunks_held.GlobalCtx.bind
      (fun g => ((both_chunks_held.view 2).CurrentChunk.get 4 g).map
        (fun r => (r.1, r.2.1.Chunk)))) = some (0, 0) ∧
    (write 4 (both_chunks_held.view 2) (fun _ => 97) 112).map
      (fun r => (r.1, r.2.CurrentChunk.Chunk, r.2.GlobalCtx.map (fun g => g.Queue.stored))) =
      some (false, 0, some []) := by
  refine ⟨rfl, rfl, rfl, rfl⟩

/-- C11 (amended): for every geometry accepted by `initialize` whose chunk size is a
multiple of 16, a freshly reset chunk at a 16-byte-aligned address has the available space
`chunk_size - 16`, the formatted-write budget `cap = available - 16` of it is
`chunk_size - 32`, and it does not report `out_of_space(chunk_size, L)` iff
`L ≤ chunk_size - 32`. On a log with such a geometry, in every state of every thread,
`write` returns; a `write` with `L ≤ chunk_size - 32` can fail only because no chunk could
be obtained (the holder holds none afterwards); and a `write` with
`chunk_size - 32 < L ≤ chunk_size - 16` passes the size check and returns false: either no
chunk could be obtained (`get` or `reset` returned null), or the held chunk was out of
space, `reset` handed out a freshly reset chunk, and the second `out_of_space` test refused
the record. -/
theorem C11_fresh_chunk_capacity (m : Memory) (p total_buffer_size chunk_size : Nat)
    (hv : valid_geometry total_buffer_size chunk_size)
    (hc : chunk_size % RECORD_ALIGNMENT = 0) (hp : p % RECORD_ALIGNMENT = 0)
    (hw : p + chunk_size < WORD) :
    MemoryBufferChunk.available_space (MemoryBufferChunk.reset m p) p chunk_size =
      chunk_size - 16 ∧
    (MemoryBufferChunk.available_space (MemoryBufferChunk.reset m p) p chunk_size + WORD -
      RECORD_PREFIX_SIZE) % WORD = chunk_size - 32 ∧
    (∀ len, len + 16 < WORD →
      (MemoryBufferChunk.out_of_space (MemoryBufferChunk.reset m p) p chunk_size len = false ↔
        len + 32 ≤ chunk_size)) ∧
    (∀ fuel s buf len g, s.GlobalCtx = some g → g.Aligned s.CurrentChunk →
      2 * g.Queue.Size ≤ fuel → ∃ r s', write fuel s buf len = some (r, s')) ∧
    (∀ fuel s s' buf len g, s.Aligned → s.GlobalCtx = some g → len + 32 ≤ g.ChunkSize →
      write fuel s buf len = some (false, s') → s'.CurrentChunk.Chunk = 0) ∧
    (∀ fuel s buf L g, s.GlobalCtx = some g → g.Aligned s.CurrentChunk →
      2 * g.Queue.Size ≤ fuel → g.ChunkSize - 32 < L → L ≤ g.ChunkSize - 16 →
      ¬ L > (g.ChunkSize + WORD - RECORD_PREFIX_SIZE) % WORD ∧
      ∃ chunk1 h1 g1, s.CurrentChunk.get fuel g = some (chunk1, h1, g1) ∧
        ((chunk1 = 0 ∧
            write fuel s buf L =
              some (false, ({ GlobalCtx := some g1, CurrentChunk := h1 } : State))) ∨
          (chunk1 ≠ 0 ∧
            MemoryBufferChunk.out_of_space g1.bytes chunk1 g1.ChunkSize L = true ∧
            ∃ chunk2 h2 g2, h1.reset fuel g1 = some (chunk2, h2, g2) ∧
              write fuel s buf L =
                some (false, ({ GlobalCtx := some g2, CurrentChunk := h2 } : State)) ∧
              (chunk2 ≠ 0 →
                MemoryBufferChunk.get_fill_point g2.bytes chunk2 = chunk2 + 16 ∧
                MemoryBufferChunk.out_of_space g2.bytes chunk2 g2.ChunkSize L = true)))) := by
  have hW : WORD = 18446744073709551616 := by simp [WORD]
  simp only [RECORD_ALIGNMENT] at hc hp
  obtain ⟨h18, _, _⟩ := hv
  obtain ⟨_, h2, h3⟩ := fresh_chunk_space m p chunk_size hp (by omega) hw
  refine ⟨h2, ?_, h3, ?_, ?_, ?_⟩
  · rw [h2]
    simp only [RECORD_PREFIX_SIZE]
    rw [hW] at hw ⊢
    omega
  · intro fuel s buf len g hs hA hf
    obtain ⟨oc, s1, hinit⟩ := init_total fuel s len g hs hA.ring hf
    unfold write
    rw [hinit]
    cases oc with
    | none => exact ⟨_, _, rfl⟩
    | some c => exact ⟨_, _, rfl⟩
  · intro fuel s s' buf len g hA hs hl h
    exact write_fails_without_chunk fuel s s' buf len g hA hs hl h
  · intro fuel s buf L g hs hA hf hl1 hl2
    exact band_write_refused fuel s g buf L hs hA hf hl1 hl2

theorem C11_fresh_chunk_capacity_witness :
    valid_geometry 256 128 ∧ 128 % RECORD_ALIGNMENT = 0 ∧ 4096 % RECORD_ALIGNMENT = 0 ∧
    4096 + 128 < WORD ∧
    MemoryBufferChunk.available_space (MemoryBufferChunk.reset (fun _ => 0) 4096) 4096 128 =
      128 - 16 ∧
    (MemoryBufferChunk.available_space (MemoryBufferChunk.reset (fun _ => 0) 4096) 4096 128 +
      WORD - RECORD_PREFIX_SIZE) % WORD = 128 - 32 ∧
    (MemoryBufferChunk.out_of_space (MemoryBufferChunk.reset (fun _ => 0) 4096) 4096 128 96
      = false ↔ 96 + 32 ≤ 128) ∧
    (∃ r s', write 4 log_256_128 (fun _ => 97) 96 = some (r, s')) ∧
    ¬ 112 > ((fresh_context (zeroed_block 4096) 256 128).ChunkSize + WORD -
      RECORD_PREFIX_SIZE) % WORD ∧
    ∃ chunk1 h1 g1,
      log_256_128.CurrentChunk.get 4 (fresh_context (zeroed_block 4096) 256 128) =
        some (chunk1, h1, g1) ∧
      ((chunk1 = 0 ∧
          write 4 log_256_128 (fun _ => 97) 112 =
            some (false, ({ GlobalCtx := some g1, CurrentChunk := h1 } : State))) ∨
        (chunk1 ≠ 0 ∧
          MemoryBufferChunk.out_of_space g1.bytes chunk1 g1.ChunkSize 112 = true ∧
          ∃ chunk2 h2 g2, h1.reset 4 g1 = some (chunk2, h2, g2) ∧
            write 4 log_256_128 (fun _ => 97) 112 =
              some (false, ({ GlobalCtx := some g2, CurrentChunk := h2 } : State)) ∧
            (chunk2 ≠ 0 →
              MemoryBufferChunk.get_fill_point g2.bytes chunk2 = chunk2 + 16 ∧
              MemoryBufferChunk.out_of_space g2.bytes chunk2 g2.ChunkSize 112 = true))) :=
  have h := C11_fresh_chunk_capacity (fun _ => 0) 4096 256 128 (by decide) (by decide)
    (by decide) (by simp [WORD])
  have hA := log_256_128_aligned (fresh_context (zeroed_block 4096) 256 128) rfl
  have hb := h.2.2.2.2.2 4 log_256_128 (fun _ => 97) 112
    (fresh_context (zeroed_block 4096) 256 128) rfl hA (by decide) (by decide) (by decide)
  ⟨by decide, by decide, by decide, by simp [WORD], h.1, h.2.1,
    h.2.2.1 96 (by simp [WORD]),
    h.2.2.2.1 4 log_256_128 (fun _ => 97) 96 (fresh_context (zeroed_block 4096) 256 128) rfl hA
      (by decide),
    hb.1, hb.2⟩

end memorylog
